import Mathlib

/-!
# Floorp Portable: self-update engine (`src/main.go`)

A shallow embedding of the updater of `src/main.go` and proofs about it.

Modelling conventions.

* A path is the list of its components (`FsPath`); `filepath.Join p name` is `p ++ [name]`,
  `filepath.Base` is the last component and `filepath.Dir` drops it.  Names are compared
  exactly (byte for byte).
* A directory tree is a `Node`: a regular file with content and mode, or a directory with a
  mode and its entries.  The entries are kept in the order `filepath.Walk` visits them (sorted
  by name); `Node.wf` states that the names of every directory are strictly increasing.
  `extract7zArchive` creates only regular files and directories, so no other kind of node
  occurs in an extracted tree.
* The installation is the pair `FS` of what is at `app.AppPath` (`live`) and at
  `app.AppPath + ".bak"` (`bak`).  The steps of `extractAndUpdate` that follow the extraction
  act on this pair (`extractAndUpdate`); the whole function, with the extraction writing
  wherever the member names lead, is taken on the whole filesystem
  (`extractAndUpdateOnDisk`, `downloadAndUpdate`).
* Every filesystem or network operation that can fail takes its failure from an explicit
  environment (`CopyFaults`, `InstallFaults`, `ExtractFaults`, `ExtractEnv`, `DiskRun`,
  `DownloadRun`): `none` means that no failure is injected, `some e` that the operation fails
  with `e`.
* `int` is 64 bits wide (`intSize`), as on the `win64` target of the launcher.
* Mode bits are stored as given (no umask).
* `extract7zArchive` acts on the whole filesystem, a `Node` whose paths are taken from the
  root, so that a destination path outside the extraction directory can be told apart.
* The version record is decoded by `encoding/json` into a `map[string]interface{}`.  The
  decoding of a value is a parameter of the model (`JsonDecoder`); `scalarDecoder` gives it
  for null, booleans, integer literals (decoded into the nearest `float64`) and strings.
-/

namespace FloorpPortable

/-! ## Errors and paths -/

/-- Error values.  `io code` stands for any operating-system or network error. -/
inductive Err where
  | io (code : Nat)
  | notExist
  | exist
  | notDir
  | isDir
  | invalidNumber
  | outOfRange
  | versionMissing
  | emptyDownload
  | payloadNotFound
  | unmarshalType
  deriving DecidableEq, Repr

/-- A path, as the list of its components. -/
abbrev FsPath := List String

instance instDecidableEqExcept {ε α : Type} [DecidableEq ε] [DecidableEq α] :
    DecidableEq (Except ε α)
  | .ok a, .ok b =>
    if h : a = b then isTrue (congrArg Except.ok h) else isFalse (fun h1 => h (Except.ok.inj h1))
  | .error a, .error b =>
    if h : a = b then isTrue (congrArg Except.error h)
    else isFalse (fun h1 => h (Except.error.inj h1))
  | .ok _, .error _ => isFalse (fun h => Except.noConfusion h)
  | .error _, .ok _ => isFalse (fun h => Except.noConfusion h)

/-- The last component of a path: `filepath.Base` (`"."` for the empty path). -/
def base (p : FsPath) : String := p.getLast?.getD "."

/-- The path without its last component: `filepath.Dir`. -/
def parentDir (p : FsPath) : FsPath := p.dropLast

/-! ## Version comparison (`compareVersions`, lines 387-418) -/

/-- Width of Go's `int` on the build target. -/
def intSize : Nat := 64

/-- Go's `strings.TrimPrefix(s, "v")`; also the `HasPrefix`/`version[1:]` pair of
`getLatestGitHubRelease`. -/
def trimLeadingV : List Char → List Char
  | 'v' :: rest => rest
  | s => s

/-- Go's `strings.Split(s, ".")`: the pieces between the dots; the empty string gives one
empty piece. -/
def splitDot : List Char → List (List Char)
  | [] => [[]]
  | c :: cs =>
    if c = '.' then [] :: splitDot cs
    else
      match splitDot cs with
      | [] => [[c]]
      | h :: t => (c :: h) :: t

/-- The loop of Go's `strconv.ParseUint(s, 10, 0)` over the characters of `s`, `n` being the
value read so far.  A character that is not a digit ends the loop with a syntax error; a digit
with which the value leaves `uint64` ends it with a range error at once, before the characters
after it are looked at. -/
def parseUintLoop : List Char → Nat → Except Err Nat
  | [], n => .ok n
  | c :: cs, n =>
    if 48 ≤ c.toNat ∧ c.toNat ≤ 57 then
      if n ≥ (2 ^ 64 - 1) / 10 + 1 then .error Err.outOfRange
      else if n * 10 + (c.toNat - 48) > 2 ^ intSize - 1 then .error Err.outOfRange
      else parseUintLoop cs (n * 10 + (c.toNat - 48))
    else .error Err.invalidNumber

/-- Go's `strconv.ParseUint(s, 10, 0)`.  With the range error the value returned is the
largest unsigned integer, `2 ^ intSize - 1`. -/
def ParseUint (s : List Char) : Except Err Nat :=
  if s = [] then .error Err.invalidNumber else parseUintLoop s 0

/-- Whether the text starts with a minus sign. -/
def hasMinusSign : List Char → Bool
  | '-' :: _ => true
  | _ => false

/-- The text without one leading sign character. -/
def stripSign : List Char → List Char
  | '-' :: r => r
  | '+' :: r => r
  | r => r

/-- Go's `strconv.ParseInt(s, 10, 0)`: the value and the error.  A syntax error of
`ParseUint` gives `0`; its range error goes on with the largest unsigned integer, and a value
outside `int` gives the nearest bound of `int` and a range error. -/
def ParseInt (s : List Char) : Int × Option Err :=
  if s = [] then (0, some Err.invalidNumber)
  else
    let neg : Bool := hasMinusSign s
    match (match ParseUint (stripSign s) with
           | .ok un => Except.ok un
           | .error e => if e = Err.outOfRange then Except.ok (2 ^ intSize - 1) else Except.error e)
    with
    | .error e => (0, some e)
    | .ok un =>
      if neg = false ∧ un ≥ 2 ^ (intSize - 1) then
        ((2 ^ (intSize - 1) : Int) - 1, some Err.outOfRange)
      else if neg = true ∧ un > 2 ^ (intSize - 1) then
        (-(2 ^ (intSize - 1) : Int), some Err.outOfRange)
      else (if neg then -(un : Int) else (un : Int), none)

/-- Go's `strconv.Atoi`: `ParseInt(s, 10, 0)` (its fast path for short texts gives the same
results). -/
def Atoi (s : List Char) : Int × Option Err := ParseInt s

/-- The loop `for i := 0; i < maxLen; i++` of `compareVersions`, with `remaining = maxLen - i`
iterations left.  The error of `Atoi` is discarded, as in the source. -/
def compareLoop (v1Parts v2Parts : List (List Char)) : Nat → Nat → Int
  | 0, _ => 0
  | remaining + 1, i =>
    let num1 : Int := if i < v1Parts.length then (Atoi (v1Parts.getD i [])).1 else 0
    let num2 : Int := if i < v2Parts.length then (Atoi (v2Parts.getD i [])).1 else 0
    if num1 < num2 then -1
    else if num1 > num2 then 1
    else compareLoop v1Parts v2Parts remaining (i + 1)

/-- The function `compareVersions` of the source. -/
def compareVersions (v1 v2 : String) : Int :=
  let v1Parts := splitDot (trimLeadingV v1.data)
  let v2Parts := splitDot (trimLeadingV v2.data)
  let maxLen := if v2Parts.length > v1Parts.length then v2Parts.length else v1Parts.length
  compareLoop v1Parts v2Parts maxLen 0

/-! ### The comparison as the specification words it -/

/-- A decimal digit. -/
def isDecDigit (c : Char) : Bool := decide (48 ≤ c.toNat ∧ c.toNat ≤ 57)

/-- The integer a text denotes when it is a decimal integer (an optional sign followed by at
least one digit), without any bound. -/
def decimalValue (s : List Char) : Option Int :=
  let body : List Char := stripSign s
  if body ≠ [] ∧ body.all isDecDigit = true then
    let n : Nat := body.foldl (fun acc c => acc * 10 + (c.toNat - 48)) 0
    if hasMinusSign s = true then some (-(n : Int)) else some (n : Int)
  else none

/-- Component value as the specification states it: the integer value of a decimal integer
within the range of `int`, and `0` otherwise. -/
def specComponentValue (s : List Char) : Int :=
  match decimalValue s with
  | some z => if -(2 ^ (intSize - 1) : Int) ≤ z ∧ z ≤ (2 ^ (intSize - 1) : Int) - 1 then z else 0
  | none => 0

/-- The value of the decimal digits a text starts with (`0` when it starts with none). -/
def leadingDigitsValue (s : List Char) : Nat :=
  (s.takeWhile isDecDigit).foldl (fun acc c => acc * 10 + (c.toNat - 48)) 0

/-- Component value with saturation: a decimal integer outside the range of `int` counts as
the nearest bound of `int`.  A text that is not a decimal integer counts as `0`, unless the
digits it starts with after its optional sign already exceed the largest unsigned integer
(`2 ^ intSize - 1`): then it counts as the bound of `int` on the side of its sign, whatever
follows these digits. -/
def saturatedComponentValue (s : List Char) : Int :=
  match decimalValue s with
  | some z =>
    if z < -(2 ^ (intSize - 1) : Int) then -(2 ^ (intSize - 1) : Int)
    else if z > (2 ^ (intSize - 1) : Int) - 1 then (2 ^ (intSize - 1) : Int) - 1
    else z
  | none =>
    if leadingDigitsValue (stripSign s) > 2 ^ intSize - 1 then
      if hasMinusSign s = true then -(2 ^ (intSize - 1) : Int) else (2 ^ (intSize - 1) : Int) - 1
    else 0

/-- The component-value sequence of a version: one leading `v` removed, split on dots, each
component valued by `val`. -/
def componentValues (val : List Char → Int) (v : String) : List Int :=
  (splitDot (trimLeadingV v.data)).map val

/-- Extend a sequence with zeros up to length `n`. -/
def padZeros (n : Nat) (l : List Int) : List Int := l ++ List.replicate (n - l.length) 0

/-- Sign (`-1`, `0`, `1`) of the lexicographic comparison of two sequences. -/
def lexSign : List Int → List Int → Int
  | x :: xs, y :: ys => if x < y then -1 else if x > y then 1 else lexSign xs ys
  | _, _ => 0

/-- The comparison the specification describes, for a given valuation of the components. -/
def specCompare (val : List Char → Int) (v1 v2 : String) : Int :=
  let s1 := componentValues val v1
  let s2 := componentValues val v2
  let n := max s1.length s2.length
  lexSign (padZeros n s1) (padZeros n s2)

/-- Comparison of the first `n` elements of two sequences, a missing element counting as `0`
(used in the proofs). -/
def cmpN : Nat → List Int → List Int → Int
  | 0, _, _ => 0
  | n + 1, xs, ys =>
    if xs.headD 0 < ys.headD 0 then -1
    else if xs.headD 0 > ys.headD 0 then 1
    else cmpN n xs.tail ys.tail

/-! ## Update check (`checkForUpdates`, lines 225-258) -/

/-- The function `getPortappVersion`: `portapp` is the outcome of locating, reading and
decoding `portapp.json`, namely the value of its `version` field (empty when absent). -/
def getPortappVersion (portapp : Except Err String) : Except Err String :=
  match portapp with
  | .error e => .error e
  | .ok version => if version = "" then .error Err.versionMissing else .ok version

/-- The function `getLatestGitHubRelease`: `response` is the outcome of the HTTP request and
of decoding its body, namely the fields `tag_name` and `html_url`. -/
def getLatestGitHubRelease (response : Except Err (String × String)) :
    Except Err (String × String) :=
  match response with
  | .error e => .error e
  | .ok (tagName, htmlURL) => .ok (String.mk (trimLeadingV tagName.data), htmlURL)

/-- Go's `strings.Replace(s, old, new, 1)`: the first occurrence of `old` is replaced. -/
def replaceFirst (old new : List Char) : List Char → List Char
  | [] => if old = [] then new else []
  | c :: cs =>
    if old.isPrefixOf (c :: cs) then new ++ (c :: cs).drop old.length
    else c :: replaceFirst old new cs

/-- The four results of `checkForUpdates`. -/
structure UpdateCheck where
  updateAvailable : Bool
  downloadURL : String
  currentVersion : String
  latestVersion : String
  deriving DecidableEq, Repr

/-- The function `checkForUpdates` of the source. -/
def checkForUpdates (portapp : Except Err String) (response : Except Err (String × String)) :
    UpdateCheck :=
  let currentVersion : String :=
    match getPortappVersion portapp with
    | .ok v => v
    | .error _ => "unknown"
  match getLatestGitHubRelease response with
  | .error _ => ⟨false, "", currentVersion, "unknown"⟩
  | .ok (latestVersion, releaseURL) =>
    let downloadURL : String :=
      String.mk (replaceFirst "tag".data "download".data releaseURL.data)
        ++ "/floorp-win64.installer.exe"
    if latestVersion ≠ "unknown" ∧ currentVersion ≠ "unknown" then
      ⟨decide (compareVersions currentVersion latestVersion < 0), downloadURL, currentVersion,
        latestVersion⟩
    else ⟨false, "", currentVersion, latestVersion⟩

/-! ## Directory trees -/

mutual
/-- A regular file (content, mode) or a directory (mode, entries). -/
inductive Node where
  | file (content : List Nat) (mode : Nat)
  | dir (mode : Nat) (entries : Entries)
  deriving DecidableEq
/-- The entries of a directory, in listing order. -/
inductive Entries where
  | nil
  | cons (name : String) (node : Node) (rest : Entries)
  deriving DecidableEq
end

/-- Result of `info.IsDir()`. -/
def Node.isDir : Node → Bool
  | .file _ _ => false
  | .dir _ _ => true

/-- The entry of the given name, if any. -/
def Entries.lookup (x : String) : Entries → Option Node
  | .nil => none
  | .cons n nd rest => if n = x then some nd else Entries.lookup x rest

/-- The names of the entries, in order. -/
def Entries.names : Entries → List String
  | .nil => []
  | .cons name _ rest => name :: Entries.names rest

/-- Concatenation of two entry lists. -/
def Entries.append : Entries → Entries → Entries
  | .nil, ys => ys
  | .cons name child rest, ys => .cons name child (Entries.append rest ys)

/-- Lexicographic order on character sequences, by code point (the byte order of UTF-8). -/
def ltChars : List Char → List Char → Bool
  | [], [] => false
  | [], _ :: _ => true
  | _ :: _, [] => false
  | a :: as, b :: bs =>
    if a.toNat < b.toNat then true
    else if b.toNat < a.toNat then false
    else ltChars as bs

/-- The order in which `filepath.Walk` lists the names of a directory. -/
def nameLt (a b : String) : Bool := ltChars a.data b.data

mutual
/-- Well-formed tree: in every directory the names are strictly increasing (so they are
distinct and listed in walk order). -/
def Node.wf : Node → Bool
  | .file _ _ => true
  | .dir _ es => Entries.wf es
/-- Well-formed entries: see `Node.wf`. -/
def Entries.wf : Entries → Bool
  | .nil => true
  | .cons name child rest =>
    (Entries.names rest).all (fun b => nameLt name b) && Node.wf child && Entries.wf rest
end

/-- Add or replace the entry `x`, keeping the entries sorted by name. -/
def Entries.insert (x : String) (v : Node) : Entries → Entries
  | .nil => .cons x v .nil
  | .cons n nd rest =>
    if x = n then .cons x v rest
    else if nameLt x n then .cons x v (.cons n nd rest)
    else .cons n nd (Entries.insert x v rest)

/-- The node at a path relative to `n`. -/
def Node.get : FsPath → Node → Option Node
  | [], n => some n
  | name :: rest, .dir _ es =>
    match es.lookup name with
    | some child => Node.get rest child
    | none => none
  | _ :: _, .file _ _ => none

/-- Result of `os.Stat(filepath.Join(path, name))` for the node `n` at `path`. -/
def statChild (n : Node) (name : String) : Option Node :=
  match n with
  | .dir _ es => es.lookup name
  | .file _ _ => none

/-- The node at the absolute path `p`, for the tree `tree` rooted at `extractDir`. -/
def resolve (extractDir : FsPath) (tree : Node) (p : FsPath) : Option Node :=
  if extractDir.isPrefixOf p then tree.get (p.drop extractDir.length) else none

/-! ## `filepath.Walk` -/

/-- What a walk callback returns: `nil`, `filepath.SkipDir`, or another error. -/
inductive WalkCtl where
  | nil
  | skipDir
  | fail (e : Err)
  deriving DecidableEq

/-- Read errors met by a walk: of `os.Lstat` on a path, of reading a directory. -/
structure ReadFaults where
  lstat : FsPath → Option Err
  readDir : FsPath → Option Err

/-- No read error. -/
def noReadFaults : ReadFaults := ⟨fun _ => none, fun _ => none⟩

/-- A walk callback `func(path, info, err) error`, acting on a state of type `σ` (the
variables it captures).  `info` is `none` when `Lstat` failed. -/
abbrev WalkFunc (σ : Type) := FsPath → Option Node → Option Err → σ → σ × WalkCtl

mutual
/-- Go's `filepath.walk` on the node at `path`: the callback is called on the node; for a
directory whose callback returned `nil` the entries follow, in order. -/
def walkNode {σ : Type} (rf : ReadFaults) (walkFn : WalkFunc σ) : FsPath → Node → σ → σ × WalkCtl
  | path, .file c m, s => walkFn path (some (.file c m)) none s
  | path, .dir m es, s =>
    match rf.readDir path with
    | some e => walkFn path (some (.dir m es)) (some e) s
    | none =>
      match walkFn path (some (.dir m es)) none s with
      | (s1, .nil) => walkEntries rf walkFn path es s1
      | (s1, r) => (s1, r)
/-- The loop of `filepath.walk` over the names of a directory.  `SkipDir` returned for a
directory skips that directory only, and the loop goes on with the next name; `SkipDir`
returned for a file ends the loop (the rest of the containing directory is skipped). -/
def walkEntries {σ : Type} (rf : ReadFaults) (walkFn : WalkFunc σ) :
    FsPath → Entries → σ → σ × WalkCtl
  | _, .nil, s => (s, .nil)
  | path, .cons name child rest, s =>
    match rf.lstat (path ++ [name]) with
    | some e =>
      match walkFn (path ++ [name]) none (some e) s with
      | (s1, .fail e1) => (s1, .fail e1)
      | (s1, _) => walkEntries rf walkFn path rest s1
    | none =>
      match walkNode rf walkFn (path ++ [name]) child s with
      | (s1, .nil) => walkEntries rf walkFn path rest s1
      | (s1, .skipDir) => if child.isDir then walkEntries rf walkFn path rest s1 else (s1, .skipDir)
      | (s1, .fail e) => (s1, .fail e)
end

/-- Go's `filepath.Walk(root, walkFn)`, for the node `t` at `root` (`none`: nothing there).
A final `SkipDir` is turned into `nil`. -/
def Walk {σ : Type} (rf : ReadFaults) (walkFn : WalkFunc σ) (root : FsPath) (t : Option Node)
    (s : σ) : σ × Option Err :=
  let r : σ × WalkCtl :=
    match t with
    | none => walkFn root none (some Err.notExist) s
    | some n =>
      match rf.lstat root with
      | some e => walkFn root none (some e) s
      | none => walkNode rf walkFn root n s
  match r with
  | (s1, .fail e) => (s1, some e)
  | (s1, _) => (s1, none)

/-! ## Payload search (`findAppDir`, lines 758-845) -/

/-- The callback of the first walk (lines 793-811); the state is `foundAppDir`, `none`
standing for the empty string (no path handed to the callback is empty). -/
def appDirWalkFn : WalkFunc (Option FsPath)
  | _, _, some _, found => (found, .nil)
  | _, none, none, found => (found, .nil)
  | path, some info, none, found =>
    if info.isDir = true ∧ base path = "app" then
      if (statChild info "floorp.exe").isSome then (some path, .skipDir)
      else (found, .nil)
    else (found, .nil)

/-- The callback of the second walk (lines 825-836); the state is `floorpDir`. -/
def floorpWalkFn : WalkFunc (Option FsPath)
  | _, _, some _, found => (found, .nil)
  | _, none, none, found => (found, .nil)
  | path, some info, none, found =>
    if info.isDir = false ∧ base path = "floorp.exe" then (some (parentDir path), .skipDir)
    else (found, .nil)

/-- The function `findAppDir` of the source, for the tree `t` at `extractDir`.  The tree has
just been written by the same process and is read without error. -/
def findAppDir (extractDir : FsPath) (t : Node) : Except Err FsPath :=
  let appDir := extractDir ++ ["app"]
  let direct : Bool :=
    match statChild t "app" with
    | some a => (statChild a "floorp.exe").isSome
    | none => false
  if direct then .ok appDir
  else
    match (Walk noReadFaults appDirWalkFn extractDir (some t) none).1 with
    | some foundAppDir => .ok foundAppDir
    | none =>
      match (Walk noReadFaults floorpWalkFn extractDir (some t) none).1 with
      | some floorpDir => .ok floorpDir
      | none => .error Err.payloadNotFound

mutual
/-- Every entry named `floorp.exe` below the node at `path`, in walk order: the directory
that directly contains it, and whether the entry is itself a directory. -/
def Node.markers (path : FsPath) : Node → List (FsPath × Bool)
  | .file _ _ => []
  | .dir _ es => Entries.markers path es
/-- The entries named `floorp.exe` among and below the entries of the directory at `path`. -/
def Entries.markers (path : FsPath) : Entries → List (FsPath × Bool)
  | .nil => []
  | .cons name child rest =>
    (if name = "floorp.exe" then [(path, child.isDir)] else [])
      ++ Node.markers (path ++ [name]) child ++ Entries.markers path rest
end

/-- Invariant of a walk, on nodes: `R` holds of every marker at or below the node (used in
the proofs). -/
def MarkQ (R : FsPath × Bool → Prop) (path : FsPath) (n : Node) : Prop :=
  (n.isDir = false → base path = "floorp.exe" → R (parentDir path, false))
    ∧ ∀ x ∈ Node.markers path n, R x

/-- Invariant of a walk, on entries (used in the proofs). -/
def MarkQE (R : FsPath × Bool → Prop) (path : FsPath) (es : Entries) : Prop :=
  ∀ x ∈ Entries.markers path es, R x

/-- The state of a search walk is the initial one or the directory of a marker satisfying
`R` (used in the proofs). -/
def FoundBy (R : FsPath × Bool → Prop) (found0 : Option FsPath) (s : Option FsPath) : Prop :=
  s = found0 ∨ ∃ d b, s = some d ∧ R (d, b)

/-- The relative path leads to a well-formed directory of the tree (used in the proofs). -/
def DirAt (n : Node) (rel : FsPath) : Prop :=
  ∃ m es, n.get rel = some (Node.dir m es) ∧ es.wf = true

/-! ## Filesystem operations on a destination tree -/

/-- Go's `os.MkdirAll(path, mode)` for a path relative to the node `n`: directories that
exist are kept, missing ones are created with `mode`, a regular file on the way is an
error. -/
def Node.mkdirAll (mode : Nat) : FsPath → Node → Except Err Node
  | [], .dir m es => .ok (.dir m es)
  | [], .file _ _ => .error Err.notDir
  | name :: rest, .dir m es =>
    match es.lookup name with
    | some child =>
      match Node.mkdirAll mode rest child with
      | .ok c => .ok (.dir m (es.insert name c))
      | .error e => .error e
    | none =>
      match Node.mkdirAll mode rest (.dir mode .nil) with
      | .ok c => .ok (.dir m (es.insert name c))
      | .error e => .error e
  | _ :: _, .file _ _ => .error Err.notDir

/-- Apply `f` to what is at a path relative to the node `n` (`none`: nothing there yet) and
store the result there.  The directories leading to the path must exist. -/
def Node.updateAt (f : Option Node → Except Err Node) : FsPath → Node → Except Err Node
  | [], n => f (some n)
  | name :: rest, .dir m es =>
    match es.lookup name with
    | some child =>
      match Node.updateAt f rest child with
      | .ok c => .ok (.dir m (es.insert name c))
      | .error e => .error e
    | none =>
      if rest = [] then
        match f none with
        | .ok c => .ok (.dir m (es.insert name c))
        | .error e => .error e
      else .error Err.notExist
  | _ :: _, .file _ _ => .error Err.notDir

/-- The function `os.MkdirAll` on a path relative to a destination that may not exist yet
(its parent directory exists). -/
def mkdirAllSlot (mode : Nat) (rel : FsPath) : Option Node → Except Err (Option Node)
  | some n =>
    match n.mkdirAll mode rel with
    | .ok n1 => .ok (some n1)
    | .error e => .error e
  | none =>
    match (Node.dir mode .nil).mkdirAll mode rel with
    | .ok n1 => .ok (some n1)
    | .error e => .error e

/-- The function `Node.updateAt` on a destination that may not exist (its parent directory
exists): with nothing there, `f` can create the destination itself, and a path below it does
not exist. -/
def updateSlot (f : Option Node → Except Err Node) (rel : FsPath) :
    Option Node → Except Err (Option Node)
  | some n =>
    match n.updateAt f rel with
    | .ok n1 => .ok (some n1)
    | .error e => .error e
  | none =>
    if rel = [] then
      match f none with
      | .ok n1 => .ok (some n1)
      | .error e => .error e
    else .error Err.notExist

/-- Go's `os.Create`: a new empty file of mode `0666` (438), or an existing file
truncated. -/
def createOp : Option Node → Except Err Node
  | none => .ok (.file [] 438)
  | some (.file _ m) => .ok (.file [] m)
  | some (.dir _ _) => .error Err.isDir

/-- What `io.Copy` leaves in the open destination file. -/
def writeOp (content : List Nat) : Option Node → Except Err Node
  | some (.file _ m) => .ok (.file content m)
  | some (.dir _ _) => .error Err.isDir
  | none => .error Err.notExist

/-- Go's `os.Chmod`. -/
def chmodOp (mode : Nat) : Option Node → Except Err Node
  | some (.file c _) => .ok (.file c mode)
  | some (.dir _ es) => .ok (.dir mode es)
  | none => .error Err.notExist

/-! ## Recursive copy (`copyDir`, `copyFile`, lines 847-898) -/

/-- Failures injected into `copyDir`, by source path: read errors of the walk, and failures
of `os.MkdirAll`, `os.Open`, `os.Create`, `io.Copy` (after some bytes), `os.Stat` and
`os.Chmod`. -/
structure CopyFaults where
  read : ReadFaults
  mkdirAll : FsPath → Option Err
  openSrc : FsPath → Option Err
  create : FsPath → Option Err
  ioCopy : FsPath → Option (Nat × Err)
  stat : FsPath → Option Err
  chmod : FsPath → Option Err

/-- No injected failure. -/
def noCopyFaults : CopyFaults :=
  ⟨noReadFaults, fun _ => none, fun _ => none, fun _ => none, fun _ => none, fun _ => none,
    fun _ => none⟩

/-- No step of the copy has an injected failure. -/
def CopyFaults.Clean (cf : CopyFaults) : Prop :=
  (∀ p, cf.read.lstat p = none) ∧ (∀ p, cf.read.readDir p = none) ∧ (∀ p, cf.mkdirAll p = none)
    ∧ (∀ p, cf.openSrc p = none) ∧ (∀ p, cf.create p = none) ∧ (∀ p, cf.ioCopy p = none)
    ∧ (∀ p, cf.stat p = none) ∧ (∀ p, cf.chmod p = none)

/-- The function `copyFile(src, dst)` of the source: `content` and `mode` are those of the
file at `src`, `rel` is the path of `dst` relative to the destination root `dst`. -/
def copyFile (cf : CopyFaults) (src : FsPath) (content : List Nat) (mode : Nat) (rel : FsPath)
    (dst : Option Node) : Option Node × Option Err :=
  match cf.openSrc src with
  | some e => (dst, some e)
  | none =>
    match cf.create src with
    | some e => (dst, some e)
    | none =>
      match updateSlot createOp rel dst with
      | .error e => (dst, some e)
      | .ok d1 =>
        match cf.ioCopy src with
        | some (k, e) =>
          match updateSlot (writeOp (content.take k)) rel d1 with
          | .ok d2 => (d2, some e)
          | .error _ => (d1, some e)
        | none =>
          match updateSlot (writeOp content) rel d1 with
          | .error e => (d1, some e)
          | .ok d2 =>
            match cf.stat src with
            | some e => (d2, some e)
            | none =>
              match cf.chmod src with
              | some e => (d2, some e)
              | none =>
                match updateSlot (chmodOp mode) rel d2 with
                | .error e => (d2, some e)
                | .ok d3 => (d3, none)

/-- The callback of `copyDir` (lines 849-869); the state is the destination.
`path.drop src.length` is `filepath.Rel(src, path)`. -/
def copyWalkFn (cf : CopyFaults) (src : FsPath) : WalkFunc (Option Node)
  | _, _, some e, dst => (dst, .fail e)
  | _, none, none, dst => (dst, .fail Err.notExist)
  | path, some (.dir mode _), none, dst =>
    match cf.mkdirAll path with
    | some e => (dst, .fail e)
    | none =>
      match mkdirAllSlot mode (path.drop src.length) dst with
      | .ok d1 => (d1, .nil)
      | .error e => (dst, .fail e)
  | path, some (.file content mode), none, dst =>
    match copyFile cf path content mode (path.drop src.length) dst with
    | (d1, none) => (d1, .nil)
    | (d1, some e) => (d1, .fail e)

/-- The function `copyDir(src, dst)` of the source: `srcNode` is what is at `src`, `dst` what
is at the destination; the result is the destination afterwards and the error returned. -/
def copyDir (cf : CopyFaults) (src : FsPath) (srcNode : Option Node) (dst : Option Node) :
    Option Node × Option Err :=
  Walk cf.read (copyWalkFn cf src) src srcNode dst

/-- Outcome of a copy walk: it failed at an injected failure, or it ended with the expected
destination (used in the proofs). -/
def CopyResult (cf : CopyFaults) (r : Option Node × WalkCtl) (expected : Node) : Prop :=
  (∃ e, r.2 = WalkCtl.fail e ∧ ¬ cf.Clean) ∨ r = (some expected, WalkCtl.nil)

/-- Two walk callbacks keep related states related and return the same control value (used
in the proofs). -/
def SimStep {σ τ : Type} (f : WalkFunc σ) (g : WalkFunc τ) (S : σ → τ → Prop)
    (Q : FsPath → Prop) : Prop :=
  ∀ path info err s t, Q path → S s t →
    S (f path info err s).1 (g path info err t).1 ∧ (f path info err s).2 = (g path info err t).2

/-- The destination `s` is the directory `m`, `es0` with the entry `name` set to what `t`
holds (used in the proofs). -/
def Lifted (m : Nat) (es0 : Entries) (name : String) (s t : Option Node) : Prop :=
  ∃ c, t = some c ∧ s = some (Node.dir m (es0.insert name c))

/-! ## Installation (`extractAndUpdate`, lines 517-578) -/

/-- The installation: what is at `app.AppPath` and at `app.AppPath + ".bak"`. -/
structure FS where
  live : Option Node
  bak : Option Node
  deriving DecidableEq

/-- Go's `os.Rename(src, dst)` on two places; the result is the two places afterwards and
the error.  It fails when the source is missing and when the target exists and one of the
two is a directory (a regular file replaces a regular file); a failed rename changes
nothing. -/
def rename (fault : Option Err) (src dst : Option Node) :
    (Option Node × Option Node) × Option Err :=
  match fault with
  | some e => ((src, dst), some e)
  | none =>
    match src, dst with
    | none, _ => ((src, dst), some Err.notExist)
    | some n, none => ((none, some n), none)
    | some n, some d =>
      if n.isDir || d.isDir then ((src, dst), some Err.exist)
      else ((none, some n), none)

/-- Go's `os.RemoveAll`; an injected failure comes with what is left of the tree. -/
def removeAll (fault : Option (Err × Node)) (target : Option Node) : Option Node × Option Err :=
  match target with
  | none => (none, none)
  | some _ =>
    match fault with
    | none => (none, none)
    | some (e, left) => (some left, some e)

/-- The operations a run performs, for its log. -/
inductive Op where
  | mkdirTemp
  | download
  | statDownload
  | extract
  | findAppDir
  | renameLiveToBak
  | mkdirLive
  | copyDir
  | removeLive
  | renameBakToLive
  | removeBak
  | updatePortappJson
  deriving DecidableEq, Repr

/-- The operations that act on `app.AppPath` or on its backup. -/
def Op.touchesInstall : Op → Bool
  | .renameLiveToBak => true
  | .mkdirLive => true
  | .copyDir => true
  | .removeLive => true
  | .renameBakToLive => true
  | .removeBak => true
  | _ => false

/-- Failures injected into the installation steps of `extractAndUpdate`. -/
structure InstallFaults where
  renameToBak : Option Err
  mkdirLive : Option Err
  copy : CopyFaults
  removeLive : Option (Err × Node)
  renameBack : Option Err
  removeBak : Option (Err × Node)

/-- What the steps of `extractAndUpdate` start from: the outcome of `os.MkdirTemp` (the
extraction directory), of `extract7zArchive` (its error, or the entries it left in that
directory), the injected installation failures and the outcome of `updatePortappJson`. -/
structure ExtractEnv where
  mkdirTemp : Except Err FsPath
  extract : Except Err Entries
  faults : InstallFaults
  updatePortappJson : Option Err

/-- Result of a run: the installation afterwards, the error returned, the warning logged for
a failed `updatePortappJson`, and the operations performed. -/
structure Outcome where
  fs : FS
  err : Option Err
  warning : Option Err
  log : List Op

/-- The function `extractAndUpdate` of the source, from the outcome of the extraction on:
`fs` is the installation as `extract7zArchive` left it (`extractAndUpdateOnDisk` runs the
extraction itself, on the whole filesystem).  The extraction directory is created by
`os.MkdirTemp` with mode `0700` (448); the errors of `os.RemoveAll` and of the rename of the
backup back are discarded, as in the source. -/
def extractAndUpdate (env : ExtractEnv) (fs : FS) : Outcome :=
  match env.mkdirTemp with
  | .error e => ⟨fs, some e, none, [.mkdirTemp]⟩
  | .ok extractDir =>
    match env.extract with
    | .error e => ⟨fs, some e, none, [.mkdirTemp, .extract]⟩
    | .ok es =>
      let tree := Node.dir 448 es
      match findAppDir extractDir tree with
      | .error e => ⟨fs, some e, none, [.mkdirTemp, .extract, .findAppDir]⟩
      | .ok appDir =>
        match rename env.faults.renameToBak fs.live fs.bak with
        | (_, some e) =>
          ⟨fs, some e, none, [.mkdirTemp, .extract, .findAppDir, .renameLiveToBak]⟩
        | ((live1, bak1), none) =>
          match (match env.faults.mkdirLive with
                 | some e => Except.error e
                 | none => mkdirAllSlot 493 [] live1) with
          | .error e =>
            let r := rename env.faults.renameBack bak1 live1
            ⟨⟨r.1.2, r.1.1⟩, some e, none,
              [.mkdirTemp, .extract, .findAppDir, .renameLiveToBak, .mkdirLive,
                .renameBakToLive]⟩
          | .ok live2 =>
            match copyDir env.faults.copy appDir (resolve extractDir tree appDir) live2 with
            | (live3, some e) =>
              let live4 := (removeAll env.faults.removeLive live3).1
              let r := rename env.faults.renameBack bak1 live4
              ⟨⟨r.1.2, r.1.1⟩, some e, none,
                [.mkdirTemp, .extract, .findAppDir, .renameLiveToBak, .mkdirLive, .copyDir,
                  .removeLive, .renameBakToLive]⟩
            | (live3, none) =>
              let bak2 := (removeAll env.faults.removeBak bak1).1
              ⟨⟨live3, bak2⟩, none, env.updatePortappJson,
                [.mkdirTemp, .extract, .findAppDir, .renameLiveToBak, .mkdirLive, .copyDir,
                  .removeBak, .updatePortappJson]⟩

/-- One installation holding `old` or `new`, and no backup beside it. -/
def OneInstallation (old new : Node) (fs : FS) : Prop :=
  (fs.live = some old ∨ fs.live = some new) ∧ fs.bak = none

instance instDecidableOneInstallation (old new : Node) (fs : FS) :
    Decidable (OneInstallation old new fs) :=
  inferInstanceAs (Decidable ((fs.live = some old ∨ fs.live = some new) ∧ fs.bak = none))

/-- The environment `env` with the failure of the rename of the backup back set to `f`. -/
def ExtractEnv.withRenameBack (env : ExtractEnv) (f : Option Err) : ExtractEnv :=
  { env with faults := { env.faults with renameBack := f } }

/-! ## Sample data -/

/-- A sample executable. -/
def sampleExe : Node := .file [77, 90] 420

/-- A sample payload: a directory, the executable and a library. -/
def samplePayload : Entries :=
  .cons "defaults" (.dir 493 (.cons "pref" (.dir 493 .nil) .nil))
    (.cons "floorp.exe" sampleExe (.cons "xul.dll" (.file [1, 2, 3] 420) .nil))

/-- What the sample archive leaves in the extraction directory: the payload under `core`. -/
def sampleExtracted : Entries := .cons "core" (.dir 493 samplePayload) .nil

/-- The installed bundle before the update. -/
def sampleOldLive : Node := .dir 493 (.cons "floorp.exe" (.file [9] 420) .nil)

/-- The installation before the update: the old bundle and no backup. -/
def sampleFS : FS := ⟨some sampleOldLive, none⟩

/-- The extraction directory of the samples. -/
def sampleExtractDir : FsPath := ["tmp", "floorp-extract1"]

/-- No injected installation failure. -/
def noInstallFaults : InstallFaults := ⟨none, none, noCopyFaults, none, none, none⟩

/-- A copy in which `io.Copy` fails on `floorp.exe` after one byte. -/
def sampleCopyFaults : CopyFaults :=
  { noCopyFaults with
    ioCopy := fun p => if p = sampleExtractDir ++ ["core", "floorp.exe"] then some (1, Err.io 5)
      else none }

/-- A run without failure. -/
def envSuccess : ExtractEnv := ⟨.ok sampleExtractDir, .ok sampleExtracted, noInstallFaults, none⟩

/-- A run without installation failure in which `updatePortappJson` fails. -/
def envRecordFails : ExtractEnv :=
  ⟨.ok sampleExtractDir, .ok sampleExtracted, noInstallFaults, some (Err.io 3)⟩

/-- A run in which the copy fails and the rollback works. -/
def envCopyFails : ExtractEnv :=
  ⟨.ok sampleExtractDir, .ok sampleExtracted, { noInstallFaults with copy := sampleCopyFaults },
    none⟩

/-- A run in which the copy fails and the rename of the backup back fails too. -/
def envRollbackFails : ExtractEnv := envCopyFails.withRenameBack (some (Err.io 7))

/-- A run in which the copy fails and the partial live directory cannot be removed. -/
def envRemoveLiveFails : ExtractEnv :=
  ⟨.ok sampleExtractDir, .ok sampleExtracted,
    { noInstallFaults with
      copy := sampleCopyFaults
      removeLive := some (Err.io 8, Node.dir 493 (.cons "floorp.exe" (.file [77] 438) .nil)) },
    none⟩

/-- A run in which everything works except the removal of the backup. -/
def envBackupKept : ExtractEnv :=
  ⟨.ok sampleExtractDir, .ok sampleExtracted,
    { noInstallFaults with removeBak := some (Err.io 9, sampleOldLive) }, none⟩

/-- A tree with the marker at `x/y/app/floorp.exe`. -/
def sampleNestedApp : Entries :=
  .cons "x" (.dir 493 (.cons "y" (.dir 493 (.cons "app" (.dir 493
    (.cons "floorp.exe" sampleExe .nil)) .nil)) .nil)) .nil

/-- A tree with the marker at `bin/floorp.exe` and no directory named `app`. -/
def sampleBin : Entries := .cons "bin" (.dir 493 (.cons "floorp.exe" sampleExe .nil)) .nil

/-- A tree without any marker. -/
def sampleNoMarker : Entries := .cons "readme.txt" (.file [1] 420) .nil

/-! ## Download URL (`checkForUpdates`, line 246) -/

/-- Go's `strings.Contains(s, old)`: `old` occurs somewhere in `s`. -/
def occursIn (old : List Char) : List Char → Bool
  | [] => old.isPrefixOf []
  | c :: cs => old.isPrefixOf (c :: cs) || occursIn old cs

/-! ## Archive extraction (`extract7zArchive`, lines 674-756) -/

/-- A member of the archive (`sevenzip.File`): its name, whether it is a directory, its mode
and its content. -/
structure ArchiveEntry where
  name : String
  isDir : Bool
  mode : Nat
  content : List Nat
  deriving DecidableEq, Repr

/-- The segments of a name, cut at the path separators (`/` and, on the Windows target,
the backslash). -/
def splitSegments : List Char → List (List Char)
  | [] => [[]]
  | c :: cs =>
    if c = '/' ∨ c = '\\' then [] :: splitSegments cs
    else
      match splitSegments cs with
      | [] => [[c]]
      | h :: t => (c :: h) :: t

/-- Go's `filepath.Clean` on the segments appended to a clean path: an empty segment and `.`
are dropped, `..` removes the last component (and is dropped at the root). -/
def cleanOnto : FsPath → List (List Char) → FsPath
  | p, [] => p
  | p, seg :: rest =>
    if seg = [] ∨ seg = ['.'] then cleanOnto p rest
    else if seg = ['.', '.'] then cleanOnto p.dropLast rest
    else cleanOnto (p ++ [String.mk seg]) rest

/-- Go's `filepath.Join(destPath, name)`. -/
def joinPath (destPath : FsPath) (name : String) : FsPath :=
  cleanOnto destPath (splitSegments name.data)

/-- Failures injected into the extraction, by destination file path: of `os.MkdirAll`, of
`file.Open`, of `os.Create`, of `io.Copy` (after some bytes) and of `os.Chmod`. -/
structure ExtractFaults where
  mkdirAll : FsPath → Option Err
  openEntry : FsPath → Option Err
  create : FsPath → Option Err
  ioCopy : FsPath → Option (Nat × Err)
  chmod : FsPath → Option Err

/-- No injected failure. -/
def noExtractFaults : ExtractFaults :=
  ⟨fun _ => none, fun _ => none, fun _ => none, fun _ => none, fun _ => none⟩

/-- The body of the loop of `extract7zArchive` for one member that is not a directory
(lines 698-739), on the whole filesystem `root` (paths are taken from its root).  A failure
of `os.Chmod` is only logged. -/
def extractFile (xf : ExtractFaults) (destPath : FsPath) (file : ArchiveEntry) (root : Node) :
    Node × Option Err :=
  let destFilePath := joinPath destPath file.name
  let dirPath := parentDir destFilePath
  match (match xf.mkdirAll destFilePath with
         | some e => Except.error e
         | none => root.mkdirAll 493 dirPath) with
  | .error e => (root, some e)
  | .ok r1 =>
    match xf.openEntry destFilePath with
    | some e => (r1, some e)
    | none =>
      match (match xf.create destFilePath with
             | some e => Except.error e
             | none => r1.updateAt createOp destFilePath) with
      | .error e => (r1, some e)
      | .ok r2 =>
        match xf.ioCopy destFilePath with
        | some (k, e) =>
          match r2.updateAt (writeOp (file.content.take k)) destFilePath with
          | .ok r3 => (r3, some e)
          | .error _ => (r2, some e)
        | none =>
          match r2.updateAt (writeOp file.content) destFilePath with
          | .error e => (r2, some e)
          | .ok r3 =>
            match xf.chmod destFilePath with
            | some _ => (r3, none)
            | none =>
              match r3.updateAt (chmodOp file.mode) destFilePath with
              | .ok r4 => (r4, none)
              | .error _ => (r3, none)

/-- The loop `for _, file := range sz.File` of `extract7zArchive`: directories are skipped,
the first failure ends the extraction. -/
def extractLoop (xf : ExtractFaults) (destPath : FsPath) : List ArchiveEntry → Node →
    Node × Option Err
  | [], root => (root, none)
  | file :: rest, root =>
    if file.isDir then extractLoop xf destPath rest root
    else
      match extractFile xf destPath file root with
      | (r1, some e) => (r1, some e)
      | (r1, none) => extractLoop xf destPath rest r1

/-- The function `extract7zArchive` of the source: `archive` is the outcome of
`sevenzip.OpenReader` (the members of the archive), `root` the filesystem before; the result
is the filesystem afterwards and the error returned. -/
def extract7zArchive (xf : ExtractFaults) (archive : Except Err (List ArchiveEntry))
    (destPath : FsPath) (root : Node) : Node × Option Err :=
  match archive with
  | .error e => (root, some e)
  | .ok files => extractLoop xf destPath files root

/-- The destination file paths of the members that are not directories, in order. -/
def destFilePaths (destPath : FsPath) (files : List ArchiveEntry) : List FsPath :=
  (files.filter (fun f => !f.isDir)).map (fun f => joinPath destPath f.name)

/-! ## The update on the whole filesystem (`extractAndUpdate`, lines 517-578;
`downloadAndUpdate`, lines 469-514)

`extract7zArchive` joins the member names to the extraction directory without any check, so
what it writes can land anywhere, also in `app.AppPath` and in its backup place.  Here
`extractAndUpdate` and `downloadAndUpdate` are taken on the whole filesystem: the extraction
runs on it, and the installation steps then start from the installation as the extraction
left it. -/

/-- The path `app.AppPath + ".bak"`. -/
def bakPath (appPath : FsPath) : FsPath :=
  match appPath.getLast? with
  | some name => appPath.dropLast ++ [name ++ ".bak"]
  | none => [".bak"]

/-- The installation the filesystem `root` holds: what is at `appPath` and at its backup
place. -/
def installationAt (appPath : FsPath) (root : Node) : FS :=
  ⟨root.get appPath, root.get (bakPath appPath)⟩

/-- Go's `os.Mkdir`, the step of `os.MkdirTemp` that creates the new directory. -/
def mkdirOp (mode : Nat) : Option Node → Except Err Node
  | none => .ok (.dir mode .nil)
  | some _ => .error Err.exist

/-- Two paths part at some component: neither of them is the other or lies inside it. -/
def diverges : FsPath → FsPath → Bool
  | a :: p, b :: q => if a = b then diverges p q else true
  | _, _ => false

/-- Every member that is not a directory has its destination path inside `destPath`. -/
def confined (destPath : FsPath) (files : List ArchiveEntry) : Bool :=
  (destFilePaths destPath files).all (fun p => destPath.isPrefixOf p)

/-- What a run of `extractAndUpdate` gets from outside, on the whole filesystem: the path
`app.AppPath`, the outcome of `os.MkdirTemp` (the path of the new extraction directory), the
outcome of `sevenzip.OpenReader` (the members of the archive), the failures injected into the
extraction and into the installation steps, and the outcome of `updatePortappJson`. -/
structure DiskRun where
  appPath : FsPath
  mkdirTemp : Except Err FsPath
  archive : Except Err (List ArchiveEntry)
  extractFaults : ExtractFaults
  faults : InstallFaults
  updatePortappJson : Option Err

/-- What `extract7zArchive` hands on, given the filesystem it left and the error it returned:
its error, or the entries of the extraction directory. -/
def extractedEntries (extractDir : FsPath) (r : Node × Option Err) : Except Err Entries :=
  match r.2 with
  | some e => .error e
  | none =>
    match r.1.get extractDir with
    | some (.dir _ es) => .ok es
    | _ => .error Err.notDir

/-- The function `extractAndUpdate` of the source on the whole filesystem `root`:
`os.MkdirTemp` creates the extraction directory (mode `0700`), `extract7zArchive` runs on the
filesystem, and the steps after it (`extractAndUpdate` above) start from the entries it left
in the extraction directory and from the installation as it left it.  The result gives the
installation afterwards.  The extraction directory is taken outside `app.AppPath` and its
backup place when the installation steps run (it is under the system temporary directory),
so its deferred removal leaves the installation alone. -/
def extractAndUpdateOnDisk (run : DiskRun) (root : Node) : Outcome :=
  match run.mkdirTemp with
  | .error e => ⟨installationAt run.appPath root, some e, none, [.mkdirTemp]⟩
  | .ok extractDir =>
    match root.updateAt (mkdirOp 448) extractDir with
    | .error e => ⟨installationAt run.appPath root, some e, none, [.mkdirTemp]⟩
    | .ok root1 =>
      let r := extract7zArchive run.extractFaults run.archive extractDir root1
      extractAndUpdate
        ⟨.ok extractDir, extractedEntries extractDir r, run.faults, run.updatePortappJson⟩
        (installationAt run.appPath r.1)

/-- What a run of `downloadAndUpdate` gets from outside, on the whole filesystem: the outcome
of `os.MkdirTemp`, of `downloadFile`, of `os.Stat` on the downloaded file (its size), and what
`extractAndUpdate` gets.  The download directory and the file in it are not represented in
the filesystem: nothing reads them but `sevenzip.OpenReader`, whose outcome is given. -/
structure DownloadRun where
  mkdirTemp : Except Err FsPath
  downloadFile : Option Err
  stat : Except Err Nat
  update : DiskRun

/-- The function `downloadAndUpdate` of the source, on the whole filesystem `root`. -/
def downloadAndUpdate (run : DownloadRun) (root : Node) : Outcome :=
  match run.mkdirTemp with
  | .error e => ⟨installationAt run.update.appPath root, some e, none, [.mkdirTemp]⟩
  | .ok _ =>
    match run.downloadFile with
    | some e => ⟨installationAt run.update.appPath root, some e, none, [.mkdirTemp, .download]⟩
    | none =>
      match run.stat with
      | .error e =>
        ⟨installationAt run.update.appPath root, some e, none,
          [.mkdirTemp, .download, .statDownload]⟩
      | .ok size =>
        if size = 0 then
          ⟨installationAt run.update.appPath root, some Err.emptyDownload, none,
            [.mkdirTemp, .download, .statDownload]⟩
        else
          let r := extractAndUpdateOnDisk run.update root
          ⟨r.fs, r.err, r.warning, [.mkdirTemp, .download, .statDownload] ++ r.log⟩

/-! ## Version record (`updatePortappJson`, lines 622-672) -/

/-- What the model takes from `encoding/json` for a target of type `interface{}`: how a value
of the file (`F`) is decoded into a Go value (`V`), or refused, and the Go value a string
is. -/
structure JsonDecoder (F V : Type) where
  decodeValue : F → Except Err V
  ofString : String → V

/-- What `portapp.json` holds once its syntax is accepted: `null`, an object (its members in
file order), or another JSON value. -/
inductive JsonDocument (F : Type) where
  | null
  | object (members : List (String × F))
  | other

/-- A Go map `map[string]interface{}`, as the list of its keys and values. -/
abbrev JsonObject (V : Type) := List (String × V)

/-- The value of a key: `m[k]`. -/
def jsonGet {V : Type} (k : String) : JsonObject V → Option V
  | [] => none
  | (k1, v1) :: rest => if k1 = k then some v1 else jsonGet k rest

/-- The assignment `m[k] = v`. -/
def jsonSet {V : Type} (k : String) (v : V) : JsonObject V → JsonObject V
  | [] => [(k, v)]
  | (k1, v1) :: rest => if k1 = k then (k, v) :: rest else (k1, v1) :: jsonSet k v rest

/-- The decoding of the members of an object into the map `acc`: each value is decoded and
assigned to its key, so a later member replaces an earlier one of the same key; a value that
is refused makes `json.Unmarshal` return an error. -/
def decodeMembers {F V : Type} (dec : JsonDecoder F V) :
    List (String × F) → JsonObject V → Except Err (JsonObject V)
  | [], acc => .ok acc
  | (k, f) :: rest, acc =>
    match dec.decodeValue f with
    | .error e => .error e
    | .ok v => decodeMembers dec rest (jsonSet k v acc)

/-- Go's `json.Unmarshal(jsonData, &portappData)` for `var portappData map[string]interface{}`
on an accepted document: `null` leaves the map `nil` (`none`), an object gives the map of its
decoded members, another value is a type error. -/
def unmarshalMap {F V : Type} (dec : JsonDecoder F V) :
    JsonDocument F → Except Err (Option (JsonObject V))
  | .null => .ok none
  | .object members =>
    match decodeMembers dec members [] with
    | .ok m => .ok (some m)
    | .error e => .error e
  | .other => .error Err.unmarshalType

/-- The value of the last member of the given key in an object of the file. -/
def lastMember {F : Type} (k : String) : List (String × F) → Option F
  | [] => none
  | (k1, f) :: rest =>
    match lastMember k rest with
    | some g => some g
    | none => if k1 = k then some f else none

/-- What `updatePortappJson` gets from outside: the outcome of `os.Executable`, whether
`portapp.json` is missing, the outcome of `os.ReadFile`, of the syntax check of
`json.Unmarshal` (the document the file holds), of the release request, of
`json.MarshalIndent` and of `os.WriteFile`. -/
structure PortappEnv (F : Type) where
  executable : Option Err
  missing : Bool
  readFile : Option Err
  document : Except Err (JsonDocument F)
  response : Except Err (String × String)
  marshal : Option Err
  writeFile : Option Err

/-- How a call of `updatePortappJson` ends: it returns `nil` after writing the map, it returns
an error, or it panics. -/
inductive RecordResult (V : Type) where
  | written (o : JsonObject V)
  | failed (e : Err)
  | panicked
  deriving DecidableEq

/-- The function `updatePortappJson` of the source.  The assignment
`portappData["version"] = latestVersion` panics when the map is `nil`. -/
def updatePortappJson {F V : Type} (dec : JsonDecoder F V) (env : PortappEnv F) :
    RecordResult V :=
  match env.executable with
  | some e => .failed e
  | none =>
    if env.missing then .failed Err.notExist
    else
      match env.readFile with
      | some e => .failed e
      | none =>
        match env.document with
        | .error e => .failed e
        | .ok doc =>
          match unmarshalMap dec doc with
          | .error e => .failed e
          | .ok portappData =>
            match getLatestGitHubRelease env.response with
            | .error e => .failed e
            | .ok (latestVersion, _) =>
              match portappData with
              | none => .panicked
              | some m =>
                let updated := jsonSet "version" (dec.ofString latestVersion) m
                match env.marshal with
                | some e => .failed e
                | none =>
                  match env.writeFile with
                  | some e => .failed e
                  | none => .written updated

/-! ### A decoder for records of scalar values -/

/-- A scalar value as the file holds it: `null`, a boolean, an integer literal, a string. -/
inductive ScalarJson where
  | null
  | bool (b : Bool)
  | int (n : Int)
  | str (s : String)
  deriving DecidableEq, Repr

/-- The Go value a scalar is decoded into: `nil`, a `bool`, a `float64` (given by its exact
value, an integer here), a `string`. -/
inductive ScalarGo where
  | nil
  | bool (b : Bool)
  | float64 (x : Int)
  | str (s : String)
  deriving DecidableEq, Repr

/-- The least `s` from `s` on, within `fuel` steps, for which `n / 2 ^ s` fits in 53 bits. -/
def float64Shift : Nat → Nat → Nat → Nat
  | 0, s, _ => s
  | fuel + 1, s, n => if n / 2 ^ s < 2 ^ 53 then s else float64Shift fuel (s + 1) n

/-- The value of the `float64` nearest to the natural number `n` (a significand of 53 bits,
ties to the even significand), as `strconv.ParseFloat` gives it for the literal `n`; `none`
when it is beyond the largest `float64`. -/
def nearestFloat64 (n : Nat) : Option Nat :=
  let shift := float64Shift 972 0 n
  let q := n / 2 ^ shift
  let r := n % 2 ^ shift
  let q1 := if 2 * r > 2 ^ shift ∨ (2 * r = 2 ^ shift ∧ q % 2 = 1) then q + 1 else q
  if shift > 971 ∨ (shift = 971 ∧ q1 ≥ 2 ^ 53) then none else some (q1 * 2 ^ shift)

/-- The decoding of scalar values by `encoding/json`: a number becomes the nearest
`float64`. -/
def scalarDecoder : JsonDecoder ScalarJson ScalarGo where
  decodeValue
    | .null => .ok .nil
    | .bool b => .ok (.bool b)
    | .int n =>
      match nearestFloat64 n.natAbs with
      | some x => .ok (.float64 (if n < 0 then -(x : Int) else (x : Int)))
      | none => .error Err.outOfRange
    | .str s => .ok (.str s)
  ofString := ScalarGo.str

/-! ## The payload search as the specification words it -/

mutual
/-- The directories named `app` that contain an entry `floorp.exe`, at or below the node at
`path`, in walk order. -/
def Node.appDirs (path : FsPath) : Node → List FsPath
  | .file _ _ => []
  | .dir _ es =>
    (if base path = "app" ∧ (es.lookup "floorp.exe").isSome then [path] else [])
      ++ Entries.appDirs path es
/-- The directories named `app` that contain an entry `floorp.exe`, below the entries of the
directory at `path`, in walk order. -/
def Entries.appDirs (path : FsPath) : Entries → List FsPath
  | .nil => []
  | .cons name child rest => Node.appDirs (path ++ [name]) child ++ Entries.appDirs path rest
end

/-- The directories of the regular files named `floorp.exe`, in walk order. -/
def markerFileDirs (path : FsPath) (n : Node) : List FsPath :=
  ((Node.markers path n).filter (fun x => !x.2)).map (fun x => x.1)

/-- The relative path leads to a directory of the tree that directly contains an entry named
`floorp.exe` (used in the proofs). -/
def MarkerDirAt (n : Node) (rel : FsPath) : Prop :=
  ∃ m es, n.get rel = some (Node.dir m es) ∧ (es.lookup "floorp.exe").isSome = true

/-! ## More sample data -/

/-- A release page whose address has `tag` inside the owner name. -/
def sampleReleaseURL : String := "https://github.com/vintage/Floorp/releases/tag/v11.23.1"

/-- A filesystem holding the empty extraction directory `tmp/floorp-extract1`. -/
def sampleRoot : Node :=
  .dir 493 (.cons "tmp" (.dir 493 (.cons "floorp-extract1" (.dir 448 .nil) .nil)) .nil)

/-- An archive with one member inside the destination and one whose name climbs out of it. -/
def sampleArchive : List ArchiveEntry :=
  [⟨"core/floorp.exe", false, 420, [77, 90]⟩, ⟨"../evil.txt", false, 420, [66]⟩]

/-- A tree with two qualifying `app` directories, under `a` and under `b`. -/
def sampleTwoApps : Entries :=
  .cons "a" (.dir 493 (.cons "app" (.dir 493 (.cons "floorp.exe" sampleExe .nil)) .nil))
    (.cons "b" (.dir 493 (.cons "app" (.dir 493 (.cons "floorp.exe" sampleExe .nil)) .nil))
      .nil)

/-- A tree with two marker files, in `a` and in `b`, and no directory named `app`. -/
def sampleTwoMarkers : Entries :=
  .cons "a" (.dir 493 (.cons "floorp.exe" sampleExe .nil))
    (.cons "b" (.dir 493 (.cons "floorp.exe" sampleExe .nil)) .nil)

/-- A version record with other keys, as the file holds it. -/
def samplePortapp : List (String × ScalarJson) :=
  [("id", .str "floorp-portable"), ("release", .int 26), ("version", .str "11.23.0")]

/-- A version record with a number that `float64` cannot represent, `2 ^ 53 + 1`. -/
def samplePortappBigNumber : List (String × ScalarJson) :=
  [("build", .int 9007199254740993), ("version", .str "11.23.0")]

/-- A run of `updatePortappJson` without failure, the latest tag being `v11.23.1`. -/
def envRecordUpdate : PortappEnv ScalarJson :=
  ⟨none, false, none, .ok (.object samplePortapp), .ok ("v11.23.1", sampleReleaseURL), none,
    none⟩

/-- A run of `updatePortappJson` without failure on the record with the large number. -/
def envRecordBigNumber : PortappEnv ScalarJson :=
  ⟨none, false, none, .ok (.object samplePortappBigNumber), .ok ("v11.23.1", sampleReleaseURL),
    none, none⟩

/-- A run of `updatePortappJson` on a file that holds `null`. -/
def envRecordNull : PortappEnv ScalarJson :=
  ⟨none, false, none, .ok .null, .ok ("v11.23.1", sampleReleaseURL), none, none⟩

/-- A filesystem holding the installed bundle at `portable/app` and the empty temporary
directory `tmp`. -/
def sampleDisk : Node :=
  .dir 493 (.cons "portable" (.dir 493 (.cons "app" sampleOldLive .nil))
    (.cons "tmp" (.dir 493 .nil) .nil))

/-- The path of the installed bundle in `sampleDisk`. -/
def sampleAppPath : FsPath := ["portable", "app"]

/-- An archive holding the sample payload under `core`. -/
def samplePayloadArchive : List ArchiveEntry :=
  [⟨"core", true, 493, []⟩, ⟨"core/defaults/pref/prefs.js", false, 420, [7]⟩,
    ⟨"core/floorp.exe", false, 420, [77, 90]⟩, ⟨"core/xul.dll", false, 420, [1, 2, 3]⟩]

/-- An archive without payload whose only member climbs out of the extraction directory into
the installed bundle. -/
def sampleLeakArchive : List ArchiveEntry :=
  [⟨"../../portable/app/floorp.exe", false, 420, [66]⟩]

/-- An archive holding the payload under `core` and a member that climbs out of the
extraction directory into the installed bundle. -/
def sampleLeakPayloadArchive : List ArchiveEntry :=
  samplePayloadArchive ++ [⟨"../../portable/app/extra.txt", false, 420, [66]⟩]

/-- A run on the whole filesystem whose copy fails and whose rollback works. -/
def runCopyFails : DiskRun :=
  ⟨sampleAppPath, .ok sampleExtractDir, .ok samplePayloadArchive, noExtractFaults,
    { noInstallFaults with copy := sampleCopyFaults }, none⟩

/-- A run on the whole filesystem whose copy fails and whose rename of the backup back fails
too. -/
def runRollbackFails : DiskRun :=
  { runCopyFails with faults := { runCopyFails.faults with renameBack := some (Err.io 7) } }

/-- A run on the whole filesystem whose copy fails, whose rollback works, and whose archive
has a member that climbs into the installed bundle. -/
def runCopyFailsLeak : DiskRun := { runCopyFails with archive := .ok sampleLeakPayloadArchive }

/-- A run of `downloadAndUpdate` on the whole filesystem whose archive holds no payload and
has a member that climbs into the installed bundle. -/
def runLeakNoPayload : DownloadRun :=
  ⟨.ok ["tmp", "floorp-update1"], none, .ok 1024,
    ⟨sampleAppPath, .ok sampleExtractDir, .ok sampleLeakArchive, noExtractFaults,
      noInstallFaults, none⟩⟩

/-- A run of `downloadAndUpdate` on the whole filesystem whose download is empty. -/
def runEmptyDownload : DownloadRun :=
  ⟨.ok ["tmp", "floorp-update1"], none, .ok 0,
    ⟨sampleAppPath, .ok sampleExtractDir, .ok samplePayloadArchive, noExtractFaults,
      noInstallFaults, none⟩⟩

/-- A run on the whole filesystem whose copy fails and whose partial live directory cannot
be removed. -/
def runRemoveLiveFails : DiskRun :=
  { runCopyFails with
    faults := { runCopyFails.faults with
      removeLive := some (Err.io 8, Node.dir 493 (.cons "floorp.exe" (.file [77] 438) .nil)) } }

/-- A run on the whole filesystem without failure whose archive holds no payload and has a
member that climbs into the installed bundle. -/
def runLeak : DiskRun :=
  ⟨sampleAppPath, .ok sampleExtractDir, .ok sampleLeakArchive, noExtractFaults, noInstallFaults,
    none⟩

/-! ## Lemmas -/

/-! ### Markers and the search walks -/

@[induction_eliminator]
theorem Entries.listInduction {P : Entries → Prop} (nil : P Entries.nil)
    (cons : ∀ name child rest, P rest → P (Entries.cons name child rest)) : ∀ es, P es
  | .nil => nil
  | .cons name child rest => cons name child rest (Entries.listInduction nil cons rest)

theorem lookup_marker_mem (path : FsPath) (es : Entries) (n : Node)
    (h : es.lookup "floorp.exe" = some n) : (path, n.isDir) ∈ Entries.markers path es := by
  induction es with
  | nil => simp [Entries.lookup] at h
  | cons name child rest ih =>
    simp only [Entries.lookup] at h
    by_cases hn : name = "floorp.exe"
    · simp only [hn, if_true, Option.some.injEq] at h
      subst h
      simp [Entries.markers, hn]
    · simp only [hn, if_false] at h
      simp only [Entries.markers, hn, if_false, List.nil_append, List.mem_append]
      exact Or.inr (ih h)

theorem lookup_markers_sub (path : FsPath) (es : Entries) (x : String) (n : Node)
    (h : es.lookup x = some n) :
    ∀ y ∈ Node.markers (path ++ [x]) n, y ∈ Entries.markers path es := by
  induction es with
  | nil => simp [Entries.lookup] at h
  | cons name child rest ih =>
    simp only [Entries.lookup] at h
    intro y hy
    by_cases hn : name = x
    · simp only [hn, if_true, Option.some.injEq] at h
      subst h; subst hn
      simp only [Entries.markers, List.mem_append]
      exact Or.inl (Or.inr hy)
    · simp only [hn, if_false] at h
      simp only [Entries.markers, List.mem_append]
      exact Or.inr (ih h y hy)



theorem walkNode_file_eq {σ : Type} (walkFn : WalkFunc σ) (path : FsPath) (c : List Nat) (m : Nat)
    (s : σ) :
    walkNode noReadFaults walkFn path (Node.file c m) s = walkFn path (some (Node.file c m)) none s := by
  rfl

theorem walkNode_dir_eq {σ : Type} (walkFn : WalkFunc σ) (path : FsPath) (m : Nat) (es : Entries)
    (s : σ) :
    walkNode noReadFaults walkFn path (Node.dir m es) s =
      match walkFn path (some (Node.dir m es)) none s with
      | (s1, WalkCtl.nil) => walkEntries noReadFaults walkFn path es s1
      | (s1, r) => (s1, r) := by
  rfl

theorem walkEntries_nil_eq {σ : Type} (walkFn : WalkFunc σ) (path : FsPath) (s : σ) :
    walkEntries noReadFaults walkFn path Entries.nil s = (s, WalkCtl.nil) := by
  rfl

theorem walkEntries_cons_eq {σ : Type} (walkFn : WalkFunc σ) (path : FsPath) (name : String)
    (child : Node) (rest : Entries) (s : σ) :
    walkEntries noReadFaults walkFn path (Entries.cons name child rest) s =
      match walkNode noReadFaults walkFn (path ++ [name]) child s with
      | (s1, WalkCtl.nil) => walkEntries noReadFaults walkFn path rest s1
      | (s1, WalkCtl.skipDir) =>
        if child.isDir then walkEntries noReadFaults walkFn path rest s1 else (s1, WalkCtl.skipDir)
      | (s1, WalkCtl.fail e) => (s1, WalkCtl.fail e) := by
  rfl

mutual
theorem walkNode_inv {σ : Type} (walkFn : WalkFunc σ) (P : σ → Prop) (Q : FsPath → Node → Prop)
    (QE : FsPath → Entries → Prop)
    (hstep : ∀ path n s, Q path n → P s → P (walkFn path (some n) none s).1)
    (hdir : ∀ path m es, Q path (Node.dir m es) → QE path es)
    (hcons : ∀ path name child rest, QE path (Entries.cons name child rest) →
      Q (path ++ [name]) child ∧ QE path rest)
    (path : FsPath) (s : σ) :
    ∀ n : Node, Q path n → P s → P (walkNode noReadFaults walkFn path n s).1
  | .file c m, hq, hp => by
    rw [walkNode_file_eq]
    exact hstep path _ s hq hp
  | .dir m es, hq, hp => by
    rw [walkNode_dir_eq]
    have h1 := hstep path _ s hq hp
    generalize walkFn path (some (Node.dir m es)) none s = r at h1
    obtain ⟨s1, ctl⟩ := r
    cases ctl with
    | nil => exact walkEntries_inv walkFn P Q QE hstep hdir hcons path s1 es (hdir path m es hq) h1
    | skipDir => exact h1
    | fail e => exact h1
theorem walkEntries_inv {σ : Type} (walkFn : WalkFunc σ) (P : σ → Prop) (Q : FsPath → Node → Prop)
    (QE : FsPath → Entries → Prop)
    (hstep : ∀ path n s, Q path n → P s → P (walkFn path (some n) none s).1)
    (hdir : ∀ path m es, Q path (Node.dir m es) → QE path es)
    (hcons : ∀ path name child rest, QE path (Entries.cons name child rest) →
      Q (path ++ [name]) child ∧ QE path rest)
    (path : FsPath) (s : σ) :
    ∀ es : Entries, QE path es → P s → P (walkEntries noReadFaults walkFn path es s).1
  | .nil, _, hp => by
    rw [walkEntries_nil_eq]
    exact hp
  | .cons name child rest, hq, hp => by
    rw [walkEntries_cons_eq]
    obtain ⟨hqc, hqr⟩ := hcons path name child rest hq
    have h1 := walkNode_inv walkFn P Q QE hstep hdir hcons (path ++ [name]) s child hqc hp
    generalize walkNode noReadFaults walkFn (path ++ [name]) child s = r at h1
    obtain ⟨s1, ctl⟩ := r
    cases ctl with
    | nil => exact walkEntries_inv walkFn P Q QE hstep hdir hcons path s1 rest hqr h1
    | skipDir =>
      by_cases hd : child.isDir = true
      · simp only [hd, if_true]
        exact walkEntries_inv walkFn P Q QE hstep hdir hcons path s1 rest hqr h1
      · simp only [hd]
        exact h1
    | fail e => exact h1
end


theorem Walk_fst {σ : Type} (walkFn : WalkFunc σ) (root : FsPath) (n : Node) (s : σ) :
    (Walk noReadFaults walkFn root (some n) s).1 = (walkNode noReadFaults walkFn root n s).1 := by
  have h : noReadFaults.lstat root = none := rfl
  simp only [Walk, h]
  generalize walkNode noReadFaults walkFn root n s = r
  obtain ⟨s1, ctl⟩ := r
  cases ctl <;> rfl

theorem base_snoc (path : FsPath) (name : String) : base (path ++ [name]) = name := by
  simp [base]

theorem parentDir_snoc (path : FsPath) (name : String) : parentDir (path ++ [name]) = path := by
  simp [parentDir]

theorem MarkQ_dir (R : FsPath × Bool → Prop) (path : FsPath) (m : Nat) (es : Entries)
    (h : MarkQ R path (Node.dir m es)) : MarkQE R path es := by
  intro x hx
  exact h.2 x (by simpa [Node.markers] using hx)

theorem MarkQE_cons (R : FsPath × Bool → Prop) (path : FsPath) (name : String) (child : Node)
    (rest : Entries) (h : MarkQE R path (Entries.cons name child rest)) :
    MarkQ R (path ++ [name]) child ∧ MarkQE R path rest := by
  refine ⟨⟨?_, ?_⟩, ?_⟩
  · intro hd hb
    rw [base_snoc] at hb
    rw [parentDir_snoc]
    have := h (path, child.isDir) (by simp [Entries.markers, hb])
    rwa [hd] at this
  · intro x hx
    exact h x (by simp only [Entries.markers, List.mem_append]; exact Or.inl (Or.inr hx))
  · intro x hx
    exact h x (by simp only [Entries.markers, List.mem_append]; exact Or.inr hx)

theorem appDirWalkFn_step (R : FsPath × Bool → Prop) (found0 : Option FsPath) (path : FsPath)
    (n : Node) (s : Option FsPath) (hq : MarkQ R path n) (hp : FoundBy R found0 s) :
    FoundBy R found0 (appDirWalkFn path (some n) none s).1 := by
  unfold appDirWalkFn
  simp only
  split_ifs with h1 h2
  · right
    cases n with
    | file c m => simp [statChild] at h2
    | dir m es =>
      simp only [statChild] at h2
      obtain ⟨k, hk⟩ := Option.isSome_iff_exists.mp h2
      exact ⟨path, k.isDir, rfl, hq.2 _ (by simpa [Node.markers] using lookup_marker_mem path es k hk)⟩
  · exact hp
  · exact hp

theorem floorpWalkFn_step (R : FsPath × Bool → Prop) (found0 : Option FsPath) (path : FsPath)
    (n : Node) (s : Option FsPath) (hq : MarkQ R path n) (hp : FoundBy R found0 s) :
    FoundBy R found0 (floorpWalkFn path (some n) none s).1 := by
  unfold floorpWalkFn
  simp only
  split_ifs with h1
  · right
    exact ⟨parentDir path, false, rfl, hq.1 h1.1 h1.2⟩
  · exact hp

theorem appDir_walk_found (R : FsPath × Bool → Prop) (root : FsPath) (m : Nat) (es : Entries)
    (h : ∀ x ∈ Entries.markers root es, R x) (found0 : Option FsPath) :
    FoundBy R found0 (Walk noReadFaults appDirWalkFn root (some (Node.dir m es)) found0).1 := by
  rw [Walk_fst]
  refine walkNode_inv appDirWalkFn (FoundBy R found0) (MarkQ R) (MarkQE R)
    (appDirWalkFn_step R found0) (MarkQ_dir R) (MarkQE_cons R) root found0 _ ?_ (Or.inl rfl)
  exact ⟨by simp [Node.isDir], by simpa [Node.markers] using h⟩

theorem floorp_walk_found (R : FsPath × Bool → Prop) (root : FsPath) (m : Nat) (es : Entries)
    (h : ∀ x ∈ Entries.markers root es, R x) (found0 : Option FsPath) :
    FoundBy R found0 (Walk noReadFaults floorpWalkFn root (some (Node.dir m es)) found0).1 := by
  rw [Walk_fst]
  refine walkNode_inv floorpWalkFn (FoundBy R found0) (MarkQ R) (MarkQE R)
    (floorpWalkFn_step R found0) (MarkQ_dir R) (MarkQE_cons R) root found0 _ ?_ (Or.inl rfl)
  exact ⟨by simp [Node.isDir], by simpa [Node.markers] using h⟩

/-- every path findAppDir returns is the directory of some marker entry. -/
theorem findAppDir_ok_marker (R : FsPath × Bool → Prop) (extractDir : FsPath) (m : Nat)
    (es : Entries) (h : ∀ x ∈ Entries.markers extractDir es, R x) (d : FsPath)
    (hd : findAppDir extractDir (Node.dir m es) = Except.ok d) : ∃ b, R (d, b) := by
  unfold findAppDir at hd
  simp only at hd
  split_ifs at hd with h1
  · cases hd
    cases ha : statChild (Node.dir m es) "app" with
    | none => simp [ha] at h1
    | some a =>
      simp only [ha] at h1
      cases a with
      | file c m1 => simp [statChild] at h1
      | dir m1 es1 =>
        simp only [statChild] at h1 ha
        obtain ⟨k, hk⟩ := Option.isSome_iff_exists.mp h1
        refine ⟨k.isDir, h _ ?_⟩
        apply lookup_markers_sub extractDir es "app" _ ha
        simpa [Node.markers] using lookup_marker_mem (extractDir ++ ["app"]) es1 k hk
  · have h2 := appDir_walk_found R extractDir m es h none
    have h3 := floorp_walk_found R extractDir m es h none
    cases hw : (Walk noReadFaults appDirWalkFn extractDir (some (Node.dir m es)) none).1 with
    | some f =>
      simp only [hw] at hd
      cases hd
      rw [hw] at h2
      rcases h2 with h2 | ⟨d1, b, hd1, hr⟩
      · cases h2
      · cases hd1; exact ⟨b, hr⟩
    | none =>
      simp only [hw] at hd
      cases hw3 : (Walk noReadFaults floorpWalkFn extractDir (some (Node.dir m es)) none).1 with
      | some f =>
        simp only [hw3] at hd
        cases hd
        rw [hw3] at h3
        rcases h3 with h3 | ⟨d1, b, hd1, hr⟩
        · cases h3
        · cases hd1; exact ⟨b, hr⟩
      | none =>
        simp only [hw3] at hd
        cases hd

theorem findAppDir_error (extractDir : FsPath) (t : Node) (e : Err)
    (h : findAppDir extractDir t = Except.error e) : e = Err.payloadNotFound := by
  unfold findAppDir at h
  simp only at h
  split_ifs at h
  split at h
  · cases h
  · split at h
    · cases h
    · cases h; rfl


mutual
theorem walkNode_no_fail {σ : Type} (walkFn : WalkFunc σ)
    (hfn : ∀ path info s e, (walkFn path info none s).2 ≠ WalkCtl.fail e) (path : FsPath) (s : σ)
    (e : Err) : ∀ n : Node, (walkNode noReadFaults walkFn path n s).2 ≠ WalkCtl.fail e
  | .file c m => by
    rw [walkNode_file_eq]
    exact hfn _ _ _ _
  | .dir m es => by
    rw [walkNode_dir_eq]
    have h1 := hfn path (some (Node.dir m es)) s e
    generalize walkFn path (some (Node.dir m es)) none s = r at h1
    obtain ⟨s1, ctl⟩ := r
    cases ctl with
    | nil => exact walkEntries_no_fail walkFn hfn path s1 e es
    | skipDir => simp
    | fail e1 => exact h1
theorem walkEntries_no_fail {σ : Type} (walkFn : WalkFunc σ)
    (hfn : ∀ path info s e, (walkFn path info none s).2 ≠ WalkCtl.fail e) (path : FsPath) (s : σ)
    (e : Err) : ∀ es : Entries, (walkEntries noReadFaults walkFn path es s).2 ≠ WalkCtl.fail e
  | .nil => by
    rw [walkEntries_nil_eq]
    simp
  | .cons name child rest => by
    rw [walkEntries_cons_eq]
    have h1 := fun e1 => walkNode_no_fail walkFn hfn (path ++ [name]) s e1 child
    generalize walkNode noReadFaults walkFn (path ++ [name]) child s = r at h1
    obtain ⟨s1, ctl⟩ := r
    cases ctl with
    | nil => exact walkEntries_no_fail walkFn hfn path s1 e rest
    | skipDir =>
      simp only
      split_ifs
      · exact walkEntries_no_fail walkFn hfn path s1 e rest
      · simp
    | fail e1 => exact absurd rfl (h1 e1)
end

theorem floorpWalkFn_no_fail (path : FsPath) (info : Option Node) (s : Option FsPath) (e : Err) :
    (floorpWalkFn path info none s).2 ≠ WalkCtl.fail e := by
  cases info with
  | none => simp [floorpWalkFn]
  | some n =>
    unfold floorpWalkFn
    simp only
    split_ifs <;> simp

theorem appDirWalkFn_no_fail (path : FsPath) (info : Option Node) (s : Option FsPath) (e : Err) :
    (appDirWalkFn path info none s).2 ≠ WalkCtl.fail e := by
  cases info with
  | none => simp [appDirWalkFn]
  | some n =>
    unfold appDirWalkFn
    simp only
    split_ifs <;> simp

theorem floorpWalkFn_mono (path : FsPath) (info : Node) (s : Option FsPath)
    (h : s.isSome = true) : (floorpWalkFn path (some info) none s).1.isSome = true := by
  unfold floorpWalkFn
  simp only
  split_ifs
  · rfl
  · exact h

theorem floorpWalkFn_skipDir (path : FsPath) (info : Node) (s s1 : Option FsPath)
    (h : floorpWalkFn path (some info) none s = (s1, WalkCtl.skipDir)) : s1.isSome = true := by
  unfold floorpWalkFn at h
  simp only at h
  split_ifs at h
  · cases h; rfl
  · cases h

theorem floorp_walkEntries_mono (path : FsPath) (es : Entries) (s : Option FsPath)
    (h : s.isSome = true) :
    (walkEntries noReadFaults floorpWalkFn path es s).1.isSome = true :=
  walkEntries_inv floorpWalkFn (fun s => s.isSome = true) (fun _ _ => True) (fun _ _ => True)
    (fun p n s _ hs => floorpWalkFn_mono p n s hs) (fun _ _ _ _ => trivial)
    (fun _ _ _ _ _ => ⟨trivial, trivial⟩) path s es trivial h

mutual
theorem floorp_walkNode_some (path : FsPath) (s : Option FsPath) :
    ∀ n : Node, (∃ d, (d, false) ∈ Node.markers path n) →
      (walkNode noReadFaults floorpWalkFn path n s).1.isSome = true
  | .file c m, h => by
    obtain ⟨d, hd⟩ := h
    simp [Node.markers] at hd
  | .dir m es, h => by
    rw [walkNode_dir_eq]
    have hstep : floorpWalkFn path (some (Node.dir m es)) none s = (s, WalkCtl.nil) := by
      simp [floorpWalkFn, Node.isDir]
    rw [hstep]
    exact floorp_walkEntries_some path s es (by simpa [Node.markers] using h)
theorem floorp_walkEntries_some (path : FsPath) (s : Option FsPath) :
    ∀ es : Entries, (∃ d, (d, false) ∈ Entries.markers path es) →
      (walkEntries noReadFaults floorpWalkFn path es s).1.isSome = true
  | .nil, h => by
    obtain ⟨d, hd⟩ := h
    simp [Entries.markers] at hd
  | .cons name child rest, h => by
    rw [walkEntries_cons_eq]
    obtain ⟨d, hd⟩ := h
    simp only [Entries.markers, List.mem_append] at hd
    rcases hd with (hd | hd) | hd
    · -- the entry itself is a marker file
      by_cases hn : name = "floorp.exe"
      · simp only [hn, if_true, List.mem_singleton, Prod.mk.injEq] at hd
        obtain ⟨_, hfile⟩ := hd
        cases child with
        | dir m es => simp [Node.isDir] at hfile
        | file c m =>
          rw [walkNode_file_eq]
          have : floorpWalkFn (path ++ [name]) (some (Node.file c m)) none s
              = (some (parentDir (path ++ [name])), WalkCtl.skipDir) := by
            simp [floorpWalkFn, Node.isDir, base_snoc, hn]
          rw [this]
          simp [Node.isDir]
      · simp [hn] at hd
    · -- a marker file inside the child subtree
      have h1 := floorp_walkNode_some (path ++ [name]) s child ⟨d, hd⟩
      generalize walkNode noReadFaults floorpWalkFn (path ++ [name]) child s = r at h1
      obtain ⟨s1, ctl⟩ := r
      cases ctl with
      | nil => exact floorp_walkEntries_mono path rest s1 h1
      | skipDir =>
        simp only
        split_ifs
        · exact floorp_walkEntries_mono path rest s1 h1
        · exact h1
      | fail e => exact h1
    · -- a marker file among the later entries
      have h2 := fun s1 => floorp_walkEntries_some path s1 rest ⟨d, hd⟩
      cases hr : walkNode noReadFaults floorpWalkFn (path ++ [name]) child s with
      | mk s1 ctl =>
        cases ctl with
        | nil => exact h2 s1
        | skipDir =>
          simp only
          split_ifs with hdir
          · exact h2 s1
          · cases child with
            | dir m es => simp [Node.isDir] at hdir
            | file c m =>
              rw [walkNode_file_eq] at hr
              exact floorpWalkFn_skipDir _ _ _ _ hr
        | fail e =>
          have := walkNode_no_fail floorpWalkFn floorpWalkFn_no_fail (path ++ [name]) s e child
          rw [hr] at this
          exact absurd rfl this
end


/-! ### Names and entries -/

theorem ltChars_irrefl (a : List Char) : ltChars a a = false := by
  induction a with
  | nil => rfl
  | cons c cs ih => simp [ltChars, ih]

theorem ltChars_asymm (a b : List Char) (h : ltChars a b = true) : ltChars b a = false := by
  induction a generalizing b with
  | nil =>
    cases b with
    | nil => rfl
    | cons d ds => rfl
  | cons c cs ih =>
    cases b with
    | nil => simp [ltChars] at h
    | cons d ds =>
      simp only [ltChars] at h ⊢
      by_cases h1 : c.toNat < d.toNat
      · have h2 : ¬ d.toNat < c.toNat := by omega
        simp [h1, h2]
      · by_cases h2 : d.toNat < c.toNat
        · simp [h1, h2] at h
        · simp only [h1, h2, if_false] at h ⊢
          exact ih ds h

theorem nameLt_irrefl (a : String) : nameLt a a = false := ltChars_irrefl a.data

theorem nameLt_asymm (a b : String) (h : nameLt a b = true) : nameLt b a = false :=
  ltChars_asymm a.data b.data h

theorem nameLt_ne (a b : String) (h : nameLt a b = true) : a ≠ b := by
  intro hab
  subst hab
  rw [nameLt_irrefl] at h
  cases h

theorem Entries.names_append (xs ys : Entries) :
    (xs.append ys).names = xs.names ++ ys.names := by
  induction xs with
  | nil => rfl
  | cons name child rest ih => simp [Entries.append, Entries.names, ih]

theorem Entries.nil_append (ys : Entries) : Entries.nil.append ys = ys := rfl

theorem Entries.append_nil (xs : Entries) : xs.append Entries.nil = xs := by
  induction xs with
  | nil => rfl
  | cons n c rest ih => simp [Entries.append, ih]

theorem Entries.append_cons_assoc (xs : Entries) (name : String) (child : Node) (ys : Entries) :
    (xs.append (Entries.cons name child Entries.nil)).append ys
      = xs.append (Entries.cons name child ys) := by
  induction xs with
  | nil => rfl
  | cons n c rest ih => simp [Entries.append, ih]

theorem Entries.lookup_none_of_lt (x : String) (es : Entries)
    (h : ∀ a ∈ es.names, nameLt a x = true) : es.lookup x = none := by
  induction es with
  | nil => rfl
  | cons n c rest ih =>
    have hn : n ≠ x := nameLt_ne n x (h n (by simp [Entries.names]))
    simp only [Entries.lookup, hn, if_false]
    exact ih (fun a ha => h a (by simp [Entries.names, ha]))

theorem Entries.insert_of_lt (x : String) (v : Node) (es : Entries)
    (h : ∀ a ∈ es.names, nameLt a x = true) :
    es.insert x v = es.append (Entries.cons x v Entries.nil) := by
  induction es with
  | nil => rfl
  | cons n c rest ih =>
    have hlt : nameLt n x = true := h n (by simp [Entries.names])
    have hn : x ≠ n := fun hxn => nameLt_ne n x hlt hxn.symm
    have hgt : nameLt x n = false := nameLt_asymm n x hlt
    simp only [Entries.insert, hn, hgt, if_false, Entries.append, Bool.false_eq_true]
    rw [ih (fun a ha => h a (by simp [Entries.names, ha]))]

theorem Entries.lookup_insert_self (x : String) (v : Node) (es : Entries) :
    (es.insert x v).lookup x = some v := by
  induction es with
  | nil => simp [Entries.insert, Entries.lookup]
  | cons n c rest ih =>
    simp only [Entries.insert]
    split_ifs with h1 h2
    · simp [Entries.lookup]
    · simp [Entries.lookup]
    · have : n ≠ x := fun h => h1 h.symm
      simp [Entries.lookup, this, ih]

theorem Entries.insert_insert (x : String) (v w : Node) (es : Entries) :
    (es.insert x v).insert x w = es.insert x w := by
  induction es with
  | nil => simp [Entries.insert]
  | cons n c rest ih =>
    simp only [Entries.insert]
    split_ifs with h1 h2
    · simp [Entries.insert]
    · simp [Entries.insert]
    · simp [Entries.insert, h1, h2, ih]

theorem Entries.lookup_mem_names (x : String) (es : Entries) (n : Node)
    (h : es.lookup x = some n) : x ∈ es.names := by
  induction es with
  | nil => simp [Entries.lookup] at h
  | cons name child rest ih =>
    simp only [Entries.lookup] at h
    split_ifs at h with h1
    · simp [Entries.names, h1]
    · simp [Entries.names, ih h]


/-! ### Simulation of one walk by another -/

theorem walkNode_file_rf {σ : Type} (rf : ReadFaults) (walkFn : WalkFunc σ) (path : FsPath)
    (c : List Nat) (m : Nat) (s : σ) :
    walkNode rf walkFn path (Node.file c m) s = walkFn path (some (Node.file c m)) none s := by
  rfl

theorem walkNode_dir_rf {σ : Type} (rf : ReadFaults) (walkFn : WalkFunc σ) (path : FsPath) (m : Nat)
    (es : Entries) (s : σ) :
    walkNode rf walkFn path (Node.dir m es) s =
      match rf.readDir path with
      | some e => walkFn path (some (Node.dir m es)) (some e) s
      | none =>
        match walkFn path (some (Node.dir m es)) none s with
        | (s1, WalkCtl.nil) => walkEntries rf walkFn path es s1
        | (s1, r) => (s1, r) := by
  rfl

theorem walkEntries_nil_rf {σ : Type} (rf : ReadFaults) (walkFn : WalkFunc σ) (path : FsPath)
    (s : σ) : walkEntries rf walkFn path Entries.nil s = (s, WalkCtl.nil) := by
  rfl

theorem walkEntries_cons_rf {σ : Type} (rf : ReadFaults) (walkFn : WalkFunc σ) (path : FsPath)
    (name : String) (child : Node) (rest : Entries) (s : σ) :
    walkEntries rf walkFn path (Entries.cons name child rest) s =
      match rf.lstat (path ++ [name]) with
      | some e =>
        match walkFn (path ++ [name]) none (some e) s with
        | (s1, WalkCtl.fail e1) => (s1, WalkCtl.fail e1)
        | (s1, _) => walkEntries rf walkFn path rest s1
      | none =>
        match walkNode rf walkFn (path ++ [name]) child s with
        | (s1, WalkCtl.nil) => walkEntries rf walkFn path rest s1
        | (s1, WalkCtl.skipDir) =>
          if child.isDir then walkEntries rf walkFn path rest s1 else (s1, WalkCtl.skipDir)
        | (s1, WalkCtl.fail e) => (s1, WalkCtl.fail e) := by
  rfl

mutual
theorem walkNode_sim {σ τ : Type} (rf : ReadFaults) (f : WalkFunc σ) (g : WalkFunc τ)
    (S : σ → τ → Prop) (Q : FsPath → Prop) (hfg : SimStep f g S Q)
    (hQ : ∀ path name, Q path → Q (path ++ [name])) (path : FsPath) (s : σ) (t : τ) :
    ∀ n : Node, Q path → S s t →
      S (walkNode rf f path n s).1 (walkNode rf g path n t).1
        ∧ (walkNode rf f path n s).2 = (walkNode rf g path n t).2
  | .file c m, hq, hs => by
    rw [walkNode_file_rf, walkNode_file_rf]
    exact hfg _ _ _ _ _ hq hs
  | .dir m es, hq, hs => by
    rw [walkNode_dir_rf, walkNode_dir_rf]
    cases rf.readDir path with
    | some e => exact hfg _ _ _ _ _ hq hs
    | none =>
      simp only
      have h1 := hfg path (some (Node.dir m es)) none s t hq hs
      generalize f path (some (Node.dir m es)) none s = r1 at h1
      generalize g path (some (Node.dir m es)) none t = r2 at h1
      obtain ⟨s1, c1⟩ := r1
      obtain ⟨t1, c2⟩ := r2
      obtain ⟨hs1, hc⟩ := h1
      simp only at hs1 hc
      subst hc
      cases c1 with
      | nil => exact walkEntries_sim rf f g S Q hfg hQ path s1 t1 es hq hs1
      | skipDir => exact ⟨hs1, rfl⟩
      | fail e => exact ⟨hs1, rfl⟩
theorem walkEntries_sim {σ τ : Type} (rf : ReadFaults) (f : WalkFunc σ) (g : WalkFunc τ)
    (S : σ → τ → Prop) (Q : FsPath → Prop) (hfg : SimStep f g S Q)
    (hQ : ∀ path name, Q path → Q (path ++ [name])) (path : FsPath) (s : σ) (t : τ) :
    ∀ es : Entries, Q path → S s t →
      S (walkEntries rf f path es s).1 (walkEntries rf g path es t).1
        ∧ (walkEntries rf f path es s).2 = (walkEntries rf g path es t).2
  | .nil, _, hs => by
    rw [walkEntries_nil_rf, walkEntries_nil_rf]
    exact ⟨hs, rfl⟩
  | .cons name child rest, hq, hs => by
    rw [walkEntries_cons_rf, walkEntries_cons_rf]
    cases rf.lstat (path ++ [name]) with
    | some e =>
      simp only
      have h1 := hfg (path ++ [name]) none (some e) s t (hQ _ _ hq) hs
      generalize f (path ++ [name]) none (some e) s = r1 at h1
      generalize g (path ++ [name]) none (some e) t = r2 at h1
      obtain ⟨s1, c1⟩ := r1
      obtain ⟨t1, c2⟩ := r2
      obtain ⟨hs1, hc⟩ := h1
      simp only at hs1 hc
      subst hc
      cases c1 with
      | nil => exact walkEntries_sim rf f g S Q hfg hQ path s1 t1 rest hq hs1
      | skipDir => exact walkEntries_sim rf f g S Q hfg hQ path s1 t1 rest hq hs1
      | fail e => exact ⟨hs1, rfl⟩
    | none =>
      simp only
      have h1 := walkNode_sim rf f g S Q hfg hQ (path ++ [name]) s t child (hQ _ _ hq) hs
      generalize walkNode rf f (path ++ [name]) child s = r1 at h1
      generalize walkNode rf g (path ++ [name]) child t = r2 at h1
      obtain ⟨s1, c1⟩ := r1
      obtain ⟨t1, c2⟩ := r2
      obtain ⟨hs1, hc⟩ := h1
      simp only at hs1 hc
      subst hc
      cases c1 with
      | nil => exact walkEntries_sim rf f g S Q hfg hQ path s1 t1 rest hq hs1
      | skipDir =>
        simp only
        split_ifs
        · exact walkEntries_sim rf f g S Q hfg hQ path s1 t1 rest hq hs1
        · exact ⟨hs1, rfl⟩
      | fail e => exact ⟨hs1, rfl⟩
end


/-! ### The copy walk -/

theorem mkdirAllSlot_lift (mode m : Nat) (es0 : Entries) (name : String) (rel : FsPath) (c : Node) :
    (∃ e, mkdirAllSlot mode rel (some c) = Except.error e
        ∧ mkdirAllSlot mode (name :: rel) (some (Node.dir m (es0.insert name c))) = Except.error e)
    ∨ (∃ c1, mkdirAllSlot mode rel (some c) = Except.ok (some c1)
        ∧ mkdirAllSlot mode (name :: rel) (some (Node.dir m (es0.insert name c)))
            = Except.ok (some (Node.dir m (es0.insert name c1)))) := by
  simp only [mkdirAllSlot, Node.mkdirAll, Entries.lookup_insert_self]
  cases Node.mkdirAll mode rel c with
  | error e => exact Or.inl ⟨e, rfl, rfl⟩
  | ok c1 => exact Or.inr ⟨c1, rfl, by simp [Entries.insert_insert]⟩

theorem updateSlot_lift (f : Option Node → Except Err Node) (m : Nat) (es0 : Entries)
    (name : String) (rel : FsPath) (c : Node) :
    (∃ e, updateSlot f rel (some c) = Except.error e
        ∧ updateSlot f (name :: rel) (some (Node.dir m (es0.insert name c))) = Except.error e)
    ∨ (∃ c1, updateSlot f rel (some c) = Except.ok (some c1)
        ∧ updateSlot f (name :: rel) (some (Node.dir m (es0.insert name c)))
            = Except.ok (some (Node.dir m (es0.insert name c1)))) := by
  simp only [updateSlot, Node.updateAt, Entries.lookup_insert_self]
  cases Node.updateAt f rel c with
  | error e => exact Or.inl ⟨e, rfl, rfl⟩
  | ok c1 => exact Or.inr ⟨c1, rfl, by simp [Entries.insert_insert]⟩

theorem copyFile_lift (cf : CopyFaults) (src : FsPath) (content : List Nat) (mode m : Nat)
    (es0 : Entries) (name : String) (rel : FsPath) (c : Node) :
    Lifted m es0 name
        (copyFile cf src content mode (name :: rel) (some (Node.dir m (es0.insert name c)))).1
        (copyFile cf src content mode rel (some c)).1
      ∧ (copyFile cf src content mode (name :: rel) (some (Node.dir m (es0.insert name c)))).2
        = (copyFile cf src content mode rel (some c)).2 := by
  unfold copyFile
  cases cf.openSrc src with
  | some e => exact ⟨⟨c, rfl, rfl⟩, rfl⟩
  | none =>
    simp only
    cases cf.create src with
    | some e => exact ⟨⟨c, rfl, rfl⟩, rfl⟩
    | none =>
      simp only
      rcases updateSlot_lift createOp m es0 name rel c with ⟨e, h1, h2⟩ | ⟨c1, h1, h2⟩
      · rw [h1, h2]
        exact ⟨⟨c, rfl, rfl⟩, rfl⟩
      · rw [h1, h2]
        simp only
        cases cf.ioCopy src with
        | some ke =>
          obtain ⟨k, e⟩ := ke
          simp only
          rcases updateSlot_lift (writeOp (content.take k)) m es0 name rel c1 with
            ⟨e, h3, h4⟩ | ⟨c2, h3, h4⟩
          · rw [h3, h4]
            exact ⟨⟨c1, rfl, rfl⟩, rfl⟩
          · rw [h3, h4]
            exact ⟨⟨c2, rfl, rfl⟩, rfl⟩
        | none =>
          simp only
          rcases updateSlot_lift (writeOp content) m es0 name rel c1 with
            ⟨e, h3, h4⟩ | ⟨c2, h3, h4⟩
          · rw [h3, h4]
            exact ⟨⟨c1, rfl, rfl⟩, rfl⟩
          · rw [h3, h4]
            simp only
            cases cf.stat src with
            | some e => exact ⟨⟨c2, rfl, rfl⟩, rfl⟩
            | none =>
              simp only
              cases cf.chmod src with
              | some e => exact ⟨⟨c2, rfl, rfl⟩, rfl⟩
              | none =>
                simp only
                rcases updateSlot_lift (chmodOp mode) m es0 name rel c2 with
                  ⟨e, h5, h6⟩ | ⟨c3, h5, h6⟩
                · rw [h5, h6]
                  exact ⟨⟨c2, rfl, rfl⟩, rfl⟩
                · rw [h5, h6]
                  exact ⟨⟨c3, rfl, rfl⟩, rfl⟩

theorem drop_src_cons (src : FsPath) (name : String) (rel : FsPath) :
    (src ++ name :: rel).drop src.length = name :: rel := by
  simp

theorem drop_src_snoc (src : FsPath) (name : String) (rel : FsPath) :
    (src ++ name :: rel).drop (src ++ [name]).length = rel := by
  have : src ++ name :: rel = (src ++ [name]) ++ rel := by simp
  rw [this, List.drop_left]

theorem copyWalkFn_err (cf : CopyFaults) (src path : FsPath) (info : Option Node) (e : Err)
    (dst : Option Node) : copyWalkFn cf src path info (some e) dst = (dst, WalkCtl.fail e) := by
  cases info with
  | none => rfl
  | some n => cases n <;> rfl

theorem copyWalkFn_lift (cf : CopyFaults) (src : FsPath) (m : Nat) (es0 : Entries)
    (name : String) :
    SimStep (copyWalkFn cf src) (copyWalkFn cf (src ++ [name])) (Lifted m es0 name)
      (fun path => ∃ rel, path = src ++ name :: rel) := by
  intro path info err s t hq hs
  obtain ⟨rel, rfl⟩ := hq
  obtain ⟨c, rfl, rfl⟩ := hs
  cases err with
  | some e =>
    rw [copyWalkFn_err, copyWalkFn_err]
    exact ⟨⟨c, rfl, rfl⟩, rfl⟩
  | none =>
    cases info with
    | none => exact ⟨⟨c, rfl, rfl⟩, rfl⟩
    | some n =>
      cases n with
      | file content mode =>
        simp only [copyWalkFn, drop_src_cons, drop_src_snoc]
        have h := copyFile_lift cf (src ++ name :: rel) content mode m es0 name rel c
        generalize copyFile cf (src ++ name :: rel) content mode (name :: rel)
          (some (Node.dir m (es0.insert name c))) = r1 at h
        generalize copyFile cf (src ++ name :: rel) content mode rel (some c) = r2 at h
        obtain ⟨s1, e1⟩ := r1
        obtain ⟨t1, e2⟩ := r2
        obtain ⟨hl, he⟩ := h
        simp only at hl he
        subst he
        cases e1 with
        | none => exact ⟨hl, rfl⟩
        | some e => exact ⟨hl, rfl⟩
      | dir mode es =>
        simp only [copyWalkFn, drop_src_cons, drop_src_snoc]
        cases cf.mkdirAll (src ++ name :: rel) with
        | some e => exact ⟨⟨c, rfl, rfl⟩, rfl⟩
        | none =>
          simp only
          rcases mkdirAllSlot_lift mode m es0 name rel c with ⟨e, h1, h2⟩ | ⟨c1, h1, h2⟩
          · rw [h1, h2]
            exact ⟨⟨c, rfl, rfl⟩, rfl⟩
          · rw [h1, h2]
            exact ⟨⟨c1, rfl, rfl⟩, rfl⟩


theorem updateSlot_fresh (f : Option Node → Except Err Node) (m : Nat) (pre : Entries)
    (name : String) (h : pre.lookup name = none) :
    updateSlot f [name] (some (Node.dir m pre)) =
      match f none with
      | Except.ok c => Except.ok (some (Node.dir m (pre.insert name c)))
      | Except.error e => Except.error e := by
  simp only [updateSlot, Node.updateAt, h, if_true]
  cases f none <;> rfl

theorem updateSlot_present (f : Option Node → Except Err Node) (m : Nat) (pre : Entries)
    (name : String) (c : Node) :
    updateSlot f [name] (some (Node.dir m (pre.insert name c))) =
      match f (some c) with
      | Except.ok c1 => Except.ok (some (Node.dir m (pre.insert name c1)))
      | Except.error e => Except.error e := by
  simp only [updateSlot, Node.updateAt, Entries.lookup_insert_self]
  cases f (some c) with
  | ok c1 => simp [Entries.insert_insert]
  | error e => rfl

theorem copyFile_fresh (cf : CopyFaults) (src : FsPath) (content : List Nat) (mode m : Nat)
    (pre : Entries) (name : String) (h : pre.lookup name = none) :
    (∃ e, (copyFile cf src content mode [name] (some (Node.dir m pre))).2 = some e ∧ ¬ cf.Clean)
    ∨ copyFile cf src content mode [name] (some (Node.dir m pre))
        = (some (Node.dir m (pre.insert name (Node.file content mode))), none) := by
  unfold copyFile
  cases h1 : cf.openSrc src with
  | some e => exact Or.inl ⟨e, rfl, fun hc => by rw [hc.2.2.2.1 src] at h1; cases h1⟩
  | none =>
    simp only
    cases h2 : cf.create src with
    | some e => exact Or.inl ⟨e, rfl, fun hc => by rw [hc.2.2.2.2.1 src] at h2; cases h2⟩
    | none =>
      simp only [updateSlot_fresh _ _ _ _ h, createOp]
      cases h3 : cf.ioCopy src with
      | some ke =>
        obtain ⟨k, e⟩ := ke
        left
        simp only [updateSlot_present, writeOp]
        exact ⟨e, rfl, fun hc => by rw [hc.2.2.2.2.2.1 src] at h3; cases h3⟩
      | none =>
        simp only [updateSlot_present, writeOp]
        cases h4 : cf.stat src with
        | some e => exact Or.inl ⟨e, rfl, fun hc => by rw [hc.2.2.2.2.2.2.1 src] at h4; cases h4⟩
        | none =>
          simp only
          cases h5 : cf.chmod src with
          | some e =>
            exact Or.inl ⟨e, rfl, fun hc => by rw [hc.2.2.2.2.2.2.2 src] at h5; cases h5⟩
          | none =>
            right
            simp only [updateSlot_present, chmodOp]


theorem snoc_drop_src (src : FsPath) (name : String) :
    (src ++ [name]).drop src.length = [name] := by
  simp

theorem mkdirAllSlot_fresh (mode m : Nat) (pre : Entries) (name : String)
    (h : pre.lookup name = none) :
    mkdirAllSlot mode [name] (some (Node.dir m pre))
      = Except.ok (some (Node.dir m (pre.insert name (Node.dir mode Entries.nil)))) := by
  simp [mkdirAllSlot, Node.mkdirAll, h]

theorem Entries.wf_cons (name : String) (child : Node) (rest : Entries)
    (h : (Entries.cons name child rest).wf = true) :
    (∀ b ∈ rest.names, nameLt name b = true) ∧ child.wf = true ∧ rest.wf = true := by
  simp only [Entries.wf, Bool.and_eq_true, List.all_eq_true] at h
  exact ⟨h.1.1, h.1.2, h.2⟩

mutual
theorem copy_child (cf : CopyFaults) :
    ∀ (child : Node) (src : FsPath) (m : Nat) (name : String) (pre : Entries),
      pre.lookup name = none → child.wf = true →
      CopyResult cf
        (walkNode cf.read (copyWalkFn cf src) (src ++ [name]) child (some (Node.dir m pre)))
        (Node.dir m (pre.insert name child))
  | .file content mode, src, m, name, pre, hfresh, _ => by
    rw [walkNode_file_rf]
    simp only [copyWalkFn, snoc_drop_src]
    rcases copyFile_fresh cf (src ++ [name]) content mode m pre name hfresh with ⟨e, he, hc⟩ | h
    · left
      generalize copyFile cf (src ++ [name]) content mode [name] (some (Node.dir m pre)) = r at he
      obtain ⟨d1, e1⟩ := r
      simp only at he
      subst he
      exact ⟨e, rfl, hc⟩
    · right
      rw [h]
  | .dir mode ces, src, m, name, pre, hfresh, hwf => by
    rw [walkNode_dir_rf]
    cases h1 : cf.read.readDir (src ++ [name]) with
    | some e =>
      left
      simp only [copyWalkFn_err]
      exact ⟨e, rfl, fun hc => by rw [hc.2.1 _] at h1; cases h1⟩
    | none =>
      simp only [copyWalkFn, snoc_drop_src]
      cases h2 : cf.mkdirAll (src ++ [name]) with
      | some e => exact Or.inl ⟨e, rfl, fun hc => by rw [hc.2.2.1 _] at h2; cases h2⟩
      | none =>
        simp only [mkdirAllSlot_fresh mode m pre name hfresh]
        have hin := copy_entries cf ces (src ++ [name]) mode Entries.nil
          (by intro a ha; simp [Entries.names] at ha) (by simpa [Node.wf] using hwf)
        have hsim := walkEntries_sim cf.read (copyWalkFn cf src) (copyWalkFn cf (src ++ [name]))
          (Lifted m pre name) (fun path => ∃ rel, path = src ++ name :: rel)
          (copyWalkFn_lift cf src m pre name)
          (by rintro path n ⟨rel, rfl⟩; exact ⟨rel ++ [n], by simp⟩)
          (src ++ [name]) (some (Node.dir m (pre.insert name (Node.dir mode Entries.nil))))
          (some (Node.dir mode Entries.nil)) ces ⟨[], rfl⟩ ⟨_, rfl, rfl⟩
        generalize walkEntries cf.read (copyWalkFn cf src) (src ++ [name]) ces
          (some (Node.dir m (pre.insert name (Node.dir mode Entries.nil)))) = r1 at hsim
        generalize walkEntries cf.read (copyWalkFn cf (src ++ [name])) (src ++ [name]) ces
          (some (Node.dir mode Entries.nil)) = r2 at hsim hin
        obtain ⟨⟨c, hc1, hc2⟩, hctl⟩ := hsim
        rcases hin with ⟨e, he, hcl⟩ | hin
        · left
          exact ⟨e, by rw [hctl, he], hcl⟩
        · right
          subst hin
          simp only [Option.some.injEq, Entries.nil_append] at hc1
          subst hc1
          obtain ⟨s1, c1⟩ := r1
          simp only at hc2 hctl
          rw [hc2, hctl]
theorem copy_entries (cf : CopyFaults) :
    ∀ (es : Entries) (src : FsPath) (m : Nat) (pre : Entries),
      (∀ a ∈ pre.names, ∀ b ∈ es.names, nameLt a b = true) → es.wf = true →
      CopyResult cf (walkEntries cf.read (copyWalkFn cf src) src es (some (Node.dir m pre)))
        (Node.dir m (pre.append es))
  | .nil, src, m, pre, _, _ => by
    right
    rw [walkEntries_nil_rf]
    rw [Entries.append_nil]
  | .cons name child rest, src, m, pre, hlt, hwf => by
    obtain ⟨hname, hchild, hrest⟩ := Entries.wf_cons name child rest hwf
    have hpre : ∀ a ∈ pre.names, nameLt a name = true :=
      fun a ha => hlt a ha name (by simp [Entries.names])
    rw [walkEntries_cons_rf]
    cases h1 : cf.read.lstat (src ++ [name]) with
    | some e =>
      left
      simp only [copyWalkFn_err]
      exact ⟨e, rfl, fun hc => by rw [hc.1 _] at h1; cases h1⟩
    | none =>
      simp only
      have hc := copy_child cf child src m name pre (Entries.lookup_none_of_lt name pre hpre) hchild
      rcases hc with ⟨e, he, hcl⟩ | hc
      · left
        generalize walkNode cf.read (copyWalkFn cf src) (src ++ [name]) child
          (some (Node.dir m pre)) = r at he
        obtain ⟨s1, c1⟩ := r
        simp only at he
        subst he
        exact ⟨e, rfl, hcl⟩
      · rw [hc]
        simp only
        rw [Entries.insert_of_lt name child pre hpre]
        have hr := copy_entries cf rest src m (pre.append (Entries.cons name child Entries.nil))
          (by
            intro a ha b hb
            rw [Entries.names_append] at ha
            simp only [Entries.names, List.mem_append, List.mem_singleton] at ha
            rcases ha with ha | ha
            · exact hlt a ha b (by simp [Entries.names, hb])
            · rw [ha]; exact hname b hb)
          hrest
        rw [Entries.append_cons_assoc] at hr
        exact hr
end


theorem copyDir_spec (cf : CopyFaults) (src : FsPath) (ms md : Nat) (es : Entries)
    (hwf : es.wf = true) :
    (∃ e, (copyDir cf src (some (Node.dir ms es)) (some (Node.dir md Entries.nil))).2 = some e
        ∧ ¬ cf.Clean)
    ∨ copyDir cf src (some (Node.dir ms es)) (some (Node.dir md Entries.nil))
        = (some (Node.dir md es), none) := by
  unfold copyDir Walk
  simp only
  cases h1 : cf.read.lstat src with
  | some e =>
    left
    simp only [copyWalkFn_err]
    exact ⟨e, rfl, fun hc => by rw [hc.1 _] at h1; cases h1⟩
  | none =>
    simp only [walkNode_dir_rf]
    cases h2 : cf.read.readDir src with
    | some e =>
      left
      simp only [copyWalkFn_err]
      exact ⟨e, rfl, fun hc => by rw [hc.2.1 _] at h2; cases h2⟩
    | none =>
      simp only [copyWalkFn, List.drop_length]
      cases h3 : cf.mkdirAll src with
      | some e => exact Or.inl ⟨e, rfl, fun hc => by rw [hc.2.2.1 _] at h3; cases h3⟩
      | none =>
        simp only [mkdirAllSlot, Node.mkdirAll]
        have h := copy_entries cf es src md Entries.nil
          (by intro a ha; simp [Entries.names] at ha) hwf
        rw [Entries.nil_append] at h
        rcases h with ⟨e, he, hcl⟩ | h
        · left
          generalize walkEntries cf.read (copyWalkFn cf src) src es
            (some (Node.dir md Entries.nil)) = r at he
          obtain ⟨s1, c1⟩ := r
          simp only at he
          subst he
          exact ⟨e, rfl, hcl⟩
        · right
          rw [h]

theorem copyDir_clean (cf : CopyFaults) (hc : cf.Clean) (src : FsPath) (ms md : Nat)
    (es : Entries) (hwf : es.wf = true) :
    copyDir cf src (some (Node.dir ms es)) (some (Node.dir md Entries.nil))
      = (some (Node.dir md es), none) := by
  rcases copyDir_spec cf src ms md es hwf with ⟨_, _, h⟩ | h
  · exact absurd hc h
  · exact h

/-! ### The located payload is a directory of the tree -/

theorem resolve_append (extractDir : FsPath) (tree : Node) (rel : FsPath) :
    resolve extractDir tree (extractDir ++ rel) = tree.get rel := by
  simp [resolve]

mutual
theorem node_markers_dirAt :
    ∀ (n : Node) (path : FsPath) (x : FsPath × Bool), n.wf = true → x ∈ Node.markers path n →
      ∃ rel, x.1 = path ++ rel ∧ DirAt n rel
  | .file _ _, _, _, _, hx => by simp [Node.markers] at hx
  | .dir m es, path, x, hwf, hx =>
    entries_markers_dirAt es path x m (by simpa [Node.wf] using hwf)
      (by simpa [Node.markers] using hx)
theorem entries_markers_dirAt :
    ∀ (es : Entries) (path : FsPath) (x : FsPath × Bool) (m : Nat), es.wf = true →
      x ∈ Entries.markers path es → ∃ rel, x.1 = path ++ rel ∧ DirAt (Node.dir m es) rel
  | .nil, _, _, _, _, hx => by simp [Entries.markers] at hx
  | .cons name child rest, path, x, m, hwf, hx => by
    obtain ⟨hname, hchild, hrest⟩ := Entries.wf_cons name child rest hwf
    simp only [Entries.markers, List.mem_append] at hx
    rcases hx with (hx | hx) | hx
    · refine ⟨[], ?_, m, _, rfl, hwf⟩
      split_ifs at hx
      · simp only [List.mem_singleton] at hx
        simp [hx]
      · cases hx
    · obtain ⟨rel, hrel, m1, es1, hget, hwf1⟩ := node_markers_dirAt child (path ++ [name]) x hchild hx
      refine ⟨name :: rel, by simp [hrel], m1, es1, ?_, hwf1⟩
      simp [Node.get, Entries.lookup, hget]
    · obtain ⟨rel, hrel, m1, es1, hget, hwf1⟩ := entries_markers_dirAt rest path x m hrest hx
      cases rel with
      | nil => exact ⟨[], hrel, m, _, rfl, hwf⟩
      | cons n1 rel1 =>
        refine ⟨n1 :: rel1, hrel, m1, es1, ?_, hwf1⟩
        simp only [Node.get] at hget ⊢
        cases hl : rest.lookup n1 with
        | none => simp [hl] at hget
        | some c1 =>
          have hne : name ≠ n1 := nameLt_ne name n1 (hname n1 (Entries.lookup_mem_names n1 rest c1 hl))
          simp only [Entries.lookup, hne, if_false, hl]
          simpa [hl] using hget
end

theorem findAppDir_resolves (extractDir : FsPath) (m : Nat) (es : Entries) (hwf : es.wf = true)
    (d : FsPath) (h : findAppDir extractDir (Node.dir m es) = Except.ok d) :
    ∃ m1 es1, resolve extractDir (Node.dir m es) d = some (Node.dir m1 es1) ∧ es1.wf = true := by
  obtain ⟨_, rel, hrel, m1, es1, hget, hwf1⟩ :=
    findAppDir_ok_marker (fun x => ∃ rel, x.1 = extractDir ++ rel ∧ DirAt (Node.dir m es) rel)
      extractDir m es (fun x hx => entries_markers_dirAt es extractDir x m hwf hx) d h
  simp only at hrel
  exact ⟨m1, es1, by rw [hrel, resolve_append]; exact hget, hwf1⟩


/-! ### Version comparison -/

theorem digitsFold_ge (cs : List Char) (n : Nat) :
    n ≤ cs.foldl (fun acc c => acc * 10 + (c.toNat - 48)) n := by
  induction cs generalizing n with
  | nil => simp
  | cons c cs ih =>
    simp only [List.foldl_cons]
    exact le_trans (by omega) (ih _)

theorem parseUintLoop_eq (cs : List Char) (n : Nat) (hn : n ≤ 2 ^ intSize - 1) :
    parseUintLoop cs n =
      if (cs.takeWhile isDecDigit).foldl (fun acc c => acc * 10 + (c.toNat - 48)) n
          > 2 ^ intSize - 1 then Except.error Err.outOfRange
      else if cs.all isDecDigit = true then
        Except.ok (cs.foldl (fun acc c => acc * 10 + (c.toNat - 48)) n)
      else Except.error Err.invalidNumber := by
  induction cs generalizing n with
  | nil =>
    have : ¬ n > 2 ^ intSize - 1 := by omega
    simp [parseUintLoop, this]
  | cons c cs ih =>
    have h64 : (2 : Nat) ^ intSize - 1 = 18446744073709551615 := by simp [intSize]
    by_cases hd : 48 ≤ c.toNat ∧ c.toNat ≤ 57
    · have hdig : isDecDigit c = true := by simp [isDecDigit, hd]
      simp only [parseUintLoop, hd, and_self, if_true, List.takeWhile_cons, hdig, List.foldl_cons,
        List.all_cons, Bool.true_and]
      have hge := digitsFold_ge (cs.takeWhile isDecDigit) (n * 10 + (c.toNat - 48))
      by_cases h1 : n ≥ (2 ^ 64 - 1) / 10 + 1
      · have : List.foldl (fun acc c => acc * 10 + (c.toNat - 48)) (n * 10 + (c.toNat - 48))
            (cs.takeWhile isDecDigit) > 2 ^ intSize - 1 := by
          rw [h64]
          have h1' : n ≥ 1844674407370955162 := by
            have : (2 ^ 64 - 1) / 10 + 1 = 1844674407370955162 := by norm_num
            omega
          omega
        simp only [h1, if_true, this]
      · simp only [h1, if_false]
        by_cases h2 : n * 10 + (c.toNat - 48) > 2 ^ intSize - 1
        · have : List.foldl (fun acc c => acc * 10 + (c.toNat - 48)) (n * 10 + (c.toNat - 48))
              (cs.takeWhile isDecDigit) > 2 ^ intSize - 1 := by omega
          simp only [h2, if_true, this]
        · simp only [h2, if_false]
          exact ih _ (by omega)
    · have hdig : isDecDigit c = false := by simp [isDecDigit, hd]
      have : ¬ n > 2 ^ intSize - 1 := by omega
      simp [parseUintLoop, hd, hdig, this]

theorem Atoi_value (s : List Char) : (Atoi s).1 = saturatedComponentValue s := by
  by_cases hs : s = []
  · subst hs
    simp [Atoi, ParseInt, saturatedComponentValue, decimalValue, stripSign, leadingDigitsValue]
  · unfold Atoi ParseInt saturatedComponentValue decimalValue ParseUint leadingDigitsValue
    simp only [hs, if_false]
    generalize stripSign s = body
    generalize hasMinusSign s = neg
    have h63 : (2 : Int) ^ (intSize - 1) = 9223372036854775808 := by simp [intSize]
    have h63n : (2 : Nat) ^ (intSize - 1) = 9223372036854775808 := by simp [intSize]
    have h64 : (2 : Nat) ^ intSize - 1 = 18446744073709551615 := by simp [intSize]
    by_cases hb : body = []
    · subst hb
      simp
    · rw [parseUintLoop_eq body 0 (by omega)]
      by_cases hd : body.all isDecDigit = true
      · have htw : body.takeWhile isDecDigit = body := by
          rw [List.takeWhile_eq_self_iff]
          simpa using hd
        simp only [hb, hd, htw, if_true, if_false, ne_eq, not_false_eq_true, and_self]
        generalize List.foldl (fun acc c => acc * 10 + (c.toNat - 48)) 0 body = n
        by_cases hov : n > 2 ^ intSize - 1
        · simp only [hov, if_true, if_false]
          cases neg
          · simp only [h63, h63n, h64, Bool.false_eq_true, if_false] at hov ⊢
            simp
            split_ifs <;> first | rfl | omega
          · simp only [h63, h63n, h64, if_true] at hov ⊢
            simp
            split_ifs <;> first | rfl | omega
        · simp only [hov, if_false]
          cases neg
          · simp only [h63, h63n, h64, Bool.false_eq_true, if_false] at hov ⊢
            simp
            split_ifs <;> first | rfl | omega
          · simp only [h63, h63n, h64, if_true] at hov ⊢
            simp
            split_ifs <;> first | rfl | omega
      · simp only [hb, hd, if_false, ne_eq, not_false_eq_true, true_and, Bool.false_eq_true,
          and_false]
        by_cases hov : List.foldl (fun acc c => acc * 10 + (c.toNat - 48)) 0
            (body.takeWhile isDecDigit) > 2 ^ intSize - 1
        · simp only [hov, if_true]
          cases neg <;> simp [h63, h63n, h64]
        · simp only [hov, if_false]
          simp

theorem headD_drop_map (val : List Char → Int) (ps : List (List Char)) (i : Nat) :
    (if i < ps.length then val (ps.getD i []) else 0) = ((ps.map val).drop i).headD 0 := by
  induction ps generalizing i with
  | nil => simp
  | cons p ps ih =>
    cases i with
    | zero => simp
    | succ i =>
      have := ih i
      simp only [List.length_cons, Nat.add_lt_add_iff_right, List.getD_cons_succ, List.map_cons,
        List.drop_succ_cons]
      exact this

theorem compareLoop_eq_cmpN (p1 p2 : List (List Char)) (n i : Nat) :
    compareLoop p1 p2 n i
      = cmpN n ((p1.map (fun c => (Atoi c).1)).drop i) ((p2.map (fun c => (Atoi c).1)).drop i) := by
  induction n generalizing i with
  | zero => simp [compareLoop, cmpN]
  | succ n ih =>
    have h1 := headD_drop_map (fun c => (Atoi c).1) p1 i
    have h2 := headD_drop_map (fun c => (Atoi c).1) p2 i
    simp only at h1 h2
    simp only [compareLoop, cmpN, h1, h2, ih (i + 1), List.tail_drop]

theorem padZeros_nil_succ (n : Nat) : padZeros (n + 1) [] = 0 :: padZeros n [] := by
  simp [padZeros, List.replicate_succ]

theorem padZeros_cons_succ (n : Nat) (x : Int) (xs : List Int) :
    padZeros (n + 1) (x :: xs) = x :: padZeros n xs := by
  simp [padZeros]

theorem cmpN_eq_lexSign (n : Nat) (xs ys : List Int) (hx : xs.length ≤ n) (hy : ys.length ≤ n) :
    cmpN n xs ys = lexSign (padZeros n xs) (padZeros n ys) := by
  induction n generalizing xs ys with
  | zero =>
    have hx0 : xs = [] := List.length_eq_zero.mp (Nat.le_zero.mp hx)
    have hy0 : ys = [] := List.length_eq_zero.mp (Nat.le_zero.mp hy)
    subst hx0; subst hy0
    simp [cmpN, padZeros, lexSign]
  | succ n ih =>
    cases xs with
    | nil =>
      cases ys with
      | nil =>
        have := ih [] [] (by simp) (by simp)
        rw [padZeros_nil_succ]
        simp only [cmpN, lexSign, List.headD_nil, List.tail_nil, this]
      | cons y ys =>
        have := ih [] ys (by simp) (by simpa using hy)
        rw [padZeros_nil_succ, padZeros_cons_succ]
        simp only [cmpN, lexSign, List.headD_nil, List.headD_cons, List.tail_nil, List.tail_cons,
          this]
    | cons x xs =>
      cases ys with
      | nil =>
        have := ih xs [] (by simpa using hx) (by simp)
        rw [padZeros_nil_succ, padZeros_cons_succ]
        simp only [cmpN, lexSign, List.headD_nil, List.headD_cons, List.tail_nil, List.tail_cons,
          this]
      | cons y ys =>
        have := ih xs ys (by simpa using hx) (by simpa using hy)
        rw [padZeros_cons_succ, padZeros_cons_succ]
        simp only [cmpN, lexSign, List.headD_cons, List.tail_cons, this]

theorem compareVersions_eq_cmpN (v1 v2 : String) :
    compareVersions v1 v2
      = cmpN (max (componentValues (fun c => (Atoi c).1) v1).length
               (componentValues (fun c => (Atoi c).1) v2).length)
          (componentValues (fun c => (Atoi c).1) v1) (componentValues (fun c => (Atoi c).1) v2) := by
  unfold compareVersions componentValues
  simp only [compareLoop_eq_cmpN, List.drop_zero, List.length_map]
  congr 1
  split_ifs <;> omega

theorem compareVersions_eq_specCompare (v1 v2 : String) :
    compareVersions v1 v2 = specCompare saturatedComponentValue v1 v2 := by
  have hval : (fun c => (Atoi c).1) = saturatedComponentValue := funext Atoi_value
  rw [compareVersions_eq_cmpN, hval]
  unfold specCompare
  exact cmpN_eq_lexSign _ _ _ (le_max_left _ _) (le_max_right _ _)

theorem cmpN_range (n : Nat) (xs ys : List Int) :
    cmpN n xs ys = -1 ∨ cmpN n xs ys = 0 ∨ cmpN n xs ys = 1 := by
  induction n generalizing xs ys with
  | zero => simp [cmpN]
  | succ n ih =>
    simp only [cmpN]
    split_ifs
    · simp
    · simp
    · exact ih _ _

theorem cmpN_nil (n : Nat) : cmpN n [] [] = 0 := by
  induction n with
  | zero => rfl
  | succ n ih => simp [cmpN, ih]

theorem cmpN_stable (n m : Nat) (xs ys : List Int) (hx : xs.length ≤ n) (hy : ys.length ≤ n)
    (hnm : n ≤ m) : cmpN m xs ys = cmpN n xs ys := by
  induction n generalizing m xs ys with
  | zero =>
    have hx0 : xs = [] := List.length_eq_zero.mp (Nat.le_zero.mp hx)
    have hy0 : ys = [] := List.length_eq_zero.mp (Nat.le_zero.mp hy)
    subst hx0; subst hy0
    simp [cmpN_nil]
  | succ n ih =>
    obtain ⟨m, rfl⟩ : ∃ k, m = k + 1 := ⟨m - 1, by omega⟩
    have := ih m xs.tail ys.tail (by simp; omega) (by simp; omega) (by omega)
    simp only [cmpN, this]

theorem cmpN_self (n : Nat) (xs : List Int) : cmpN n xs xs = 0 := by
  induction n generalizing xs with
  | zero => rfl
  | succ n ih => simp [cmpN, ih]

theorem cmpN_swap (n : Nat) (xs ys : List Int) : cmpN n xs ys = -cmpN n ys xs := by
  induction n generalizing xs ys with
  | zero => simp [cmpN]
  | succ n ih =>
    simp only [cmpN]
    have := ih xs.tail ys.tail
    split_ifs <;> omega

theorem cmpN_trans (n : Nat) (xs ys zs : List Int) (h1 : cmpN n xs ys ≤ 0)
    (h2 : cmpN n ys zs ≤ 0) : cmpN n xs zs ≤ 0 := by
  induction n generalizing xs ys zs with
  | zero => simp [cmpN]
  | succ n ih =>
    simp only [cmpN] at h1 h2 ⊢
    have := ih xs.tail ys.tail zs.tail
    split_ifs at h1 h2 ⊢ <;> omega


/-! ### Installation steps -/

theorem rename_ok (fault : Option Err) (src dst : Option Node)
    (h : (rename fault src dst).2 = none) :
    ∃ n, src = some n ∧ rename fault src dst = ((none, some n), none) := by
  unfold rename at h ⊢
  cases fault with
  | some e => simp at h
  | none =>
    cases src with
    | none => simp at h
    | some n =>
      cases dst with
      | none => exact ⟨n, rfl, rfl⟩
      | some d =>
        by_cases h1 : (n.isDir || d.isDir) = true
        · simp [h1] at h
        · exact ⟨n, rfl, by simp [h1]⟩

theorem noCopyFaults_clean : noCopyFaults.Clean :=
  ⟨fun _ => rfl, fun _ => rfl, fun _ => rfl, fun _ => rfl, fun _ => rfl, fun _ => rfl,
    fun _ => rfl, fun _ => rfl⟩

theorem extractAndUpdate_pre_install_failure (env : ExtractEnv) (fs : FS)
    (h : (∃ e, env.extract = Except.error e)
      ∨ (∃ d es e, env.mkdirTemp = Except.ok d ∧ env.extract = Except.ok es
          ∧ findAppDir d (Node.dir 448 es) = Except.error e)) :
    (extractAndUpdate env fs).err ≠ none ∧ (extractAndUpdate env fs).fs = fs
      ∧ (∀ op ∈ (extractAndUpdate env fs).log, op.touchesInstall = false) := by
  cases hTemp : env.mkdirTemp with
  | error e =>
    simp [extractAndUpdate, hTemp, Op.touchesInstall]
  | ok extractDir =>
    cases hExtract : env.extract with
    | error e =>
      simp [extractAndUpdate, hTemp, hExtract, Op.touchesInstall]
    | ok es =>
      rcases h with ⟨e, he⟩ | ⟨d, es1, e, hd, hes, hf⟩
      · rw [hExtract] at he
        cases he
      · rw [hTemp] at hd
        rw [hExtract] at hes
        cases hd
        cases hes
        simp [extractAndUpdate, hTemp, hExtract, hf, Op.touchesInstall]

theorem extractAndUpdate_copy_failure_restores (env : ExtractEnv) (fs : FS)
    (extractDir appDir : FsPath) (es : Entries) (e : Err)
    (hTemp : env.mkdirTemp = Except.ok extractDir) (hExtract : env.extract = Except.ok es)
    (hFind : findAppDir extractDir (Node.dir 448 es) = Except.ok appDir)
    (hRename : (rename env.faults.renameToBak fs.live fs.bak).2 = none)
    (hMkdir : env.faults.mkdirLive = none)
    (hCopy : (copyDir env.faults.copy appDir (resolve extractDir (Node.dir 448 es) appDir)
      (some (Node.dir 493 Entries.nil))).2 = some e)
    (hRemove : env.faults.removeLive = none) (hBack : env.faults.renameBack = none) :
    (extractAndUpdate env fs).err = some e
      ∧ (extractAndUpdate env fs).fs.live = fs.live
      ∧ (extractAndUpdate env fs).fs.bak = none := by
  obtain ⟨old, hold, hren⟩ := rename_ok _ _ _ hRename
  generalize hc : copyDir env.faults.copy appDir (resolve extractDir (Node.dir 448 es) appDir)
    (some (Node.dir 493 Entries.nil)) = r at hCopy
  obtain ⟨live3, e1⟩ := r
  simp only at hCopy
  subst hCopy
  unfold extractAndUpdate
  simp only [hTemp, hExtract, hFind, hren, hMkdir, mkdirAllSlot, Node.mkdirAll, hc, hRemove, hBack]
  cases live3 <;> simp [removeAll, rename, hold]

theorem extractAndUpdate_one_installation (env : ExtractEnv) (fs : FS) (old : Node)
    (hLive : fs.live = some old) (hBak : fs.bak = none)
    (hWf : ∀ es, env.extract = Except.ok es → es.wf = true)
    (hRemoveLive : env.faults.removeLive = none) (hBack : env.faults.renameBack = none)
    (hRemoveBak : env.faults.removeBak = none) :
    (extractAndUpdate env fs).fs.bak = none
      ∧ ((extractAndUpdate env fs).fs.live = some old
        ∨ ∃ extractDir es appDir m pes,
            env.mkdirTemp = Except.ok extractDir ∧ env.extract = Except.ok es
              ∧ findAppDir extractDir (Node.dir 448 es) = Except.ok appDir
              ∧ resolve extractDir (Node.dir 448 es) appDir = some (Node.dir m pes)
              ∧ (extractAndUpdate env fs).err = none
              ∧ (extractAndUpdate env fs).fs.live = some (Node.dir 493 pes)) := by
  cases hTemp : env.mkdirTemp with
  | error e =>
    simp only [extractAndUpdate, hTemp]
    exact ⟨hBak, Or.inl hLive⟩
  | ok extractDir =>
    cases hExtract : env.extract with
    | error e =>
      simp only [extractAndUpdate, hTemp, hExtract]
      exact ⟨hBak, Or.inl hLive⟩
    | ok es =>
      cases hFind : findAppDir extractDir (Node.dir 448 es) with
      | error e =>
        simp only [extractAndUpdate, hTemp, hExtract, hFind]
        exact ⟨hBak, Or.inl hLive⟩
      | ok appDir =>
        obtain ⟨m, pes, hres, hpwf⟩ := findAppDir_resolves extractDir 448 es (hWf es hExtract)
          appDir hFind
        simp only [extractAndUpdate, hTemp, hExtract, hFind, hLive, hBak, hres]
        cases hRen : env.faults.renameToBak with
        | some e =>
          simp only [rename]
          exact ⟨hBak, Or.inl hLive⟩
        | none =>
          simp only [rename]
          cases hMk : env.faults.mkdirLive with
          | some e => simp [hBack, rename]
          | none =>
            simp only [mkdirAllSlot, Node.mkdirAll]
            rcases copyDir_spec env.faults.copy appDir m 493 pes hpwf with ⟨e, he, _⟩ | hc
            · generalize copyDir env.faults.copy appDir (some (Node.dir m pes))
                (some (Node.dir 493 Entries.nil)) = r at he
              obtain ⟨live3, e1⟩ := r
              simp only at he
              subst he
              cases live3 <;> simp [removeAll, hRemoveLive, hBack, rename]
            · rw [hc]
              simp only [removeAll, hRemoveBak, true_and]
              exact Or.inr ⟨extractDir, es, appDir, m, pes, rfl, rfl, hFind, hres, rfl⟩

/-! ### What the extraction leaves alone -/

theorem lookup_insert_ne (x y : String) (v : Node) (es : Entries) (h : y ≠ x) :
    (es.insert x v).lookup y = es.lookup y := by
  induction es with
  | nil =>
    have : x ≠ y := fun h1 => h h1.symm
    simp [Entries.insert, Entries.lookup, this]
  | cons n c rest ih =>
    simp only [Entries.insert]
    split_ifs with h1 h2
    · have hxy : x ≠ y := fun h3 => h h3.symm
      have hny : n ≠ y := fun h3 => hxy (h1.trans h3)
      simp [Entries.lookup, hxy, hny]
    · have hxy : x ≠ y := fun h3 => h h3.symm
      simp [Entries.lookup, hxy]
    · simp only [Entries.lookup, ih]

theorem get_insert_self (m : Nat) (es : Entries) (a : String) (c : Node) (q : FsPath) :
    (Node.dir m (es.insert a c)).get (a :: q) = c.get q := by
  simp [Node.get, Entries.lookup_insert_self]

theorem get_insert_ne (m : Nat) (es : Entries) (a b : String) (c : Node) (q : FsPath)
    (h : b ≠ a) : (Node.dir m (es.insert a c)).get (b :: q) = (Node.dir m es).get (b :: q) := by
  simp [Node.get, lookup_insert_ne a b c es h]

theorem updateAt_get_diverges (f : Option Node → Except Err Node) (p q : FsPath) (n n1 : Node)
    (hd : diverges p q = true) (h : n.updateAt f p = Except.ok n1) : n1.get q = n.get q := by
  induction p generalizing q n n1 with
  | nil => simp [diverges] at hd
  | cons a p ih =>
    cases q with
    | nil => simp [diverges] at hd
    | cons b q =>
      cases n with
      | file c m => simp [Node.updateAt] at h
      | dir m es =>
        simp only [Node.updateAt] at h
        simp only [diverges] at hd
        by_cases hab : a = b
        · subst hab
          simp only [if_true] at hd
          cases hl : es.lookup a with
          | some child =>
            simp only [hl] at h
            cases hu : Node.updateAt f p child with
            | error e => simp [hu] at h
            | ok c =>
              simp only [hu, Except.ok.injEq] at h
              subst h
              rw [get_insert_self]
              simp only [Node.get, hl]
              exact ih q child c hd hu
          | none =>
            simp only [hl] at h
            by_cases hp : p = []
            · subst hp
              simp [diverges] at hd
            · simp [hp] at h
        · have hba : b ≠ a := fun h1 => hab h1.symm
          cases hl : es.lookup a with
          | some child =>
            simp only [hl] at h
            cases hu : Node.updateAt f p child with
            | error e => simp [hu] at h
            | ok c =>
              simp only [hu, Except.ok.injEq] at h
              subst h
              exact get_insert_ne m es a b c q hba
          | none =>
            simp only [hl] at h
            by_cases hp : p = []
            · simp only [hp, if_true] at h
              cases hf : f none with
              | error e => simp [hf] at h
              | ok c =>
                simp only [hf, Except.ok.injEq] at h
                subst h
                exact get_insert_ne m es a b c q hba
            · simp [hp] at h

theorem get_nil_dir_cons (mode : Nat) (b : String) (q : FsPath) :
    (Node.dir mode Entries.nil).get (b :: q) = none := by
  simp [Node.get, Entries.lookup]

theorem mkdirAll_get_frame (mode : Nat) (p q : FsPath) (n n1 : Node)
    (hq : q.isPrefixOf p = false) (h : n.mkdirAll mode p = Except.ok n1) :
    n1.get q = n.get q := by
  induction p generalizing q n n1 with
  | nil =>
    cases n with
    | file c m => simp [Node.mkdirAll] at h
    | dir m es =>
      simp only [Node.mkdirAll, Except.ok.injEq] at h
      subst h
      rfl
  | cons a p ih =>
    cases q with
    | nil => simp at hq
    | cons b q =>
      cases n with
      | file c m => simp [Node.mkdirAll] at h
      | dir m es =>
        simp only [Node.mkdirAll] at h
        by_cases hab : b = a
        · subst hab
          have hq1 : q.isPrefixOf p = false := by simpa [List.isPrefixOf] using hq
          cases hl : es.lookup b with
          | some child =>
            simp only [hl] at h
            cases hu : Node.mkdirAll mode p child with
            | error e => simp [hu] at h
            | ok c =>
              simp only [hu, Except.ok.injEq] at h
              subst h
              rw [get_insert_self]
              simp only [Node.get, hl]
              exact ih q child c hq1 hu
          | none =>
            simp only [hl] at h
            cases hu : Node.mkdirAll mode p (Node.dir mode Entries.nil) with
            | error e => simp [hu] at h
            | ok c =>
              simp only [hu, Except.ok.injEq] at h
              subst h
              rw [get_insert_self]
              simp only [Node.get, hl]
              rw [ih q _ c hq1 hu]
              cases q with
              | nil => simp at hq1
              | cons z q => exact get_nil_dir_cons mode z q
        · cases hl : es.lookup a with
          | some child =>
            simp only [hl] at h
            cases hu : Node.mkdirAll mode p child with
            | error e => simp [hu] at h
            | ok c =>
              simp only [hu, Except.ok.injEq] at h
              subst h
              exact get_insert_ne m es a b c q hab
          | none =>
            simp only [hl] at h
            cases hu : Node.mkdirAll mode p (Node.dir mode Entries.nil) with
            | error e => simp [hu] at h
            | ok c =>
              simp only [hu, Except.ok.injEq] at h
              subst h
              exact get_insert_ne m es a b c q hab

theorem diverges_of_isPrefixOf (e d q : FsPath) (hd : diverges e q = true)
    (hp : e.isPrefixOf d = true) : diverges d q = true := by
  induction e generalizing d q with
  | nil => simp [diverges] at hd
  | cons a e ih =>
    cases q with
    | nil => simp [diverges] at hd
    | cons b q =>
      cases d with
      | nil => simp [List.isPrefixOf] at hp
      | cons a1 d =>
        simp only [List.isPrefixOf, Bool.and_eq_true, beq_iff_eq] at hp
        obtain ⟨ha, hp1⟩ := hp
        subst ha
        simp only [diverges] at hd ⊢
        by_cases hab : a = b
        · simp only [hab, if_true] at hd ⊢
          exact ih d q hd hp1
        · simp [hab]

theorem not_isPrefixOf_dropLast (p q : FsPath) (hd : diverges p q = true) :
    q.isPrefixOf p.dropLast = false := by
  induction p generalizing q with
  | nil => simp [diverges] at hd
  | cons a p ih =>
    cases q with
    | nil => simp [diverges] at hd
    | cons b q =>
      simp only [diverges] at hd
      cases p with
      | nil => simp [List.isPrefixOf]
      | cons a1 p =>
        simp only [List.dropLast_cons₂, List.isPrefixOf]
        by_cases hab : a = b
        · simp only [hab, if_true] at hd
          simp [hab, ih q hd]
        · have : (b == a) = false := by simpa using fun h => hab h.symm
          simp [this]

theorem extractFile_get_frame (xf : ExtractFaults) (destPath q : FsPath) (file : ArchiveEntry)
    (root : Node) (hd : diverges (joinPath destPath file.name) q = true) :
    (extractFile xf destPath file root).1.get q = root.get q := by
  have hup : ∀ f (n n1 : Node), n.updateAt f (joinPath destPath file.name) = Except.ok n1 →
      n1.get q = n.get q := fun f n n1 h => updateAt_get_diverges f _ q n n1 hd h
  unfold extractFile
  simp only
  cases h1 : (match xf.mkdirAll (joinPath destPath file.name) with
      | some e => Except.error e
      | none => root.mkdirAll 493 (parentDir (joinPath destPath file.name))) with
  | error e => rfl
  | ok r1 =>
    have hr1 : r1.get q = root.get q := by
      cases hx : xf.mkdirAll (joinPath destPath file.name) with
      | some e => simp [hx] at h1
      | none =>
        simp only [hx] at h1
        exact mkdirAll_get_frame 493 _ q root r1 (not_isPrefixOf_dropLast _ q hd) h1
    simp only
    cases xf.openEntry (joinPath destPath file.name) with
    | some e => exact hr1
    | none =>
      simp only
      cases h2 : (match xf.create (joinPath destPath file.name) with
          | some e => Except.error e
          | none => r1.updateAt createOp (joinPath destPath file.name)) with
      | error e => exact hr1
      | ok r2 =>
        have hr2 : r2.get q = root.get q := by
          cases hx : xf.create (joinPath destPath file.name) with
          | some e => simp [hx] at h2
          | none =>
            simp only [hx] at h2
            rw [hup _ r1 r2 h2, hr1]
        simp only
        cases xf.ioCopy (joinPath destPath file.name) with
        | some ke =>
          obtain ⟨k, e⟩ := ke
          simp only
          cases h3 : r2.updateAt (writeOp (file.content.take k)) (joinPath destPath file.name) with
          | error e1 => exact hr2
          | ok r3 =>
            simp only
            rw [hup _ r2 r3 h3, hr2]
        | none =>
          simp only
          cases h3 : r2.updateAt (writeOp file.content) (joinPath destPath file.name) with
          | error e1 => exact hr2
          | ok r3 =>
            have hr3 : r3.get q = root.get q := by rw [hup _ r2 r3 h3, hr2]
            simp only
            cases xf.chmod (joinPath destPath file.name) with
            | some e => exact hr3
            | none =>
              simp only
              cases h4 : r3.updateAt (chmodOp file.mode) (joinPath destPath file.name) with
              | error e1 => exact hr3
              | ok r4 =>
                simp only
                rw [hup _ r3 r4 h4, hr3]

theorem confined_cons (destPath : FsPath) (file : ArchiveEntry) (rest : List ArchiveEntry)
    (h : confined destPath (file :: rest) = true) :
    (file.isDir = false → destPath.isPrefixOf (joinPath destPath file.name) = true)
      ∧ confined destPath rest = true := by
  unfold confined destFilePaths at h ⊢
  cases hdir : file.isDir with
  | true => simpa [List.filter, hdir] using h
  | false =>
    simp only [List.filter, hdir, Bool.not_false, List.map_cons, List.all_cons,
      Bool.and_eq_true] at h
    exact ⟨fun _ => h.1, h.2⟩

theorem extractLoop_get_frame (xf : ExtractFaults) (destPath q : FsPath)
    (hd : diverges destPath q = true) (files : List ArchiveEntry) (root : Node)
    (hc : confined destPath files = true) :
    (extractLoop xf destPath files root).1.get q = root.get q := by
  induction files generalizing root with
  | nil => rfl
  | cons file rest ih =>
    obtain ⟨hfile, hrest⟩ := confined_cons destPath file rest hc
    simp only [extractLoop]
    cases hdir : file.isDir with
    | true => simpa using ih root hrest
    | false =>
      simp only [Bool.false_eq_true, if_false]
      have hf := extractFile_get_frame xf destPath q file root
        (diverges_of_isPrefixOf destPath _ q hd (hfile hdir))
      generalize extractFile xf destPath file root = r at hf
      obtain ⟨r1, e1⟩ := r
      cases e1 with
      | some e => exact hf
      | none =>
        simp only at hf ⊢
        rw [ih r1 hrest, hf]

theorem extract7zArchive_get_frame (xf : ExtractFaults) (archive : Except Err (List ArchiveEntry))
    (destPath q : FsPath) (root : Node) (hd : diverges destPath q = true)
    (hc : ∀ files, archive = Except.ok files → confined destPath files = true) :
    (extract7zArchive xf archive destPath root).1.get q = root.get q := by
  cases archive with
  | error e => rfl
  | ok files => exact extractLoop_get_frame xf destPath q hd files root (hc files rfl)

theorem installationAt_extracted (run : DiskRun) (extractDir : FsPath) (root root1 : Node)
    (hLive : diverges extractDir run.appPath = true)
    (hBak : diverges extractDir (bakPath run.appPath) = true)
    (hc : ∀ files, run.archive = Except.ok files → confined extractDir files = true)
    (hMk : root.updateAt (mkdirOp 448) extractDir = Except.ok root1) :
    installationAt run.appPath
        (extract7zArchive run.extractFaults run.archive extractDir root1).1
      = installationAt run.appPath root := by
  unfold installationAt
  rw [extract7zArchive_get_frame _ _ _ _ _ hLive hc, extract7zArchive_get_frame _ _ _ _ _ hBak hc,
    updateAt_get_diverges _ _ _ _ _ hLive hMk, updateAt_get_diverges _ _ _ _ _ hBak hMk]

/-! ### The extraction keeps the directories sorted -/

theorem char_eq_of_toNat_eq (c d : Char) (h : c.toNat = d.toNat) : c = d := by
  have h1 : Char.ofNat c.toNat = Char.ofNat d.toNat := by rw [h]
  simpa [Char.ofNat_toNat] using h1

theorem ltChars_trans (a b c : List Char) (h1 : ltChars a b = true) (h2 : ltChars b c = true) :
    ltChars a c = true := by
  induction a generalizing b c with
  | nil =>
    cases b with
    | nil => simp [ltChars] at h1
    | cons y ys =>
      cases c with
      | nil => simp [ltChars] at h2
      | cons z zs => simp [ltChars]
  | cons x xs ih =>
    cases b with
    | nil => simp [ltChars] at h1
    | cons y ys =>
      cases c with
      | nil => simp [ltChars] at h2
      | cons z zs =>
        simp only [ltChars] at h1 h2 ⊢
        by_cases hxy : x.toNat < y.toNat
        · by_cases hyz : y.toNat < z.toNat
          · have : x.toNat < z.toNat := by omega
            simp [this]
          · by_cases hzy : z.toNat < y.toNat
            · simp [hyz, hzy] at h2
            · have : x.toNat < z.toNat := by omega
              simp [this]
        · by_cases hyx : y.toNat < x.toNat
          · simp [hxy, hyx] at h1
          · simp only [hxy, hyx, if_false] at h1
            by_cases hyz : y.toNat < z.toNat
            · have : x.toNat < z.toNat := by omega
              simp [this]
            · by_cases hzy : z.toNat < y.toNat
              · simp [hyz, hzy] at h2
              · simp only [hyz, hzy, if_false] at h2
                have h3 : ¬ x.toNat < z.toNat := by omega
                have h4 : ¬ z.toNat < x.toNat := by omega
                simp only [h3, h4, if_false]
                exact ih ys zs h1 h2

theorem ltChars_total (a b : List Char) (h1 : ltChars a b = false) (h2 : ltChars b a = false) :
    a = b := by
  induction a generalizing b with
  | nil =>
    cases b with
    | nil => rfl
    | cons y ys => simp [ltChars] at h1
  | cons x xs ih =>
    cases b with
    | nil => simp [ltChars] at h2
    | cons y ys =>
      simp only [ltChars] at h1 h2
      by_cases hxy : x.toNat < y.toNat
      · simp [hxy] at h1
      · by_cases hyx : y.toNat < x.toNat
        · simp [hyx] at h2
        · simp only [hxy, hyx, if_false] at h1 h2
          have hc : x = y := char_eq_of_toNat_eq x y (by omega)
          rw [hc, ih ys h1 h2]

theorem nameLt_trans (a b c : String) (h1 : nameLt a b = true) (h2 : nameLt b c = true) :
    nameLt a c = true := ltChars_trans a.data b.data c.data h1 h2

theorem nameLt_total (a b : String) (h1 : nameLt a b = false) (h2 : a ≠ b) :
    nameLt b a = true := by
  cases h : nameLt b a with
  | true => rfl
  | false => exact absurd (String.ext (ltChars_total a.data b.data h1 h)) h2

theorem names_insert (x : String) (v : Node) (es : Entries) :
    ∀ b ∈ (es.insert x v).names, b = x ∨ b ∈ es.names := by
  induction es with
  | nil => simp [Entries.insert, Entries.names]
  | cons n c rest ih =>
    intro b hb
    simp only [Entries.insert] at hb
    split_ifs at hb with h1 h2
    · simp only [Entries.names, List.mem_cons] at hb ⊢
      rcases hb with hb | hb
      · exact Or.inl hb
      · exact Or.inr (Or.inr hb)
    · simp only [Entries.names, List.mem_cons] at hb ⊢
      exact hb
    · simp only [Entries.names, List.mem_cons] at hb ⊢
      rcases hb with hb | hb
      · exact Or.inr (Or.inl hb)
      · rcases ih b hb with h | h
        · exact Or.inl h
        · exact Or.inr (Or.inr h)

theorem wf_cons_intro (name : String) (child : Node) (rest : Entries)
    (h1 : ∀ b ∈ rest.names, nameLt name b = true) (h2 : child.wf = true) (h3 : rest.wf = true) :
    (Entries.cons name child rest).wf = true := by
  simp only [Entries.wf, Bool.and_eq_true, List.all_eq_true]
  exact ⟨⟨h1, h2⟩, h3⟩

theorem insert_wf (x : String) (v : Node) (es : Entries) (hv : v.wf = true)
    (hes : es.wf = true) : (es.insert x v).wf = true := by
  induction es with
  | nil => exact wf_cons_intro x v Entries.nil (by simp [Entries.names]) hv rfl
  | cons n c rest ih =>
    obtain ⟨hn, hc, hrest⟩ := Entries.wf_cons n c rest hes
    simp only [Entries.insert]
    split_ifs with h1 h2
    · exact wf_cons_intro x v rest (by rw [h1]; exact hn) hv hrest
    · refine wf_cons_intro x v _ ?_ hv hes
      intro b hb
      simp only [Entries.names, List.mem_cons] at hb
      rcases hb with hb | hb
      · rw [hb]; exact h2
      · exact nameLt_trans x n b h2 (hn b hb)
    · refine wf_cons_intro n c _ ?_ hc (ih hrest)
      intro b hb
      rcases names_insert x v rest b hb with hb | hb
      · rw [hb]
        exact nameLt_total x n (by simpa using h2) h1
      · exact hn b hb

theorem lookup_wf (x : String) (es : Entries) (c : Node) (hes : es.wf = true)
    (h : es.lookup x = some c) : c.wf = true := by
  induction es with
  | nil => simp [Entries.lookup] at h
  | cons n nd rest ih =>
    obtain ⟨_, hc, hrest⟩ := Entries.wf_cons n nd rest hes
    simp only [Entries.lookup] at h
    split_ifs at h with h1
    · simp only [Option.some.injEq] at h
      rw [← h]; exact hc
    · exact ih hrest h

theorem get_wf (p : FsPath) (n c : Node) (hn : n.wf = true) (h : n.get p = some c) :
    c.wf = true := by
  induction p generalizing n with
  | nil =>
    simp only [Node.get, Option.some.injEq] at h
    rw [← h]; exact hn
  | cons a p ih =>
    cases n with
    | file ct m => simp [Node.get] at h
    | dir m es =>
      simp only [Node.get] at h
      cases hl : es.lookup a with
      | none => simp [hl] at h
      | some child =>
        simp only [hl] at h
        exact ih child (lookup_wf a es child (by simpa [Node.wf] using hn) hl) h

theorem mkdirAll_wf (mode : Nat) (p : FsPath) (n n1 : Node) (hn : n.wf = true)
    (h : n.mkdirAll mode p = Except.ok n1) : n1.wf = true := by
  induction p generalizing n n1 with
  | nil =>
    cases n with
    | file c m => simp [Node.mkdirAll] at h
    | dir m es =>
      simp only [Node.mkdirAll, Except.ok.injEq] at h
      rw [← h]; exact hn
  | cons a p ih =>
    cases n with
    | file c m => simp [Node.mkdirAll] at h
    | dir m es =>
      have hes : es.wf = true := by simpa [Node.wf] using hn
      simp only [Node.mkdirAll] at h
      cases hl : es.lookup a with
      | some child =>
        simp only [hl] at h
        cases hu : Node.mkdirAll mode p child with
        | error e => simp [hu] at h
        | ok c =>
          simp only [hu, Except.ok.injEq] at h
          rw [← h]
          simp only [Node.wf]
          exact insert_wf a c es (ih child c (lookup_wf a es child hes hl) hu) hes
      | none =>
        simp only [hl] at h
        cases hu : Node.mkdirAll mode p (Node.dir mode Entries.nil) with
        | error e => simp [hu] at h
        | ok c =>
          simp only [hu, Except.ok.injEq] at h
          rw [← h]
          simp only [Node.wf]
          exact insert_wf a c es (ih (Node.dir mode Entries.nil) c (by simp [Node.wf, Entries.wf]) hu) hes

theorem updateAt_wf (f : Option Node → Except Err Node)
    (hf : ∀ o c, (∀ x, o = some x → x.wf = true) → f o = Except.ok c → c.wf = true)
    (p : FsPath) (n n1 : Node) (hn : n.wf = true) (h : n.updateAt f p = Except.ok n1) :
    n1.wf = true := by
  induction p generalizing n n1 with
  | nil =>
    simp only [Node.updateAt] at h
    exact hf (some n) n1 (fun x hx => by rw [← Option.some.inj hx]; exact hn) h
  | cons a p ih =>
    cases n with
    | file c m => simp [Node.updateAt] at h
    | dir m es =>
      have hes : es.wf = true := by simpa [Node.wf] using hn
      simp only [Node.updateAt] at h
      cases hl : es.lookup a with
      | some child =>
        simp only [hl] at h
        cases hu : Node.updateAt f p child with
        | error e => simp [hu] at h
        | ok c =>
          simp only [hu, Except.ok.injEq] at h
          rw [← h]
          simp only [Node.wf]
          exact insert_wf a c es (ih child c (lookup_wf a es child hes hl) hu) hes
      | none =>
        simp only [hl] at h
        by_cases hp : p = []
        · simp only [hp, if_true] at h
          cases hfn : f none with
          | error e => simp [hfn] at h
          | ok c =>
            simp only [hfn, Except.ok.injEq] at h
            rw [← h]
            simp only [Node.wf]
            exact insert_wf a c es (hf none c (fun x hx => by cases hx) hfn) hes
        · simp [hp] at h

theorem mkdirOp_wf (mode : Nat) (o : Option Node) (c : Node)
    (_ : ∀ x, o = some x → x.wf = true) (h : mkdirOp mode o = Except.ok c) : c.wf = true := by
  cases o with
  | none =>
    simp only [mkdirOp, Except.ok.injEq] at h
    rw [← h]; rfl
  | some x => simp [mkdirOp] at h

theorem createOp_wf (o : Option Node) (c : Node)
    (_ : ∀ x, o = some x → x.wf = true) (h : createOp o = Except.ok c) : c.wf = true := by
  cases o with
  | none =>
    simp only [createOp, Except.ok.injEq] at h
    rw [← h]; rfl
  | some x =>
    cases x with
    | file ct m =>
      simp only [createOp, Except.ok.injEq] at h
      rw [← h]; rfl
    | dir m es => simp [createOp] at h

theorem writeOp_wf (content : List Nat) (o : Option Node) (c : Node)
    (_ : ∀ x, o = some x → x.wf = true) (h : writeOp content o = Except.ok c) :
    c.wf = true := by
  cases o with
  | none => simp [writeOp] at h
  | some x =>
    cases x with
    | file ct m =>
      simp only [writeOp, Except.ok.injEq] at h
      rw [← h]; rfl
    | dir m es => simp [writeOp] at h

theorem chmodOp_wf (mode : Nat) (o : Option Node) (c : Node)
    (ho : ∀ x, o = some x → x.wf = true) (h : chmodOp mode o = Except.ok c) : c.wf = true := by
  cases o with
  | none => simp [chmodOp] at h
  | some x =>
    cases x with
    | file ct m =>
      simp only [chmodOp, Except.ok.injEq] at h
      rw [← h]; rfl
    | dir m es =>
      simp only [chmodOp, Except.ok.injEq] at h
      rw [← h]
      simpa [Node.wf] using ho _ rfl

theorem extractFile_wf (xf : ExtractFaults) (destPath : FsPath) (file : ArchiveEntry)
    (root : Node) (hwf : root.wf = true) : (extractFile xf destPath file root).1.wf = true := by
  unfold extractFile
  simp only
  cases h1 : (match xf.mkdirAll (joinPath destPath file.name) with
      | some e => Except.error e
      | none => root.mkdirAll 493 (parentDir (joinPath destPath file.name))) with
  | error e => exact hwf
  | ok r1 =>
    have hr1 : r1.wf = true := by
      cases hx : xf.mkdirAll (joinPath destPath file.name) with
      | some e => simp [hx] at h1
      | none =>
        simp only [hx] at h1
        exact mkdirAll_wf 493 _ root r1 hwf h1
    simp only
    cases xf.openEntry (joinPath destPath file.name) with
    | some e => exact hr1
    | none =>
      simp only
      cases h2 : (match xf.create (joinPath destPath file.name) with
          | some e => Except.error e
          | none => r1.updateAt createOp (joinPath destPath file.name)) with
      | error e => exact hr1
      | ok r2 =>
        have hr2 : r2.wf = true := by
          cases hx : xf.create (joinPath destPath file.name) with
          | some e => simp [hx] at h2
          | none =>
            simp only [hx] at h2
            exact updateAt_wf _ createOp_wf _ r1 r2 hr1 h2
        simp only
        cases xf.ioCopy (joinPath destPath file.name) with
        | some ke =>
          obtain ⟨k, e⟩ := ke
          simp only
          cases h3 : r2.updateAt (writeOp (file.content.take k)) (joinPath destPath file.name) with
          | error e1 => exact hr2
          | ok r3 => exact updateAt_wf _ (writeOp_wf _) _ r2 r3 hr2 h3
        | none =>
          simp only
          cases h3 : r2.updateAt (writeOp file.content) (joinPath destPath file.name) with
          | error e1 => exact hr2
          | ok r3 =>
            have hr3 : r3.wf = true := updateAt_wf _ (writeOp_wf _) _ r2 r3 hr2 h3
            simp only
            cases xf.chmod (joinPath destPath file.name) with
            | some e => exact hr3
            | none =>
              simp only
              cases h4 : r3.updateAt (chmodOp file.mode) (joinPath destPath file.name) with
              | error e1 => exact hr3
              | ok r4 => exact updateAt_wf _ (chmodOp_wf _) _ r3 r4 hr3 h4

theorem extractLoop_wf (xf : ExtractFaults) (destPath : FsPath) (files : List ArchiveEntry)
    (root : Node) (hwf : root.wf = true) : (extractLoop xf destPath files root).1.wf = true := by
  induction files generalizing root with
  | nil => exact hwf
  | cons file rest ih =>
    simp only [extractLoop]
    cases hdir : file.isDir with
    | true => simpa using ih root hwf
    | false =>
      simp only [Bool.false_eq_true, if_false]
      have hf := extractFile_wf xf destPath file root hwf
      generalize extractFile xf destPath file root = r at hf
      obtain ⟨r1, e1⟩ := r
      cases e1 with
      | some e => exact hf
      | none => exact ih r1 hf

theorem extract7zArchive_wf (xf : ExtractFaults) (archive : Except Err (List ArchiveEntry))
    (destPath : FsPath) (root : Node) (hwf : root.wf = true) :
    (extract7zArchive xf archive destPath root).1.wf = true := by
  cases archive with
  | error e => exact hwf
  | ok files => exact extractLoop_wf xf destPath files root hwf

theorem extractedEntries_wf (xf : ExtractFaults) (archive : Except Err (List ArchiveEntry))
    (extractDir : FsPath) (root : Node) (es : Entries) (hwf : root.wf = true)
    (h : extractedEntries extractDir (extract7zArchive xf archive extractDir root)
      = Except.ok es) : es.wf = true := by
  have hr := extract7zArchive_wf xf archive extractDir root hwf
  generalize extract7zArchive xf archive extractDir root = r at h hr
  obtain ⟨r1, e1⟩ := r
  unfold extractedEntries at h
  cases e1 with
  | some e => simp at h
  | none =>
    simp only at h hr
    cases hg : r1.get extractDir with
    | none => simp [hg] at h
    | some c =>
      cases c with
      | file ct m => simp [hg] at h
      | dir m es1 =>
        simp only [hg, Except.ok.injEq] at h
        subst h
        simpa [Node.wf] using get_wf extractDir r1 _ hr hg

/-! ### Failures before the installation steps, on the whole filesystem -/

theorem downloadAndUpdate_confined (run : DownloadRun) (root : Node)
    (hApart : ∀ d, run.update.mkdirTemp = Except.ok d →
      diverges d run.update.appPath = true ∧ diverges d (bakPath run.update.appPath) = true)
    (hConfined : ∀ d files, run.update.mkdirTemp = Except.ok d →
      run.update.archive = Except.ok files → confined d files = true)
    (h : run.downloadFile ≠ none ∨ run.stat = Except.ok 0
      ∨ (∃ d root1 e, run.update.mkdirTemp = Except.ok d
          ∧ root.updateAt (mkdirOp 448) d = Except.ok root1
          ∧ extractedEntries d
              (extract7zArchive run.update.extractFaults run.update.archive d root1)
            = Except.error e)
      ∨ (∃ d root1 es e, run.update.mkdirTemp = Except.ok d
          ∧ root.updateAt (mkdirOp 448) d = Except.ok root1
          ∧ extractedEntries d
              (extract7zArchive run.update.extractFaults run.update.archive d root1)
            = Except.ok es
          ∧ findAppDir d (Node.dir 448 es) = Except.error e)) :
    (downloadAndUpdate run root).err ≠ none
      ∧ (downloadAndUpdate run root).fs = installationAt run.update.appPath root
      ∧ (∀ op ∈ (downloadAndUpdate run root).log, op.touchesInstall = false)
      ∧ (run.stat = Except.ok 0 → Op.extract ∉ (downloadAndUpdate run root).log) := by
  cases hTemp : run.mkdirTemp with
  | error e =>
    simp [downloadAndUpdate, hTemp, Op.touchesInstall]
  | ok tempDir =>
    cases hDl : run.downloadFile with
    | some e =>
      simp [downloadAndUpdate, hTemp, hDl, Op.touchesInstall]
    | none =>
      cases hStat : run.stat with
      | error e =>
        simp [downloadAndUpdate, hTemp, hDl, hStat, Op.touchesInstall]
      | ok size =>
        by_cases hz : size = 0
        · simp [downloadAndUpdate, hTemp, hDl, hStat, hz, if_true, Op.touchesInstall]
        · have hpre : ∃ d root1, run.update.mkdirTemp = Except.ok d
              ∧ root.updateAt (mkdirOp 448) d = Except.ok root1
              ∧ ((∃ e, extractedEntries d
                    (extract7zArchive run.update.extractFaults run.update.archive d root1)
                  = Except.error e)
                ∨ (∃ es e, extractedEntries d
                    (extract7zArchive run.update.extractFaults run.update.archive d root1)
                  = Except.ok es ∧ findAppDir d (Node.dir 448 es) = Except.error e)) := by
            rcases h with h | h | ⟨d, root1, e, h1, h2, h3⟩ | ⟨d, root1, es, e, h1, h2, h3, h4⟩
            · exact absurd hDl h
            · rw [hStat] at h
              exact absurd (Except.ok.inj h) hz
            · exact ⟨d, root1, h1, h2, Or.inl ⟨e, h3⟩⟩
            · exact ⟨d, root1, h1, h2, Or.inr ⟨es, e, h3, h4⟩⟩
          obtain ⟨d, root1, hd, hmk, hfail⟩ := hpre
          obtain ⟨hL, hB⟩ := hApart d hd
          have hinst := installationAt_extracted run.update d root root1 hL hB
            (fun files hf => hConfined d files hd hf) hmk
          have hold := extractAndUpdate_pre_install_failure
            ⟨Except.ok d, extractedEntries d
              (extract7zArchive run.update.extractFaults run.update.archive d root1),
              run.update.faults, run.update.updatePortappJson⟩
            (installationAt run.update.appPath root)
            (by
              rcases hfail with ⟨e, he⟩ | ⟨es, e, hes, hf⟩
              · exact Or.inl ⟨e, he⟩
              · exact Or.inr ⟨d, es, e, rfl, hes, hf⟩)
          obtain ⟨h1, h2, h3⟩ := hold
          simp only [downloadAndUpdate, hTemp, hDl, hStat, hz, if_false,
            extractAndUpdateOnDisk, hd, hmk, hinst]
          refine ⟨h1, h2, ?_, ?_⟩
          · intro op hop
            simp only [List.mem_append] at hop
            rcases hop with hop | hop
            · revert hop
              simp only [List.mem_cons, List.mem_singleton, List.not_mem_nil, or_false]
              rintro (rfl | rfl | rfl) <;> rfl
            · exact h3 op hop
          · intro h0
            exact absurd (Except.ok.inj h0) hz

/-! ### Download URL -/

theorem tag_isPrefixOf_append_slash (X Y : List Char)
    (h : ['t', 'a', 'g'].isPrefixOf (X ++ '/' :: Y) = true) :
    ['t', 'a', 'g'].isPrefixOf X = true := by
  match X with
  | [] => simp [List.isPrefixOf] at h
  | [a] => simp [List.isPrefixOf] at h
  | [a, b] => simp [List.isPrefixOf] at h
  | a :: b :: c :: rest => simpa [List.isPrefixOf] using h

theorem replaceFirst_tag_segment (P T : List Char)
    (hP : occursIn ['t', 'a', 'g'] P = false) :
    replaceFirst ['t', 'a', 'g'] ['d', 'o', 'w', 'n', 'l', 'o', 'a', 'd']
        (P ++ ['/', 't', 'a', 'g', '/'] ++ T)
      = P ++ ['/', 'd', 'o', 'w', 'n', 'l', 'o', 'a', 'd', '/'] ++ T := by
  induction P with
  | nil => simp [replaceFirst, List.isPrefixOf]
  | cons c cs ih =>
    simp only [occursIn, Bool.or_eq_false_iff] at hP
    have hnot : ['t', 'a', 'g'].isPrefixOf ((c :: cs) ++ '/' :: ('t' :: 'a' :: 'g' :: '/' :: T))
        = false := by
      cases hpre : ['t', 'a', 'g'].isPrefixOf ((c :: cs) ++ '/' :: ('t' :: 'a' :: 'g' :: '/' :: T))
      · rfl
      · rw [tag_isPrefixOf_append_slash _ _ hpre] at hP
        exact absurd hP.1 (by simp)
    have hshape : (c :: cs) ++ ['/', 't', 'a', 'g', '/'] ++ T
        = c :: (cs ++ ['/', 't', 'a', 'g', '/'] ++ T) := by simp
    have hshape2 : (c :: cs) ++ '/' :: ('t' :: 'a' :: 'g' :: '/' :: T)
        = c :: (cs ++ ['/', 't', 'a', 'g', '/'] ++ T) := by simp
    rw [hshape2] at hnot
    rw [hshape, replaceFirst, hnot, ih hP.2]
    simp

/-! ### Version record -/

theorem jsonGet_jsonSet_self {V : Type} (k : String) (v : V) (o : JsonObject V) :
    jsonGet k (jsonSet k v o) = some v := by
  induction o with
  | nil => simp [jsonSet, jsonGet]
  | cons kv rest ih =>
    obtain ⟨k1, v1⟩ := kv
    simp only [jsonSet]
    split_ifs with h
    · simp [jsonGet]
    · simp [jsonGet, h, ih]

theorem jsonGet_jsonSet_ne {V : Type} (k k2 : String) (v : V) (o : JsonObject V)
    (hk : k2 ≠ k) : jsonGet k2 (jsonSet k v o) = jsonGet k2 o := by
  induction o with
  | nil =>
    have : k ≠ k2 := fun h => hk h.symm
    simp [jsonSet, jsonGet, this]
  | cons kv rest ih =>
    obtain ⟨k1, v1⟩ := kv
    simp only [jsonSet]
    split_ifs with h
    · have h1 : k ≠ k2 := fun h2 => hk h2.symm
      have h3 : k1 ≠ k2 := by rw [h]; exact h1
      simp [jsonGet, h1, h3]
    · simp only [jsonGet, ih]

theorem decodeMembers_get {F V : Type} (dec : JsonDecoder F V) (k : String)
    (members : List (String × F)) (acc decoded : JsonObject V)
    (h : decodeMembers dec members acc = Except.ok decoded) :
    (jsonGet k decoded).map Except.ok
      = match lastMember k members with
        | some f => some (dec.decodeValue f)
        | none => (jsonGet k acc).map Except.ok := by
  induction members generalizing acc with
  | nil =>
    simp only [decodeMembers, Except.ok.injEq] at h
    subst h
    rfl
  | cons kf rest ih =>
    obtain ⟨k1, f⟩ := kf
    simp only [decodeMembers] at h
    cases hd : dec.decodeValue f with
    | error e => simp [hd] at h
    | ok v =>
      simp only [hd] at h
      rw [ih _ h]
      simp only [lastMember]
      cases lastMember k rest with
      | some g => rfl
      | none =>
        simp only
        by_cases hk : k1 = k
        · subst hk
          simp [jsonGet_jsonSet_self, hd]
        · have : k ≠ k1 := fun h1 => hk h1.symm
          simp [hk, jsonGet_jsonSet_ne _ _ _ _ this]

theorem updatePortappJson_null_panics :
    updatePortappJson scalarDecoder envRecordNull = RecordResult.panicked := by
  rfl

theorem nearestFloat64_exact (n : Nat) (h : n < 2 ^ 53) : nearestFloat64 n = some n := by
  have hstep : ∀ fuel, float64Shift (fuel + 1) 0 n = 0 := by
    intro fuel
    simp only [float64Shift, pow_zero, Nat.div_one, h, if_true]
  have hs : float64Shift 972 0 n = 0 := hstep 971
  simp only [nearestFloat64, hs, pow_zero, Nat.div_one, Nat.mod_one, Nat.mul_one]
  simp

/-! ### The accepted directory contains the marker -/

mutual
theorem node_markers_markerDirAt :
    ∀ (n : Node) (path : FsPath) (x : FsPath × Bool), n.wf = true → x ∈ Node.markers path n →
      ∃ rel, x.1 = path ++ rel ∧ MarkerDirAt n rel
  | .file _ _, _, _, _, hx => by simp [Node.markers] at hx
  | .dir m es, path, x, hwf, hx =>
    entries_markers_markerDirAt es path x m (by simpa [Node.wf] using hwf)
      (by simpa [Node.markers] using hx)
theorem entries_markers_markerDirAt :
    ∀ (es : Entries) (path : FsPath) (x : FsPath × Bool) (m : Nat), es.wf = true →
      x ∈ Entries.markers path es → ∃ rel, x.1 = path ++ rel ∧ MarkerDirAt (Node.dir m es) rel
  | .nil, _, _, _, _, hx => by simp [Entries.markers] at hx
  | .cons name child rest, path, x, m, hwf, hx => by
    obtain ⟨hname, hchild, hrest⟩ := Entries.wf_cons name child rest hwf
    simp only [Entries.markers, List.mem_append] at hx
    rcases hx with (hx | hx) | hx
    · split_ifs at hx with hn
      · simp only [List.mem_singleton] at hx
        refine ⟨[], by simp [hx], m, _, rfl, ?_⟩
        simp [Entries.lookup, hn]
      · cases hx
    · obtain ⟨rel, hrel, m1, es1, hget, hmk⟩ :=
        node_markers_markerDirAt child (path ++ [name]) x hchild hx
      refine ⟨name :: rel, by simp [hrel], m1, es1, ?_, hmk⟩
      simp [Node.get, Entries.lookup, hget]
    · obtain ⟨rel, hrel, m1, es1, hget, hmk⟩ := entries_markers_markerDirAt rest path x m hrest hx
      cases rel with
      | nil =>
        simp only [Node.get, Option.some.injEq, Node.dir.injEq] at hget
        obtain ⟨_, hes⟩ := hget
        subst hes
        refine ⟨[], hrel, m, _, rfl, ?_⟩
        simp only [Entries.lookup]
        split_ifs
        · rfl
        · exact hmk
      | cons n1 rel1 =>
        refine ⟨n1 :: rel1, hrel, m1, es1, ?_, hmk⟩
        simp only [Node.get] at hget ⊢
        cases hl : rest.lookup n1 with
        | none => simp [hl] at hget
        | some c1 =>
          have hne : name ≠ n1 :=
            nameLt_ne name n1 (hname n1 (Entries.lookup_mem_names n1 rest c1 hl))
          simp only [Entries.lookup, hne, if_false, hl]
          simpa [hl] using hget
end

/-! ## Claims -/

/-- Counterexample to claim C1 as stated.  In three runs the live directory is renamed to the
backup and recreated, and `copyDir` then fails (`io.Copy` on `floorp.exe`): `extractAndUpdate`
returns the copy error, but (1) when the rename of the backup back fails too, the live
directory is missing and the backup remains; (2) when the partial live directory cannot be
removed, the live directory stays partial and the backup remains; (3) when the archive has a
member whose name climbs out of the extraction directory into the live directory, the
rollback works and the live directory still differs from its content before the call. -/
theorem extractAndUpdateOnDisk_copy_failure_counterexample :
    installationAt sampleAppPath sampleDisk = ⟨some sampleOldLive, none⟩
      ∧ Op.copyDir ∈ (extractAndUpdateOnDisk runRollbackFails sampleDisk).log
      ∧ (extractAndUpdateOnDisk runRollbackFails sampleDisk).err = some (Err.io 5)
      ∧ (extractAndUpdateOnDisk runRollbackFails sampleDisk).fs = ⟨none, some sampleOldLive⟩
      ∧ Op.copyDir ∈ (extractAndUpdateOnDisk runRemoveLiveFails sampleDisk).log
      ∧ (extractAndUpdateOnDisk runRemoveLiveFails sampleDisk).err = some (Err.io 5)
      ∧ (extractAndUpdateOnDisk runRemoveLiveFails sampleDisk).fs
          = ⟨some (Node.dir 493 (.cons "floorp.exe" (.file [77] 438) .nil)), some sampleOldLive⟩
      ∧ Op.copyDir ∈ (extractAndUpdateOnDisk runCopyFailsLeak sampleDisk).log
      ∧ (extractAndUpdateOnDisk runCopyFailsLeak sampleDisk).err = some (Err.io 5)
      ∧ (extractAndUpdateOnDisk runCopyFailsLeak sampleDisk).fs
          = ⟨some (Node.dir 493
              (.cons "extra.txt" (.file [66] 420) (.cons "floorp.exe" (.file [9] 420) .nil))),
            none⟩ := by
  decide

/-- Claim C1, amended.  On the whole filesystem, with the extraction directory outside the
live directory and its backup place and every member of the archive extracted inside the
extraction directory: once the live directory has been renamed to the backup and recreated,
whatever the point at which `copyDir` fails (it returns an error `e`), when the removal of
the partial live directory and the rename of the backup back work, `extractAndUpdate`
returns the error `e`, the live directory is what it was before the call, and no backup
remains. -/
theorem extractAndUpdateOnDisk_copy_failure_restores (run : DiskRun) (root root1 : Node)
    (extractDir appDir : FsPath) (es : Entries) (e : Err)
    (hTemp : run.mkdirTemp = Except.ok extractDir)
    (hMkTemp : root.updateAt (mkdirOp 448) extractDir = Except.ok root1)
    (hApart : diverges extractDir run.appPath = true
      ∧ diverges extractDir (bakPath run.appPath) = true)
    (hConfined : ∀ files, run.archive = Except.ok files → confined extractDir files = true)
    (hExtract : extractedEntries extractDir
      (extract7zArchive run.extractFaults run.archive extractDir root1) = Except.ok es)
    (hFind : findAppDir extractDir (Node.dir 448 es) = Except.ok appDir)
    (hRename : (rename run.faults.renameToBak (root.get run.appPath)
      (root.get (bakPath run.appPath))).2 = none)
    (hMkdir : run.faults.mkdirLive = none)
    (hCopy : (copyDir run.faults.copy appDir (resolve extractDir (Node.dir 448 es) appDir)
      (some (Node.dir 493 Entries.nil))).2 = some e)
    (hRemove : run.faults.removeLive = none) (hBack : run.faults.renameBack = none) :
    (extractAndUpdateOnDisk run root).err = some e
      ∧ (extractAndUpdateOnDisk run root).fs.live = root.get run.appPath
      ∧ (extractAndUpdateOnDisk run root).fs.bak = none := by
  have hinst := installationAt_extracted run extractDir root root1 hApart.1 hApart.2 hConfined
    hMkTemp
  simp only [extractAndUpdateOnDisk, hTemp, hMkTemp, hinst]
  exact extractAndUpdate_copy_failure_restores
    ⟨Except.ok extractDir, extractedEntries extractDir
      (extract7zArchive run.extractFaults run.archive extractDir root1), run.faults,
      run.updatePortappJson⟩
    (installationAt run.appPath root) extractDir appDir es e rfl hExtract hFind hRename hMkdir
    hCopy hRemove hBack

/-- Witness of claim C1, amended: `io.Copy` fails on `floorp.exe` after one byte. -/
theorem extractAndUpdateOnDisk_copy_failure_restores_witness :
    (extractAndUpdateOnDisk runCopyFails sampleDisk).err = some (Err.io 5)
      ∧ (extractAndUpdateOnDisk runCopyFails sampleDisk).fs.live = some sampleOldLive
      ∧ (extractAndUpdateOnDisk runCopyFails sampleDisk).fs.bak = none :=
  extractAndUpdateOnDisk_copy_failure_restores runCopyFails sampleDisk
    (Node.dir 493 (.cons "portable" (.dir 493 (.cons "app" sampleOldLive .nil))
      (.cons "tmp" (.dir 493 (.cons "floorp-extract1" (.dir 448 .nil) .nil)) .nil)))
    sampleExtractDir (sampleExtractDir ++ ["core"])
    (.cons "core" (.dir 493
      (.cons "defaults" (.dir 493 (.cons "pref" (.dir 493
          (.cons "prefs.js" (.file [7] 420) .nil)) .nil))
        (.cons "floorp.exe" (.file [77, 90] 420) (.cons "xul.dll" (.file [1, 2, 3] 420) .nil))))
      .nil)
    (Err.io 5) rfl (by decide) (by decide)
    (fun files h => by
      have : files = samplePayloadArchive := (Except.ok.inj h).symm
      subst this
      decide)
    (by decide) (by decide) (by decide) rfl (by decide) rfl rfl

/-- Counterexample to claim C2 as stated.  When the copy fails and the rename of the backup
back fails, the live directory is missing and the backup remains; when the partial live
directory cannot be removed, the live directory stays partial and the backup remains; when the
removal of the backup fails after a successful copy, the backup remains beside the new
installation.  A later run without any failure that starts from such a state does not repair
it: with a backup left over the backup rename fails and the backup stays, and with the live
directory missing the run fails and the live directory stays missing.  On the whole
filesystem, when the archive holds no payload and has a member whose name climbs out of the
extraction directory into the live directory, the payload search fails, no installation step
runs, and the live directory is left holding neither the old bundle nor a payload. -/
theorem extractAndUpdate_invariant_counterexample :
    (extractAndUpdate envRollbackFails sampleFS).fs = ⟨none, some sampleOldLive⟩
      ∧ ¬ OneInstallation sampleOldLive (Node.dir 493 samplePayload)
          (extractAndUpdate envRollbackFails sampleFS).fs
      ∧ ¬ OneInstallation sampleOldLive (Node.dir 493 samplePayload)
          (extractAndUpdate envRemoveLiveFails sampleFS).fs
      ∧ ¬ OneInstallation sampleOldLive (Node.dir 493 samplePayload)
          (extractAndUpdate envBackupKept sampleFS).fs
      ∧ (extractAndUpdate envSuccess (extractAndUpdate envBackupKept sampleFS).fs).fs.bak
          = some sampleOldLive
      ∧ (extractAndUpdate envSuccess (extractAndUpdate envRollbackFails sampleFS).fs).fs.live
          = none
      ∧ installationAt sampleAppPath sampleDisk = ⟨some sampleOldLive, none⟩
      ∧ (extractAndUpdateOnDisk runLeak sampleDisk).err = some Err.payloadNotFound
      ∧ (extractAndUpdateOnDisk runLeak sampleDisk).fs
          = ⟨some (Node.dir 493 (.cons "floorp.exe" (.file [66] 420) .nil)), none⟩
      ∧ ¬ OneInstallation sampleOldLive (Node.dir 493 samplePayload)
          (extractAndUpdateOnDisk runLeak sampleDisk).fs := by
  decide

/-- Claim C2, amended.  On the whole filesystem, for a run that starts with well-formed
directories, the live directory present and no backup, with the extraction directory outside
the live directory and its backup place and every member of the archive extracted inside the
extraction directory: for every combination of failures of the extraction, the payload
search, the backup rename, the mkdir of the live directory and the copy steps, when the
removal of the partial live directory, the rename of the backup back and the removal of the
backup work, the run ends with no backup and with the live directory holding either exactly
the old bundle or, when no error is returned, exactly the entries of the located payload. -/
theorem extractAndUpdateOnDisk_one_installation (run : DiskRun) (root old : Node)
    (hWf : root.wf = true)
    (hLive : root.get run.appPath = some old) (hBak : root.get (bakPath run.appPath) = none)
    (hApart : ∀ d, run.mkdirTemp = Except.ok d →
      diverges d run.appPath = true ∧ diverges d (bakPath run.appPath) = true)
    (hConfined : ∀ d files, run.mkdirTemp = Except.ok d → run.archive = Except.ok files →
      confined d files = true)
    (hRemoveLive : run.faults.removeLive = none) (hBack : run.faults.renameBack = none)
    (hRemoveBak : run.faults.removeBak = none) :
    (extractAndUpdateOnDisk run root).fs.bak = none
      ∧ ((extractAndUpdateOnDisk run root).fs.live = some old
        ∨ ∃ extractDir root1 es appDir m pes,
            run.mkdirTemp = Except.ok extractDir
              ∧ root.updateAt (mkdirOp 448) extractDir = Except.ok root1
              ∧ extractedEntries extractDir
                  (extract7zArchive run.extractFaults run.archive extractDir root1)
                = Except.ok es
              ∧ findAppDir extractDir (Node.dir 448 es) = Except.ok appDir
              ∧ resolve extractDir (Node.dir 448 es) appDir = some (Node.dir m pes)
              ∧ (extractAndUpdateOnDisk run root).err = none
              ∧ (extractAndUpdateOnDisk run root).fs.live = some (Node.dir 493 pes)) := by
  cases hTemp : run.mkdirTemp with
  | error e =>
    simp only [extractAndUpdateOnDisk, hTemp, installationAt]
    exact ⟨hBak, Or.inl hLive⟩
  | ok extractDir =>
    cases hMk : root.updateAt (mkdirOp 448) extractDir with
    | error e =>
      simp only [extractAndUpdateOnDisk, hTemp, hMk, installationAt]
      exact ⟨hBak, Or.inl hLive⟩
    | ok root1 =>
      obtain ⟨hL, hB⟩ := hApart extractDir hTemp
      have hinst := installationAt_extracted run extractDir root root1 hL hB
        (fun files hf => hConfined extractDir files hTemp hf) hMk
      have hwf1 : root1.wf = true := updateAt_wf _ (mkdirOp_wf 448) _ root root1 hWf hMk
      have hold := extractAndUpdate_one_installation
        ⟨Except.ok extractDir, extractedEntries extractDir
          (extract7zArchive run.extractFaults run.archive extractDir root1), run.faults,
          run.updatePortappJson⟩
        (installationAt run.appPath root) old hLive hBak
        (fun es hes => extractedEntries_wf _ _ _ root1 es hwf1 hes) hRemoveLive hBack hRemoveBak
      simp only [extractAndUpdateOnDisk, hTemp, hMk, hinst]
      refine ⟨hold.1, ?_⟩
      rcases hold.2 with h | ⟨d, es, appDir, m, pes, hd, hes, hf, hr, he, hl⟩
      · exact Or.inl h
      · have hdd : extractDir = d := Except.ok.inj hd
        subst hdd
        exact Or.inr ⟨extractDir, root1, es, appDir, m, pes, rfl, hMk, hes, hf, hr, he, hl⟩

/-- Witness of claim C2, amended: the run whose copy fails. -/
theorem extractAndUpdateOnDisk_one_installation_witness :
    (extractAndUpdateOnDisk runCopyFails sampleDisk).fs.bak = none
      ∧ ((extractAndUpdateOnDisk runCopyFails sampleDisk).fs.live = some sampleOldLive
        ∨ ∃ extractDir root1 es appDir m pes,
            runCopyFails.mkdirTemp = Except.ok extractDir
              ∧ sampleDisk.updateAt (mkdirOp 448) extractDir = Except.ok root1
              ∧ extractedEntries extractDir
                  (extract7zArchive runCopyFails.extractFaults runCopyFails.archive extractDir
                    root1)
                = Except.ok es
              ∧ findAppDir extractDir (Node.dir 448 es) = Except.ok appDir
              ∧ resolve extractDir (Node.dir 448 es) appDir = some (Node.dir m pes)
              ∧ (extractAndUpdateOnDisk runCopyFails sampleDisk).err = none
              ∧ (extractAndUpdateOnDisk runCopyFails sampleDisk).fs.live
                  = some (Node.dir 493 pes)) :=
  extractAndUpdateOnDisk_one_installation runCopyFails sampleDisk sampleOldLive
    (by decide) (by decide) (by decide)
    (fun d hd => by
      have : d = sampleExtractDir := (Except.ok.inj hd).symm
      subst this
      decide)
    (fun d files hd hf => by
      have h1 : d = sampleExtractDir := (Except.ok.inj hd).symm
      have h2 : files = samplePayloadArchive := (Except.ok.inj hf).symm
      subst h1; subst h2
      decide)
    rfl rfl rfl

/-- Claim C3.  When the extraction, the payload search, the backup rename, the mkdir, every
copy step and the removal of the backup work, `extractAndUpdate` returns no error, the live
directory holds exactly the entries of the located payload, and no backup remains; the outcome
of `updatePortappJson` is only logged as a warning. -/
theorem extractAndUpdate_success (env : ExtractEnv) (fs : FS) (extractDir appDir : FsPath)
    (es : Entries) (hTemp : env.mkdirTemp = Except.ok extractDir)
    (hExtract : env.extract = Except.ok es) (hWf : es.wf = true)
    (hFind : findAppDir extractDir (Node.dir 448 es) = Except.ok appDir)
    (hRename : (rename env.faults.renameToBak fs.live fs.bak).2 = none)
    (hMkdir : env.faults.mkdirLive = none) (hCopy : env.faults.copy.Clean)
    (hRemoveBak : env.faults.removeBak = none) :
    ∃ m pes, resolve extractDir (Node.dir 448 es) appDir = some (Node.dir m pes)
      ∧ (extractAndUpdate env fs).err = none
      ∧ (extractAndUpdate env fs).fs.live = some (Node.dir 493 pes)
      ∧ (extractAndUpdate env fs).fs.bak = none
      ∧ (extractAndUpdate env fs).warning = env.updatePortappJson := by
  obtain ⟨old, hold, hren⟩ := rename_ok _ _ _ hRename
  obtain ⟨m, pes, hres, hpwf⟩ := findAppDir_resolves extractDir 448 es hWf appDir hFind
  refine ⟨m, pes, hres, ?_⟩
  unfold extractAndUpdate
  simp only [hTemp, hExtract, hFind, hren, hMkdir, mkdirAllSlot, Node.mkdirAll, hres,
    copyDir_clean env.faults.copy hCopy appDir m 493 pes hpwf, removeAll, hRemoveBak, and_self]

/-- Witness of claim C3: a run in which only `updatePortappJson` fails. -/
theorem extractAndUpdate_success_witness :
    ∃ m pes, resolve sampleExtractDir (Node.dir 448 sampleExtracted)
        (sampleExtractDir ++ ["core"]) = some (Node.dir m pes)
      ∧ (extractAndUpdate envRecordFails sampleFS).err = none
      ∧ (extractAndUpdate envRecordFails sampleFS).fs.live = some (Node.dir 493 pes)
      ∧ (extractAndUpdate envRecordFails sampleFS).fs.bak = none
      ∧ (extractAndUpdate envRecordFails sampleFS).warning = envRecordFails.updatePortappJson :=
  extractAndUpdate_success envRecordFails sampleFS sampleExtractDir
    (sampleExtractDir ++ ["core"]) sampleExtracted rfl rfl (by decide) (by decide) (by decide)
    rfl noCopyFaults_clean rfl

/-- Claim C5, the code at a failing input.  The archive holds no payload and its only member is
named `../../portable/app/floorp.exe`.  The download and the extraction work, `findAppDir`
finds no payload and `downloadAndUpdate` returns its error, without any installation step;
but the extraction has written the member into the live directory, whose `floorp.exe` is no
longer the installed one. -/
theorem downloadAndUpdate_overwrites_live :
    (downloadAndUpdate runLeakNoPayload sampleDisk).err = some Err.payloadNotFound
      ∧ (downloadAndUpdate runLeakNoPayload sampleDisk).log
          = [Op.mkdirTemp, Op.download, Op.statDownload, Op.mkdirTemp, Op.extract, Op.findAppDir]
      ∧ (installationAt sampleAppPath sampleDisk).live
          = some (Node.dir 493 (.cons "floorp.exe" (.file [9] 420) .nil))
      ∧ (downloadAndUpdate runLeakNoPayload sampleDisk).fs.live
          = some (Node.dir 493 (.cons "floorp.exe" (.file [66] 420) .nil)) := by
  decide

/-- Claim C6.  `checkForUpdates` reports an update exactly when the local version was read,
the latest release was fetched, neither version is the text `unknown`, and
`compareVersions current latest < 0`; a failed local read reports the current version
`unknown`, a failed fetch the latest version `unknown`, both without update.  Current
`11.23.0` and latest tag `v11.23.1` give an update. -/
theorem checkForUpdates_updateAvailable (portapp : Except Err String)
    (response : Except Err (String × String)) :
    ((checkForUpdates portapp response).updateAvailable = true ↔
        ∃ c l u, getPortappVersion portapp = Except.ok c
          ∧ getLatestGitHubRelease response = Except.ok (l, u)
          ∧ c ≠ "unknown" ∧ l ≠ "unknown" ∧ compareVersions c l < 0)
      ∧ (∀ e, getPortappVersion portapp = Except.error e →
          (checkForUpdates portapp response).currentVersion = "unknown"
            ∧ (checkForUpdates portapp response).updateAvailable = false)
      ∧ (∀ e, getLatestGitHubRelease response = Except.error e →
          (checkForUpdates portapp response).latestVersion = "unknown"
            ∧ (checkForUpdates portapp response).updateAvailable = false)
      ∧ (checkForUpdates (Except.ok "11.23.0")
          (Except.ok ("v11.23.1", "https://github.com/Floorp-Projects/Floorp/releases/tag/v11.23.1"))
          ).updateAvailable = true := by
  refine ⟨?_, ?_, ?_, by decide⟩
  · unfold checkForUpdates
    cases hp : getPortappVersion portapp with
    | error e =>
      cases hr : getLatestGitHubRelease response with
      | error e1 => simp
      | ok lu =>
        obtain ⟨l, u⟩ := lu
        simp
    | ok c =>
      cases hr : getLatestGitHubRelease response with
      | error e1 => simp
      | ok lu =>
        obtain ⟨l, u⟩ := lu
        simp only
        split_ifs with h1
        · simp only [decide_eq_true_eq, Except.ok.injEq, Prod.mk.injEq]
          constructor
          · intro hlt
            exact ⟨c, l, u, rfl, ⟨rfl, rfl⟩, h1.2, h1.1, hlt⟩
          · rintro ⟨c1, l1, u1, rfl, ⟨rfl, rfl⟩, _, _, hlt⟩
            exact hlt
        · simp only [Except.ok.injEq, Prod.mk.injEq, Bool.false_eq_true, false_iff, not_exists,
            not_and]
          rintro c1 l1 u1 rfl ⟨rfl, rfl⟩ hc hl
          exact absurd ⟨hl, hc⟩ h1
  · intro e he
    unfold checkForUpdates
    simp only [he]
    cases getLatestGitHubRelease response with
    | error e1 => exact ⟨rfl, rfl⟩
    | ok lu =>
      obtain ⟨l, u⟩ := lu
      simp
  · intro e he
    unfold checkForUpdates
    simp [he]

/-- Witness of claim C6: current `11.23.0`, latest tag `v11.23.1`. -/
theorem checkForUpdates_updateAvailable_witness :
    (checkForUpdates (Except.ok "11.23.0") (Except.ok ("v11.23.1", "u"))).updateAvailable = true :=
  ((checkForUpdates_updateAvailable (Except.ok "11.23.0") (Except.ok ("v11.23.1", "u"))).1).mpr
    ⟨"11.23.0", "11.23.1", "u", rfl, rfl, by decide, by decide, by decide⟩

/-- Counterexample to claim C7 as stated.  The component `9223372036854775808` is a decimal
integer outside the range of `int`: the specification counts it as `0`, which makes the
version smaller than `1`, while `compareVersions` (through `strconv.Atoi`, whose error is
discarded) counts it as the largest `int` and returns `1`.  The component
`99999999999999999999x` is not a decimal integer, so the specification counts it as `0` too;
`strconv.Atoi` meets the range error at the twentieth digit, before it reads the `x`, and
`compareVersions` counts the component as the largest `int` again. -/
theorem compareVersions_out_of_range_counterexample :
    compareVersions "9223372036854775808" "1" = 1
      ∧ specCompare specComponentValue "9223372036854775808" "1" = -1
      ∧ compareVersions "99999999999999999999x" "1" = 1
      ∧ specCompare specComponentValue "99999999999999999999x" "1" = -1 := by
  decide

/-- Claim C7, amended.  `compareVersions v1 v2` is `-1`, `0` or `1` and is the sign of the
lexicographic comparison of the component-value sequences (one leading `v` removed, split on
dots, the shorter sequence extended with zeros), where a component has its integer value
when it is a decimal integer within the range of `int`, the nearest bound of `int` when it is
a decimal integer outside that range, the bound of `int` on the side of its sign when it is
not a decimal integer but the digits it starts with (after an optional sign) exceed
`2 ^ 64 - 1`, and `0` otherwise.  The two valuations agree on every component that is neither
an out-of-range decimal integer nor a text starting with such digits. -/
theorem compareVersions_eq_saturated_lex (v1 v2 : String) :
    (compareVersions v1 v2 = -1 ∨ compareVersions v1 v2 = 0 ∨ compareVersions v1 v2 = 1)
      ∧ compareVersions v1 v2 = specCompare saturatedComponentValue v1 v2
      ∧ (∀ c : List Char,
          (∀ z, decimalValue c = some z →
            -(2 ^ (intSize - 1) : Int) ≤ z ∧ z ≤ (2 ^ (intSize - 1) : Int) - 1) →
          (decimalValue c = none → leadingDigitsValue (stripSign c) ≤ 2 ^ 64 - 1) →
          saturatedComponentValue c = specComponentValue c)
      ∧ compareVersions "1.2.0" "1.10.0" < 0 ∧ compareVersions "12.0" "12.0.0" = 0
      ∧ compareVersions "2" "1.9.9" > 0 := by
  refine ⟨?_, compareVersions_eq_specCompare v1 v2, ?_, by decide, by decide, by decide⟩
  · rw [compareVersions_eq_cmpN]
    exact cmpN_range _ _ _
  · intro c hc hlead
    unfold saturatedComponentValue specComponentValue
    cases hd : decimalValue c with
    | none =>
      have h := hlead hd
      have h64 : (2 : Nat) ^ intSize - 1 = 2 ^ 64 - 1 := by simp [intSize]
      have : ¬ leadingDigitsValue (stripSign c) > 2 ^ intSize - 1 := by omega
      simp only [this, if_false]
    | some z =>
      obtain ⟨h1, h2⟩ := hc z hd
      simp only
      split_ifs <;> first | rfl | omega

/-- Claim C8.  `compareVersions` orders all strings totally: it is reflexive, antisymmetric
in the sense `compareVersions a b = -compareVersions b a`, and transitive. -/
theorem compareVersions_total_order (a b c : String) :
    compareVersions a a = 0
      ∧ compareVersions a b = -compareVersions b a
      ∧ (compareVersions a b ≤ 0 → compareVersions b c ≤ 0 → compareVersions a c ≤ 0) := by
  have key : ∀ (x y : String) (n : Nat),
      (componentValues (fun c => (Atoi c).1) x).length ≤ n →
      (componentValues (fun c => (Atoi c).1) y).length ≤ n →
      compareVersions x y = cmpN n (componentValues (fun c => (Atoi c).1) x)
        (componentValues (fun c => (Atoi c).1) y) := by
    intro x y n hx hy
    rw [compareVersions_eq_cmpN]
    exact (cmpN_stable _ n _ _ (le_max_left _ _) (le_max_right _ _) (max_le hx hy)).symm
  refine ⟨?_, ?_, ?_⟩
  · rw [compareVersions_eq_cmpN]
    exact cmpN_self _ _
  · rw [compareVersions_eq_cmpN, compareVersions_eq_cmpN, max_comm]
    exact cmpN_swap _ _ _
  · intro h1 h2
    have hn : ∃ n, (componentValues (fun c => (Atoi c).1) a).length ≤ n
        ∧ (componentValues (fun c => (Atoi c).1) b).length ≤ n
        ∧ (componentValues (fun c => (Atoi c).1) c).length ≤ n :=
      ⟨max (componentValues (fun c => (Atoi c).1) a).length
          (max (componentValues (fun c => (Atoi c).1) b).length
            (componentValues (fun c => (Atoi c).1) c).length),
        le_max_left _ _, le_trans (le_max_left _ _) (le_max_right _ _),
        le_trans (le_max_right _ _) (le_max_right _ _)⟩
    obtain ⟨n, ha, hb, hc⟩ := hn
    rw [key a b n ha hb] at h1
    rw [key b c n hb hc] at h2
    rw [key a c n ha hc]
    exact cmpN_trans n _ _ _ h1 h2

/-- Witness of claim C8: `1.2 ≤ 1.10 ≤ 2` gives `1.2 ≤ 2`. -/
theorem compareVersions_total_order_witness :
    compareVersions "1.2" "1.10" ≤ 0 ∧ compareVersions "1.10" "2" ≤ 0
      ∧ compareVersions "1.2" "2" ≤ 0 :=
  ⟨by decide, by decide,
    (compareVersions_total_order "1.2" "1.10" "2").2.2 (by decide) (by decide)⟩

/-- Claim C9.  When the extracted tree contains exactly one entry named `floorp.exe`, a
regular file, `findAppDir` returns without error the directory that directly contains it. -/
theorem findAppDir_unique_marker (extractDir : FsPath) (m : Nat) (es : Entries) (d : FsPath)
    (h : Entries.markers extractDir es = [(d, false)]) :
    findAppDir extractDir (Node.dir m es) = Except.ok d := by
  have hall : ∀ x ∈ Entries.markers extractDir es, x = (d, false) := by
    intro x hx
    rw [h] at hx
    simpa using hx
  cases hres : findAppDir extractDir (Node.dir m es) with
  | ok d1 =>
    obtain ⟨b, hb⟩ := findAppDir_ok_marker (fun x => x = (d, false)) extractDir m es hall d1 hres
    simp only [Prod.mk.injEq] at hb
    rw [hb.1]
  | error e =>
    exfalso
    have hsome : (Walk noReadFaults floorpWalkFn extractDir (some (Node.dir m es)) none).1.isSome
        = true := by
      rw [Walk_fst]
      apply floorp_walkNode_some
      exact ⟨d, by simp [Node.markers, h]⟩
    unfold findAppDir at hres
    simp only at hres
    split_ifs at hres
    split at hres
    · cases hres
    · split at hres
      · cases hres
      · rename_i hnone
        rw [hnone] at hsome
        cases hsome

/-- Witness of claim C9: the marker at `x/y/app/floorp.exe` gives `x/y/app`; the marker at
`bin/floorp.exe`, without directory named `app`, gives `bin`. -/
theorem findAppDir_unique_marker_witness :
    (Entries.markers sampleExtractDir sampleNestedApp
        = [(sampleExtractDir ++ ["x", "y", "app"], false)]
      ∧ findAppDir sampleExtractDir (Node.dir 448 sampleNestedApp)
        = Except.ok (sampleExtractDir ++ ["x", "y", "app"]))
    ∧ (Entries.markers sampleExtractDir sampleBin = [(sampleExtractDir ++ ["bin"], false)]
      ∧ findAppDir sampleExtractDir (Node.dir 448 sampleBin)
        = Except.ok (sampleExtractDir ++ ["bin"])) :=
  ⟨⟨by decide, findAppDir_unique_marker sampleExtractDir 448 sampleNestedApp _ (by decide)⟩,
    ⟨by decide, findAppDir_unique_marker sampleExtractDir 448 sampleBin _ (by decide)⟩⟩

/-- Claim C10.  When the extracted tree contains no entry named `floorp.exe`, `findAppDir`
returns the error "payload not found" and no path. -/
theorem findAppDir_no_marker (extractDir : FsPath) (m : Nat) (es : Entries)
    (h : Entries.markers extractDir es = []) :
    findAppDir extractDir (Node.dir m es) = Except.error Err.payloadNotFound := by
  cases hres : findAppDir extractDir (Node.dir m es) with
  | ok d1 =>
    obtain ⟨_, hb⟩ := findAppDir_ok_marker (fun _ => False) extractDir m es
      (by intro x hx; rw [h] at hx; cases hx) d1 hres
    exact hb.elim
  | error e => rw [findAppDir_error _ _ _ hres]

/-- Witness of claim C10: a tree holding only `readme.txt`. -/
theorem findAppDir_no_marker_witness :
    Entries.markers sampleExtractDir sampleNoMarker = []
      ∧ findAppDir sampleExtractDir (Node.dir 448 sampleNoMarker)
        = Except.error Err.payloadNotFound :=
  ⟨by decide, findAppDir_no_marker sampleExtractDir 448 sampleNoMarker (by decide)⟩

/-- Counterexample to claim C11 as stated.  For the page address
`https://github.com/vintage/Floorp/releases` + `/tag/` + `v11.23.1` the first `tag` of the
address is inside `vintage`: it is that occurrence that is replaced, and the segment `tag` is
left as it is. -/
theorem checkForUpdates_downloadURL_counterexample :
    sampleReleaseURL = "https://github.com/vintage/Floorp/releases" ++ "/tag/" ++ "v11.23.1"
      ∧ (checkForUpdates (Except.ok "11.23.0") (Except.ok ("v11.23.1", sampleReleaseURL))).downloadURL
          = "https://github.com/vindownloade/Floorp/releases/tag/v11.23.1"
              ++ "/floorp-win64.installer.exe"
      ∧ (checkForUpdates (Except.ok "11.23.0") (Except.ok ("v11.23.1", sampleReleaseURL))).downloadURL
          ≠ "https://github.com/vintage/Floorp/releases" ++ "/download/" ++ "v11.23.1"
              ++ "/floorp-win64.installer.exe" := by
  decide

/-- Claim C11, amended.  For a release page address `P + "/tag/" + T` in which `P` does not
contain the text `tag`, when both versions are known `checkForUpdates` returns the download
address `P + "/download/" + T + "/floorp-win64.installer.exe"`. -/
theorem checkForUpdates_downloadURL (portapp : Except Err String) (tagName P T c : String)
    (hc : getPortappVersion portapp = Except.ok c) (hcu : c ≠ "unknown")
    (hl : String.mk (trimLeadingV tagName.data) ≠ "unknown")
    (hP : occursIn "tag".data P.data = false) :
    (checkForUpdates portapp (Except.ok (tagName, P ++ "/tag/" ++ T))).downloadURL
      = P ++ "/download/" ++ T ++ "/floorp-win64.installer.exe" := by
  have hrep := replaceFirst_tag_segment P.data T.data hP
  unfold checkForUpdates
  simp only [hc, getLatestGitHubRelease, hl, hcu, ne_eq, not_false_eq_true, and_self, if_true]
  apply String.ext
  simp only [String.data_append]
  exact congrArg (· ++ "/floorp-win64.installer.exe".data) hrep

/-- Witness of claim C11, amended: the release page of the project. -/
theorem checkForUpdates_downloadURL_witness :
    (checkForUpdates (Except.ok "11.23.0")
        (Except.ok ("v11.23.1",
          "https://github.com/Floorp-Projects/Floorp/releases" ++ "/tag/" ++ "v11.23.1"))).downloadURL
      = "https://github.com/Floorp-Projects/Floorp/releases" ++ "/download/" ++ "v11.23.1"
          ++ "/floorp-win64.installer.exe" :=
  checkForUpdates_downloadURL (Except.ok "11.23.0") "v11.23.1"
    "https://github.com/Floorp-Projects/Floorp/releases" "v11.23.1" "11.23.0" rfl (by decide)
    (by decide) (by decide)

/-- Claim C12, the code at a failing input.  The archive member named `../evil.txt` is not
rejected: `extract7zArchive` returns no error and has written the file `tmp/evil.txt`, which
is outside the destination directory `tmp/floorp-extract1`. -/
theorem extract7zArchive_writes_outside :
    joinPath sampleExtractDir "../evil.txt" = ["tmp", "evil.txt"]
      ∧ sampleExtractDir.isPrefixOf (joinPath sampleExtractDir "../evil.txt") = false
      ∧ sampleRoot.get ["tmp", "evil.txt"] = none
      ∧ (extract7zArchive noExtractFaults (Except.ok sampleArchive) sampleExtractDir sampleRoot).2
          = none
      ∧ (extract7zArchive noExtractFaults (Except.ok sampleArchive) sampleExtractDir sampleRoot).1.get
          ["tmp", "evil.txt"] = some (Node.file [66] 420) := by
  decide

/-- Counterexample to claim C13 as stated.  The record holds the key `build` with the number
`9007199254740993` (`2 ^ 53 + 1`).  `updatePortappJson` succeeds and sets `version` to
`11.23.1`, but `json.Unmarshal` decodes the number into the nearest `float64`, and the object
written has `build` equal to `9007199254740992`: the key does not have the value it had
before. -/
theorem updatePortappJson_number_counterexample :
    lastMember "build" samplePortappBigNumber = some (ScalarJson.int 9007199254740993)
      ∧ updatePortappJson scalarDecoder envRecordBigNumber
          = RecordResult.written
              [("build", ScalarGo.float64 9007199254740992), ("version", ScalarGo.str "11.23.1")]
      ∧ (9007199254740992 : Int) ≠ 9007199254740993 := by
  decide

/-- Claim C13, amended.  When `updatePortappJson` succeeds, the file held an object, and the
object written has `version` equal to the fetched tag without its leading `v`; every other
key of the object written is a key of the file and has the value `json.Unmarshal` decoded for
it from the file (from the last member of that key), and every other key of the file is a key
of the object written: no other key is added or removed.  For scalar values the decoding
keeps a string as it is and an integer of magnitude below `2 ^ 53` exactly (as a
`float64`). -/
theorem updatePortappJson_writes_version {F V : Type} (dec : JsonDecoder F V)
    (env : PortappEnv F) (written : JsonObject V)
    (hOk : updatePortappJson dec env = RecordResult.written written) :
    ∃ members tagName htmlURL,
      env.document = Except.ok (JsonDocument.object members)
        ∧ env.response = Except.ok (tagName, htmlURL)
        ∧ jsonGet "version" written
            = some (dec.ofString (String.mk (trimLeadingV tagName.data)))
        ∧ (∀ k, k ≠ "version" →
            (jsonGet k written).map Except.ok = (lastMember k members).map dec.decodeValue)
        ∧ (∀ t, scalarDecoder.decodeValue (ScalarJson.str t) = Except.ok (ScalarGo.str t))
        ∧ (∀ n : Int, n.natAbs < 2 ^ 53 →
            scalarDecoder.decodeValue (ScalarJson.int n) = Except.ok (ScalarGo.float64 n)) := by
  have hstr : ∀ t, scalarDecoder.decodeValue (ScalarJson.str t) = Except.ok (ScalarGo.str t) :=
    fun _ => rfl
  have hint : ∀ n : Int, n.natAbs < 2 ^ 53 →
      scalarDecoder.decodeValue (ScalarJson.int n) = Except.ok (ScalarGo.float64 n) := by
    intro n hn
    simp only [scalarDecoder, nearestFloat64_exact n.natAbs hn]
    congr 2
    split_ifs <;> omega
  unfold updatePortappJson at hOk
  cases hx : env.executable with
  | some e => simp [hx] at hOk
  | none =>
    simp only [hx] at hOk
    cases hm : env.missing with
    | true => simp [hm] at hOk
    | false =>
      simp only [hm, Bool.false_eq_true, if_false] at hOk
      cases hr : env.readFile with
      | some e => simp [hr] at hOk
      | none =>
        simp only [hr] at hOk
        cases hdoc : env.document with
        | error e => simp [hdoc] at hOk
        | ok doc =>
          simp only [hdoc] at hOk
          cases doc with
          | null =>
            simp only [unmarshalMap] at hOk
            cases hg : getLatestGitHubRelease env.response with
            | error e => simp [hg] at hOk
            | ok lu =>
              obtain ⟨l, u⟩ := lu
              simp [hg] at hOk
          | other => simp [unmarshalMap] at hOk
          | object members =>
            simp only [unmarshalMap] at hOk
            cases hdm : decodeMembers dec members [] with
            | error e => simp [hdm] at hOk
            | ok m =>
              simp only [hdm] at hOk
              cases hresp : env.response with
              | error e => simp [hresp, getLatestGitHubRelease] at hOk
              | ok tu =>
                obtain ⟨tagName, htmlURL⟩ := tu
                simp only [hresp, getLatestGitHubRelease] at hOk
                cases hma : env.marshal with
                | some e => simp [hma] at hOk
                | none =>
                  simp only [hma] at hOk
                  cases hw : env.writeFile with
                  | some e => simp [hw] at hOk
                  | none =>
                    simp only [hw, RecordResult.written.injEq] at hOk
                    subst hOk
                    refine ⟨members, tagName, htmlURL, rfl, rfl, jsonGet_jsonSet_self _ _ _, ?_,
                      hstr, hint⟩
                    intro k hk
                    rw [jsonGet_jsonSet_ne _ _ _ _ hk, decodeMembers_get dec k members [] m hdm]
                    cases lastMember k members <;> rfl

/-- Witness of claim C13, amended: after a successful update to the tag `v11.23.1` the
recorded version is `11.23.1`, and the keys `id` and `release` have their decoded values. -/
theorem updatePortappJson_writes_version_witness :
    updatePortappJson scalarDecoder envRecordUpdate
        = RecordResult.written
            [("id", ScalarGo.str "floorp-portable"), ("release", ScalarGo.float64 26),
              ("version", ScalarGo.str "11.23.1")]
      ∧ ∃ members tagName htmlURL,
          envRecordUpdate.document = Except.ok (JsonDocument.object members)
            ∧ envRecordUpdate.response = Except.ok (tagName, htmlURL)
            ∧ jsonGet "version"
                [("id", ScalarGo.str "floorp-portable"), ("release", ScalarGo.float64 26),
                  ("version", ScalarGo.str "11.23.1")]
              = some (scalarDecoder.ofString (String.mk (trimLeadingV tagName.data)))
            ∧ (∀ k, k ≠ "version" →
                (jsonGet k
                  [("id", ScalarGo.str "floorp-portable"), ("release", ScalarGo.float64 26),
                    ("version", ScalarGo.str "11.23.1")]).map Except.ok
                  = (lastMember k members).map scalarDecoder.decodeValue)
            ∧ (∀ t, scalarDecoder.decodeValue (ScalarJson.str t) = Except.ok (ScalarGo.str t))
            ∧ (∀ n : Int, n.natAbs < 2 ^ 53 →
                scalarDecoder.decodeValue (ScalarJson.int n)
                  = Except.ok (ScalarGo.float64 n)) :=
  ⟨by decide, updatePortappJson_writes_version scalarDecoder envRecordUpdate _ (by decide)⟩

/-- Claim C14, the code at a failing input.  In the tree with `a/app/floorp.exe` and
`b/app/floorp.exe` the extraction root has no `app`, the first qualifying directory in walk
order is `a/app`, and `findAppDir` returns `b/app`: `filepath.SkipDir` only skips the
directory found, the walk goes on and the later match replaces the earlier one. -/
theorem findAppDir_returns_later_app_dir :
    statChild (Node.dir 448 sampleTwoApps) "app" = none
      ∧ Node.appDirs sampleExtractDir (Node.dir 448 sampleTwoApps)
          = [sampleExtractDir ++ ["a", "app"], sampleExtractDir ++ ["b", "app"]]
      ∧ findAppDir sampleExtractDir (Node.dir 448 sampleTwoApps)
          = Except.ok (sampleExtractDir ++ ["b", "app"]) := by
  decide

/-- Claim C15, the code at a failing input.  In the tree with `a/floorp.exe` and
`b/floorp.exe` no directory is named `app`, the first marker file in walk order is in `a`,
and `findAppDir` returns `b`: `filepath.SkipDir` returned for a file only skips the rest of
its directory, the walk goes on and the later match replaces the earlier one. -/
theorem findAppDir_returns_later_marker_dir :
    Node.appDirs sampleExtractDir (Node.dir 448 sampleTwoMarkers) = []
      ∧ markerFileDirs sampleExtractDir (Node.dir 448 sampleTwoMarkers)
          = [sampleExtractDir ++ ["a"], sampleExtractDir ++ ["b"]]
      ∧ findAppDir sampleExtractDir (Node.dir 448 sampleTwoMarkers)
          = Except.ok (sampleExtractDir ++ ["b"]) := by
  decide

/-- Claim C16.  Whenever `findAppDir` returns a path without error, for a well-formed tree,
the path is a directory at or below the extraction root and it directly contains an entry
named `floorp.exe`. -/
theorem findAppDir_ok_contains_marker (extractDir : FsPath) (m : Nat) (es : Entries)
    (hwf : es.wf = true) (d : FsPath)
    (h : findAppDir extractDir (Node.dir m es) = Except.ok d) :
    ∃ rel m1 es1, d = extractDir ++ rel ∧ (Node.dir m es).get rel = some (Node.dir m1 es1)
      ∧ (es1.lookup "floorp.exe").isSome = true := by
  obtain ⟨_, rel, hrel, m1, es1, hget, hmk⟩ :=
    findAppDir_ok_marker
      (fun x => ∃ rel, x.1 = extractDir ++ rel ∧ MarkerDirAt (Node.dir m es) rel)
      extractDir m es (fun x hx => entries_markers_markerDirAt es extractDir x m hwf hx) d h
  exact ⟨rel, m1, es1, hrel, hget, hmk⟩

/-- Witness of claim C16: the tree with the payload under `core`. -/
theorem findAppDir_ok_contains_marker_witness :
    findAppDir sampleExtractDir (Node.dir 448 sampleExtracted)
        = Except.ok (sampleExtractDir ++ ["core"])
      ∧ ∃ rel m1 es1, sampleExtractDir ++ ["core"] = sampleExtractDir ++ rel
        ∧ (Node.dir 448 sampleExtracted).get rel = some (Node.dir m1 es1)
        ∧ (es1.lookup "floorp.exe").isSome = true :=
  ⟨by decide,
    findAppDir_ok_contains_marker sampleExtractDir 448 sampleExtracted (by decide) _ (by decide)⟩

end FloorpPortable
